import Mathlib

/-!
# OS-HW-2: the priority queue (libpriqueue.c) and the scheduler (libscheduler.c)

A shallow embedding of the two C source files.

Conventions of the embedding

* A C `int` is an `Int`; no arithmetic in the modelled code is taken modulo a word size
  (signed overflow is undefined in C, and the only arithmetic is `time - arrivalTime`,
  `duration - timeRun`, counters bounded by the queue length, and the statistics sums).
* A handle (`void *`) is a value of an arbitrary type `α`; a function returning a handle
  or `NULL` returns `Option α`, with `none` for `NULL`.
* The heap block `q->qArr` is the list of its cells, `q->size` is kept as a field of its
  own, and a well-formed queue has `size = qArr.length`.  A fresh block is the empty list
  of written cells.  The lifetime of the block is tracked in the field `block`: when
  `priqueue_poll` (line 115) or `priqueue_remove` (line 168) empties the queue, the block
  is passed to `free` and the pointer is kept, so the block is `Block.freed`; the next
  read, write or `free` through `q->qArr` makes it `Block.undefined`, and it stays so.
* A `for` loop over `0 .. n-1` is a fold over `List.range n`; a loop with `break` is a
  recursion over the list of the indices still to visit.
-/

namespace OSHW2

/-! ## libpriqueue.c -/

/-- State of the heap block that the pointer `q->qArr` refers to. -/
inductive Block where
  /-- An allocated block. -/
  | live
  /-- The block has been passed to `free` and `q->qArr` still points to it. -/
  | freed
  /-- A freed block has been read, written or freed again: the behaviour of the program
  is undefined from here on. -/
  | undefined
  deriving DecidableEq

/-- A read or a write of a cell through `q->qArr`, or a `free(q->qArr)` that is followed
by the assignment of a fresh block to `q->qArr`. -/
def Block.access : Block → Block
  | Block.live => Block.live
  | Block.freed => Block.undefined
  | Block.undefined => Block.undefined

/-- The call `free(q->qArr)` with the pointer left in place (lines 115 and 168). -/
def Block.release : Block → Block
  | Block.live => Block.freed
  | Block.freed => Block.undefined
  | Block.undefined => Block.undefined

/-- Modelled from the spec: the struct `priqueue_t` is declared in `libpriqueue.h`, which is
not among the sources; its fields are the ones `libpriqueue.c` reads and writes
(`q->compare`, `q->size`, `q->qArr`).  The pointer `q->qArr` is represented by two fields:
`qArr`, the cells of the block, and `block`, the state of the block itself. -/
structure priqueue_t (α : Type) where
  compare : α → α → Int
  size : Int
  qArr : List α
  block : Block

/-- The assignment `arr[k] = x` on a block represented by the list of its cells: cell `k`
is overwritten when it exists, and a write just past the last written cell adds a cell. -/
def writeCell {α : Type} (arr : List α) (k : Nat) (x : α) : List α :=
  arr.take k ++ x :: arr.drop (k + 1)

/-- `priqueue_init`: stores the comparer, sets the size to 0 (the one-cell block that is
allocated holds no written cell yet). -/
def priqueue_init {α : Type} (comparer : α → α → Int) : priqueue_t α :=
  { compare := comparer, size := 0, qArr := [], block := Block.live }

/-- Local variables of the `for` loop of `priqueue_offer`. -/
structure OfferLocals (α : Type) where
  newArr : List α
  newArrIndex : Nat
  placed : Bool
  placedIndex : Nat

/-- One iteration, for loop index `i`, of the `for` loop of `priqueue_offer`
(lines 52-78). -/
def offerBody {α : Type} (q : priqueue_t α) (ptr : α) (st : OfferLocals α) (i : Nat) :
    OfferLocals α :=
  let st1 : OfferLocals α :=
    if st.placed = false then
      if (i : Int) ≠ q.size then
        match q.qArr[i]? with
        | some e =>
          if q.compare ptr e < 0 then
            { placed := true
              newArr := writeCell st.newArr st.newArrIndex ptr
              placedIndex := st.newArrIndex
              newArrIndex := st.newArrIndex + 1 }
          else st
        | none => st
      else
        { st with
          placed := true
          newArr := writeCell st.newArr st.newArrIndex ptr
          placedIndex := st.newArrIndex }
    else st
  let st2 : OfferLocals α :=
    if (i : Int) ≠ q.size then
      match q.qArr[i]? with
      | some e => { st1 with newArr := writeCell st1.newArr st1.newArrIndex e }
      | none => st1
    else st1
  { st2 with newArrIndex := st2.newArrIndex + 1 }

/-- `priqueue_offer`: returns the index where `ptr` was stored, and the new queue.
With `size == 0` the handle is written into the block `q->qArr` points to (line 41);
otherwise the cells of that block are read, the block is freed (line 79) and `q->qArr` is
set to the new block.  Either way the old block is accessed.  The test `q->qArr == NULL`
of line 38 does not catch a freed block: `free` leaves the pointer as it was, and no
function of the file stores `NULL` in `q->qArr`. -/
def priqueue_offer {α : Type} (q : priqueue_t α) (ptr : α) : Int × priqueue_t α :=
  if q.size = 0 then
    (0, { q with qArr := writeCell q.qArr 0 ptr, size := q.size + 1,
                 block := q.block.access })
  else
    let newSize := q.size + 1
    let st := (List.range (q.size + 1).toNat).foldl (offerBody q ptr)
      { newArr := [], newArrIndex := 0, placed := false, placedIndex := 0 }
    ((st.placedIndex : Int), { q with qArr := st.newArr, size := newSize,
                                      block := q.block.access })

/-- `priqueue_peek`. -/
def priqueue_peek {α : Type} (q : priqueue_t α) : Option α :=
  if q.size = 0 then none else q.qArr[0]?

/-- `priqueue_poll`: returns the head (or `NULL`) and the new queue.  In the branch
`size == 1` (lines 113-117) the block is freed and `q->qArr` keeps pointing to it: the
block no longer holds a cell, and its state is `Block.freed`. -/
def priqueue_poll {α : Type} (q : priqueue_t α) : Option α × priqueue_t α :=
  if q.size = 0 then (none, q)
  else
    let ret := q.qArr[0]?
    if q.size = 1 then
      (ret, { q with size := q.size - 1, qArr := [], block := q.block.access.release })
    else
      let newSize := q.size - 1
      let newArr := (List.range newSize.toNat).foldl
        (fun (arr : List α) (i : Nat) =>
          match q.qArr[i + 1]? with
          | some e => writeCell arr i e
          | none => arr) []
      (ret, { q with qArr := newArr, size := newSize, block := q.block.access })

/-- `priqueue_at`. -/
def priqueue_at {α : Type} (q : priqueue_t α) (index : Int) : Option α :=
  if index ≥ q.size ∨ index < 0 then none else q.qArr[index.toNat]?

/-- The first loop of `priqueue_remove` (lines 160-165): counts the cells equal to `ptr`. -/
def removeCount {α : Type} [DecidableEq α] (q : priqueue_t α) (ptr : α) : Int :=
  (List.range q.size.toNat).foldl
    (fun (count : Int) (i : Nat) => if q.qArr[i]? = some ptr then count + 1 else count) 0

/-- The second loop of `priqueue_remove` (lines 175-180): the pair is `(newArr, newArrIndex)`. -/
def removeCopy {α : Type} [DecidableEq α] (q : priqueue_t α) (ptr : α) : List α × Nat :=
  (List.range q.size.toNat).foldl
    (fun (st : List α × Nat) (i : Nat) =>
      match q.qArr[i]? with
      | some e => if e ≠ ptr then (writeCell st.1 st.2 e, st.2 + 1) else st
      | none => st) ([], 0)

/-- `priqueue_remove`: returns the number of entries removed, and the new queue.  The
counting loop reads the block whenever `size > 0`.  In the branch `count == q->size`
(lines 167-171) the block is freed and `q->qArr` keeps pointing to it: the block no longer
holds a cell, and its state is `Block.freed`. -/
def priqueue_remove {α : Type} [DecidableEq α] (q : priqueue_t α) (ptr : α) :
    Int × priqueue_t α :=
  let count := removeCount q ptr
  if count = 0 then (0, { q with block := if 0 < q.size then q.block.access else q.block })
  else if count = q.size then
    (count, { q with qArr := [], size := 0, block := q.block.access.release })
  else
    let newArr := (removeCopy q ptr).1
    (count, { q with size := q.size - count, qArr := newArr, block := q.block.access })

/-- `priqueue_remove_at`: returns the removed element (or `NULL`) and the new queue.
The test `q->qArr == NULL` of line 200 has no counterpart: a null block only arises from
an allocation that returns `NULL`, and then `size` is 0 and the bounds test of line 201
returns `NULL` too.  When the only element is removed the new block is requested with
size 0 (line 204); what `malloc` returns then is implementation-defined, and the embedding
follows the implementations that return `NULL`, for which the next `priqueue_offer`
allocates a one-cell block (lines 38-40): a live block without cells.  Where `malloc`
returns a non-null pointer for size 0, the write of line 41 falls outside that block. -/
def priqueue_remove_at {α : Type} (q : priqueue_t α) (index : Int) : Option α × priqueue_t α :=
  if index ≥ q.size ∨ index < 0 then (none, q)
  else
    let ret := q.qArr[index.toNat]?
    let newArr : List α :=
      if index = q.size - 1 then
        (List.range (q.size - 1).toNat).foldl
          (fun (arr : List α) (i : Nat) =>
            match q.qArr[i]? with
            | some e => writeCell arr i e
            | none => arr) []
      else
        ((List.range q.size.toNat).foldl
          (fun (st : List α × Nat) (i : Nat) =>
            if (i : Int) ≠ index then
              match q.qArr[i]? with
              | some e => (writeCell st.1 st.2 e, st.2 + 1)
              | none => st
            else st) ([], 0)).1
    (ret, { q with size := q.size - 1, qArr := newArr, block := q.block.access })

/-- `priqueue_size`. -/
def priqueue_size {α : Type} (q : priqueue_t α) : Int := q.size

/-- A well-formed queue: `size` is the number of cells of the block. -/
def WellFormed {α : Type} (q : priqueue_t α) : Prop := q.size = (q.qArr.length : Int)

instance {α : Type} (q : priqueue_t α) : Decidable (WellFormed q) := by
  unfold WellFormed; infer_instance

/-- The lower-value-wins comparator on integers used in the insertion example. -/
def lowerWins (a b : Int) : Int := if a < b then -1 else 1


/-! ## libscheduler.c

The queue of the scheduler holds handles to `job_t` records that are allocated once per
arrival, offered once and never removed.  The embedding keeps the records themselves in
the queue, in queue order: the job behind the handle `priqueue_at(queue, i)` is the record
at position `i`, and a write through that handle is an update of position `i`.  The
comparators therefore always read the current fields of the jobs, as in the C code. -/

/-- The struct `job_t` (lines 17-31). -/
structure job_t where
  id : Int
  arrivalTime : Int
  endTime : Int
  coreAssigned : Int
  duration : Int
  scheduleLatency : Int
  timeRun : Int
  priority : Int
  finished : Int
  deriving DecidableEq

/-- Modelled from the spec: the enum `scheme_t` is declared in `libscheduler.h`, which is
not among the sources; its six values are the case labels of `reschedule` and
`scheduler_start_up` and the six policies of the specification. -/
inductive scheme_t where
  | FCFS
  | SJF
  | PSJF
  | PRI
  | PPRI
  | RR
  deriving DecidableEq

/-- `compareFCFS` (lines 39-44). -/
def compareFCFS (a b : job_t) : Int :=
  if a.arrivalTime < b.arrivalTime then 1 else -1

/-- `compareSJF` (lines 46-55). -/
def compareSJF (a b : job_t) : Int :=
  if a.duration = b.duration then
    if a.arrivalTime < b.arrivalTime then 1 else -1
  else if a.duration < b.duration then 1
  else -1

/-- `comparePSJF` (lines 57-66); `bRemaining` is computed from `a->duration`, as in the
source. -/
def comparePSJF (a b : job_t) : Int :=
  let aRemaining := a.duration - a.timeRun
  let bRemaining := a.duration - b.timeRun
  if aRemaining = bRemaining then
    if a.arrivalTime < b.arrivalTime then 1 else -1
  else if aRemaining < bRemaining then 1
  else -1

/-- `comparePRI` (lines 68-75). -/
def comparePRI (a b : job_t) : Int :=
  if a.priority = b.priority then
    if a.arrivalTime < b.arrivalTime then 1 else -1
  else if a.priority > b.priority then 1
  else -1

/-- `comparePPRI` (lines 77-84). -/
def comparePPRI (a b : job_t) : Int :=
  if a.priority = b.priority then
    if a.arrivalTime < b.arrivalTime then 1 else -1
  else if a.priority > b.priority then 1
  else -1

/-- `compareRR` (lines 86-88). -/
def compareRR (_a _b : job_t) : Int := 1

/-- The global variables of libscheduler.c (lines 33-36). -/
structure SchedState where
  queue : priqueue_t job_t
  activeScheme : scheme_t
  coreCount : Int
  coreArr : List Int

/-- The read `coreArr[i]`.  A read outside the block is undefined in C; the model reads 0
there, and the theorems below only read valid indices. -/
def readCore (coreArr : List Int) (i : Int) : Int :=
  if 0 ≤ i then coreArr.getD i.toNat 0 else 0

/-- The write `coreArr[i] = v`.  A write outside the block is undefined in C; the model
leaves the array as it is. -/
def writeCore (coreArr : List Int) (i : Int) (v : Int) : List Int :=
  if 0 ≤ i then coreArr.set i.toNat v else coreArr

/-- A write of the whole record behind the handle `priqueue_at(queue, i)`. -/
def storeJob (s : SchedState) (i : Nat) (job : job_t) : SchedState :=
  { s with queue := { s.queue with qArr := s.queue.qArr.set i job } }

/-- The body of the loop of `updateTimes` (lines 95-101) on the job behind one handle. -/
def updateJobTimes (time : Int) (job : job_t) : job_t :=
  let job1 : job_t :=
    if job.coreAssigned ≠ -1 ∨ job.endTime = time then
      { job with timeRun := time - job.arrivalTime }
    else job
  if job1.scheduleLatency = -1 ∧ job1.coreAssigned ≠ -1 then
    { job1 with scheduleLatency := time - job1.arrivalTime }
  else job1

/-- `updateTimes` (lines 93-103). -/
def updateTimes (s : SchedState) (time : Int) : SchedState :=
  (List.range (priqueue_size s.queue).toNat).foldl
    (fun (st : SchedState) (i : Nat) =>
      match priqueue_at st.queue (i : Int) with
      | some job => storeJob st i (updateJobTimes time job)
      | none => st) s

/-- The loop `for(i=0;i<coreCount;i++) if(coreArr[i] == -1){ nextCore = i; break; }`
(lines 111-116, 129-134, 146-151) over the indices still to visit: the value of
`nextCore` after the loop, `nextCore` being its value before. -/
def findIdleCore (coreArr : List Int) (nextCore : Int) : List Nat → Int
  | [] => nextCore
  | i :: rest =>
    if readCore coreArr (i : Int) = -1 then (i : Int)
    else findIdleCore coreArr nextCore rest

/-- The `for` loop of lines 119-127 of `fillIdleCores` over the indices still to visit:
the state after the loop and the value of `found`. -/
def assignFirstWaiting (s : SchedState) (nextCore : Int) : List Nat → SchedState × Bool
  | [] => (s, false)
  | i :: rest =>
    match priqueue_at s.queue (i : Int) with
    | some curr =>
      if curr.finished = 0 ∧ curr.coreAssigned = -1 then
        (storeJob { s with coreArr := writeCore s.coreArr nextCore curr.id } i
          { curr with coreAssigned := nextCore }, true)
      else assignFirstWaiting s nextCore rest
    | none => assignFirstWaiting s nextCore rest

/-- The `while(nextCore!=-1)` loop of `fillIdleCores` (lines 117-136), run for at most
`fuel` evaluations of its condition; `none` when the fuel does not suffice. -/
def fillLoop : Nat → SchedState → Int → Option SchedState
  | 0, _, _ => none
  | fuel + 1, s, nextCore =>
    if nextCore ≠ -1 then
      let r := assignFirstWaiting s nextCore (List.range (priqueue_size s.queue).toNat)
      if r.2 = false then some r.1
      else fillLoop fuel r.1
        (findIdleCore r.1.coreArr nextCore (List.range r.1.coreCount.toNat))
    else some s

/-- `fillIdleCores` (lines 106-138).  The `while` loop is given one evaluation of its
condition per job of the queue plus one, which `fillLoop_fuel` shows to be enough. -/
def fillIdleCores (s : SchedState) : SchedState :=
  if priqueue_size s.queue > 0 then
    let nextCore := findIdleCore s.coreArr (-1) (List.range s.coreCount.toNat)
    match fillLoop ((priqueue_size s.queue).toNat + 1) s nextCore with
    | some s1 => s1
    | none => s
  else s

/-- The inner `for` loop of `preemptCores` (lines 154-159) over the indices still to
visit: the index of the handle held by `jobToPreempt` after the loop (`none` for `NULL`),
`last` being the one held before; `i` is the index of `curr`. -/
def findJobToPreempt (s : SchedState) (i : Nat) (last : Option Nat) : List Nat → Option Nat
  | [] => last
  | k :: rest =>
    match priqueue_at s.queue (k : Int), priqueue_at s.queue (i : Int) with
    | some jobToPreempt, some curr =>
      if jobToPreempt.coreAssigned ≠ -1 ∧ s.queue.compare jobToPreempt curr = 1 then some k
      else findJobToPreempt s i (some k) rest
    | _, _ => findJobToPreempt s i (some k) rest

/-- Lines 161-167 of `preemptCores`: the five writes through `curr` (position `i`) and
`jobToPreempt` (position `k`), each reading the records as the previous writes left
them. -/
def preemptJob (s : SchedState) (time : Int) (i k : Nat) : SchedState :=
  match priqueue_at s.queue (i : Int), priqueue_at s.queue (k : Int) with
  | some curr, some jobToPreempt =>
    let s1 := storeJob s i { curr with coreAssigned := jobToPreempt.coreAssigned }
    match priqueue_at s1.queue (k : Int) with
    | some jobToPreempt1 =>
      let s2 := storeJob s1 k { jobToPreempt1 with coreAssigned := -1 }
      match priqueue_at s2.queue (i : Int), priqueue_at s2.queue (k : Int) with
      | some curr2, some jobToPreempt2 =>
        let s3 := { s2 with coreArr := writeCore s2.coreArr curr2.coreAssigned curr2.id }
        let jobToPreempt3 : job_t :=
          { jobToPreempt2 with timeRun := time - jobToPreempt2.arrivalTime }
        let jobToPreempt4 : job_t :=
          if jobToPreempt3.timeRun = 0 then { jobToPreempt3 with scheduleLatency := -1 }
          else jobToPreempt3
        storeJob s3 k jobToPreempt4
      | _, _ => s2
    | none => s1
  | _, _ => s

/-- The body of the outer loop of `preemptCores` (lines 143-174) for loop index `i`. -/
def preemptBody (time : Int) (s : SchedState) (i : Nat) : SchedState :=
  match priqueue_at s.queue (i : Int) with
  | some curr =>
    if curr.coreAssigned ≠ -1 ∧ curr.finished = 0 then
      let nextCore := findIdleCore s.coreArr (-1) (List.range s.coreCount.toNat)
      if nextCore = -1 then
        match findJobToPreempt s i none (List.range (priqueue_size s.queue).toNat) with
        | some k => preemptJob s time i k
        | none => s
      else
        { storeJob s i { curr with coreAssigned := nextCore } with
          coreArr := writeCore s.coreArr nextCore curr.id }
    else s
  | none => s

/-- `preemptCores` (lines 140-177). -/
def preemptCores (s : SchedState) (time : Int) : SchedState :=
  if priqueue_size s.queue > 0 then
    (List.range (priqueue_size s.queue).toNat).foldl (preemptBody time) s
  else s

/-- `reschedule` (lines 179-206). -/
def reschedule (s : SchedState) (time : Int) : SchedState :=
  match s.activeScheme with
  | scheme_t.FCFS => fillIdleCores s
  | scheme_t.SJF => fillIdleCores s
  | scheme_t.PSJF => preemptCores s time
  | scheme_t.PRI => fillIdleCores s
  | scheme_t.PPRI => preemptCores s time
  | scheme_t.RR => fillIdleCores s

/-- The comparator that `scheduler_start_up` passes to `priqueue_init` (lines 233-259). -/
def schemeComparator : scheme_t → job_t → job_t → Int
  | scheme_t.FCFS => compareFCFS
  | scheme_t.SJF => compareSJF
  | scheme_t.PSJF => comparePSJF
  | scheme_t.PRI => comparePRI
  | scheme_t.PPRI => comparePPRI
  | scheme_t.RR => compareRR

/-- `scheduler_start_up` (lines 222-260). -/
def scheduler_start_up (cores : Int) (scheme : scheme_t) : SchedState :=
  { queue := priqueue_init (schemeComparator scheme)
    activeScheme := scheme
    coreCount := cores
    coreArr := List.replicate cores.toNat (-1) }

/-- `scheduler_new_job` (lines 283-304): the returned value and the new state.  The
position of the new job is the one `priqueue_offer` returned; nothing moves a handle
afterwards, so `newJob->coreAssigned` is read at that position. -/
def scheduler_new_job (s : SchedState) (job_number time running_time priority : Int) :
    Int × SchedState :=
  let newJob : job_t :=
    { arrivalTime := time
      id := job_number
      duration := running_time
      priority := priority
      endTime := -1
      timeRun := 0
      finished := 0
      scheduleLatency := -1
      coreAssigned := -1 }
  let r := priqueue_offer s.queue newJob
  let s1 : SchedState := { s with queue := r.2 }
  let s2 := reschedule s1 time
  let s3 := updateTimes s2 time
  match priqueue_at s3.queue r.1 with
  | some job => (job.coreAssigned, s3)
  | none => (-1, s3)

/-- The search loop of `scheduler_job_finished` (lines 325-331) over the indices still to
visit: the position of `finishedJob`, `none` for `NULL`. -/
def findJobById (q : priqueue_t job_t) (job_number : Int) : List Nat → Option Nat
  | [] => none
  | i :: rest =>
    match priqueue_at q (i : Int) with
    | some job => if job.id = job_number then some i else findJobById q job_number rest
    | none => findJobById q job_number rest

/-- `scheduler_job_finished` (lines 322-340): the returned value and the new state. -/
def scheduler_job_finished (s : SchedState) (core_id job_number time : Int) :
    Int × SchedState :=
  match findJobById s.queue job_number (List.range (priqueue_size s.queue).toNat) with
  | none => (readCore s.coreArr core_id, s)
  | some i =>
    match priqueue_at s.queue (i : Int) with
    | none => (readCore s.coreArr core_id, s)
    | some finishedJob =>
      let s1 := storeJob s i { finishedJob with endTime := time, coreAssigned := -1 }
      let s2 : SchedState := { s1 with coreArr := writeCore s1.coreArr core_id (-1) }
      let s3 :=
        match priqueue_at s2.queue (i : Int) with
        | some job => storeJob s2 i { job with finished := 1 }
        | none => s2
      let s4 := updateTimes s3 time
      let s5 := reschedule s4 time
      (readCore s5.coreArr core_id, s5)

/-- `scheduler_quantum_expired` (lines 356-359). -/
def scheduler_quantum_expired (s : SchedState) (_core_id _time : Int) : Int × SchedState :=
  (-1, s)

/-- `scheduler_average_waiting_time` (lines 369-378).  The `float` accumulator and the
returned `float` are exact rationals in the model: the integer terms are added without
rounding and the sum is divided by the size of the queue (the quotient by 0 is 0 in the
model, where C leaves the result of `0.0/0` to the floating-point unit). -/
def scheduler_average_waiting_time (s : SchedState) : ℚ :=
  let sum : ℚ := (List.range (priqueue_size s.queue).toNat).foldl
    (fun (sum : ℚ) (i : Nat) =>
      match priqueue_at s.queue (i : Int) with
      | some job =>
        let length : Int := job.endTime - job.arrivalTime
        sum + ((length - job.duration : Int) : ℚ)
      | none => sum) 0
  sum / ((priqueue_size s.queue : Int) : ℚ)

/-- `scheduler_average_turnaround_time` (lines 388-397), with exact rationals for the
`float` values. -/
def scheduler_average_turnaround_time (s : SchedState) : ℚ :=
  let sum : ℚ := (List.range (priqueue_size s.queue).toNat).foldl
    (fun (sum : ℚ) (i : Nat) =>
      match priqueue_at s.queue (i : Int) with
      | some job =>
        let length : Int := job.endTime - job.arrivalTime
        sum + ((length : Int) : ℚ)
      | none => sum) 0
  sum / ((priqueue_size s.queue : Int) : ℚ)

/-- `scheduler_average_response_time` (lines 407-416), with exact rationals for the
`float` values. -/
def scheduler_average_response_time (s : SchedState) : ℚ :=
  let sum : ℚ := (List.range (priqueue_size s.queue).toNat).foldl
    (fun (sum : ℚ) (i : Nat) =>
      match priqueue_at s.queue (i : Int) with
      | some job => sum + ((job.scheduleLatency : Int) : ℚ)
      | none => sum) 0
  sum / ((priqueue_size s.queue : Int) : ℚ)

/-- An event delivered by the driver: one call of the event API. -/
inductive Event where
  | arrival (job_number time running_time priority : Int)
  | completion (core_id job_number time : Int)
  | quantum (core_id time : Int)
  deriving DecidableEq

/-- The call an event stands for. -/
def step (s : SchedState) : Event → Int × SchedState
  | Event.arrival job_number time running_time priority =>
    scheduler_new_job s job_number time running_time priority
  | Event.completion core_id job_number time =>
    scheduler_job_finished s core_id job_number time
  | Event.quantum core_id time => scheduler_quantum_expired s core_id time

/-- The state after a sequence of events. -/
def run (s : SchedState) (evs : List Event) : SchedState :=
  evs.foldl (fun st e => (step st e).2) s

/-- The values returned to the driver by a sequence of events. -/
def runReturns (s : SchedState) : List Event → List Int
  | [] => []
  | e :: evs => (step s e).1 :: runReturns (step s e).2 evs

/-- A job that is unfinished and has no core assignment. -/
def isWaiting (job : job_t) : Prop := job.finished = 0 ∧ job.coreAssigned = -1

instance (job : job_t) : Decidable (isWaiting job) := by
  unfold isWaiting; infer_instance

/-- The core index of a completion event is one of the `cores` indices. -/
def validCore (cores : Int) : Event → Prop
  | Event.completion core_id _ _ => 0 ≤ core_id ∧ core_id < cores
  | _ => True

instance (cores : Int) (e : Event) : Decidable (validCore cores e) := by
  cases e <;> unfold validCore <;> infer_instance

/-- Every completion event of the list names one of the `cores` core indices. -/
def validCores (cores : Int) (evs : List Event) : Prop :=
  ∀ e ∈ evs, validCore cores e

instance (cores : Int) (evs : List Event) : Decidable (validCores cores evs) := by
  unfold validCores; infer_instance

/-- The times of the arrival events of a list, in order. -/
def arrivalTimes : List Event → List Int
  | [] => []
  | Event.arrival _ time _ _ :: evs => time :: arrivalTimes evs
  | _ :: evs => arrivalTimes evs

/-- A sequence of `priqueue_offer` calls, one for each handle of `hs` in order. -/
def offerAll {α : Type} (q : priqueue_t α) (hs : List α) : priqueue_t α :=
  hs.foldl (fun q h => (priqueue_offer q h).2) q

/-- The values returned by a sequence of `priqueue_offer` calls. -/
def offerAllIndices {α : Type} (q : priqueue_t α) : List α → List Int
  | [] => []
  | h :: hs => (priqueue_offer q h).1 :: offerAllIndices (priqueue_offer q h).2 hs

/-- The locals of the `for` loop of `priqueue_offer` after the iterations `0 .. k-1`. -/
def offerLoop {α : Type} (q : priqueue_t α) (ptr : α) (k : Nat) : OfferLocals α :=
  (List.range k).foldl (offerBody q ptr)
    { newArr := [], newArrIndex := 0, placed := false, placedIndex := 0 }

/-- A well-formed scheduler state: the queue is well formed and `coreArr` has `coreCount`
cells. -/
def WFS (s : SchedState) : Prop :=
  WellFormed s.queue ∧ s.coreArr.length = s.coreCount.toNat

/-- No core is idle. -/
def noIdle (s : SchedState) : Prop :=
  ∀ i : Nat, i < s.coreArr.length → readCore s.coreArr (i : Int) ≠ -1

/-- No job is waiting for a core. -/
def noWaiting (s : SchedState) : Prop :=
  ∀ job ∈ s.queue.qArr, ¬ isWaiting job

/-- A job with its core assignment blanked: what `fillIdleCores` never changes. -/
def eraseCore (job : job_t) : job_t := { job with coreAssigned := 0 }

/-- A job with its timing fields blanked: what `updateTimes` never changes. -/
def eraseTimes (job : job_t) : job_t := { job with timeRun := 0, scheduleLatency := 0 }

/-- What `fillIdleCores` leaves as it is: the policy, the core count, the comparator, the
size and order of the queue and every field of every job but `coreAssigned`, and the
number of cells of `coreArr`. -/
def sameFrame (s s1 : SchedState) : Prop :=
  s1.activeScheme = s.activeScheme ∧ s1.coreCount = s.coreCount ∧
  s1.queue.compare = s.queue.compare ∧ s1.queue.size = s.queue.size ∧
  s1.queue.qArr.map eraseCore = s.queue.qArr.map eraseCore ∧
  s1.coreArr.length = s.coreArr.length

/-- A non-preemptive policy: one for which `reschedule` calls `fillIdleCores`. -/
def nonPreemptive (scheme : scheme_t) : Prop :=
  scheme = scheme_t.FCFS ∨ scheme = scheme_t.SJF ∨ scheme = scheme_t.PRI ∨
    scheme = scheme_t.RR

instance (scheme : scheme_t) : Decidable (nonPreemptive scheme) := by
  unfold nonPreemptive; infer_instance

/-- The invariant of the engine states reached from `scheduler_start_up cores scheme`
under a non-preemptive policy: the state is well formed, the globals set at start-up are
as set, and no core is idle or no job is waiting. -/
def Inv (cores : Int) (scheme : scheme_t) (s : SchedState) : Prop :=
  WFS s ∧ s.activeScheme = scheme ∧ s.coreCount = cores ∧
  s.queue.compare = schemeComparator scheme ∧ (noIdle s ∨ noWaiting s)

/-- The job record that `scheduler_new_job` builds (lines 285-296). -/
def newJobRecord (job_number time running_time priority : Int) : job_t :=
  { arrivalTime := time
    id := job_number
    duration := running_time
    priority := priority
    endTime := -1
    timeRun := 0
    finished := 0
    scheduleLatency := -1
    coreAssigned := -1 }

/-- A job record as `scheduler_new_job` leaves it in the queue before any dispatch, with
a given id, arrival time, duration, elapsed run time and priority. -/
def mkJob (id arrivalTime duration timeRun priority : Int) : job_t :=
  { id := id
    arrivalTime := arrivalTime
    endTime := -1
    coreAssigned := -1
    duration := duration
    scheduleLatency := -1
    timeRun := timeRun
    priority := priority
    finished := 0 }

/-- A preemptive policy: one for which `reschedule` calls `preemptCores`. -/
def preemptive (scheme : scheme_t) : Prop :=
  scheme = scheme_t.PSJF ∨ scheme = scheme_t.PPRI

instance (scheme : scheme_t) : Decidable (preemptive scheme) := by
  unfold preemptive; infer_instance

/-- The invariant of the engine states reached from `scheduler_start_up cores scheme`
under a preemptive policy: the state is well formed, the globals set at start-up are as
set, no job holds a core and every core is idle. -/
def InvP (cores : Int) (scheme : scheme_t) (s : SchedState) : Prop :=
  WFS s ∧ s.activeScheme = scheme ∧ s.coreCount = cores ∧
  (∀ job ∈ s.queue.qArr, job.coreAssigned = -1) ∧ (∀ x ∈ s.coreArr, x = -1)

/-- The number of jobs that are unfinished and have no core assignment. -/
def waitingCount (s : SchedState) : Nat :=
  (s.queue.qArr.filter (fun j => isWaiting j)).length

/-- The jobs of `l1` are those of `l`, position by position, up to `coreAssigned`, and
those that were not waiting in `l` are the same in every field. -/
def jobsKept (l l1 : List job_t) : Prop :=
  ∀ (i : Nat) (job : job_t), l[i]? = some job →
    ∃ job1, l1[i]? = some job1 ∧ eraseCore job1 = eraseCore job ∧
      (¬ isWaiting job → job1 = job)

/-! ## Correctness of the queue operations -/

theorem writeCell_length {α : Type} (arr : List α) (x : α) :
    writeCell arr arr.length x = arr ++ [x] := by
  simp [writeCell]

theorem writeCell_of_eq {α : Type} (arr : List α) (k : Nat) (x : α) (h : k = arr.length) :
    writeCell arr k x = arr ++ [x] := by
  subst h; exact writeCell_length arr x

theorem offerLoop_succ {α : Type} (q : priqueue_t α) (ptr : α) (k : Nat) :
    offerLoop q ptr (k + 1) = offerBody q ptr (offerLoop q ptr k) k := by
  simp [offerLoop, List.range_succ, List.foldl_append]

theorem take_succ_of_getElem? {α : Type} (l : List α) (k : Nat) (e : α) (h : l[k]? = some e) :
    l.take (k + 1) = l.take k ++ [e] := by
  rw [List.take_succ, h]; rfl

theorem offerBody_place {α : Type} (q : priqueue_t α) (ptr e : α) (arr : List α)
    (idx pidx i : Nat) (hne : (i : Int) ≠ q.size) (hget : q.qArr[i]? = some e)
    (hc : q.compare ptr e < 0) :
    offerBody q ptr ⟨arr, idx, false, pidx⟩ i
      = ⟨writeCell (writeCell arr idx ptr) (idx + 1) e, idx + 2, true, idx⟩ := by
  simp [offerBody, hne, hget, hc]

theorem offerBody_skip {α : Type} (q : priqueue_t α) (ptr e : α) (arr : List α)
    (idx pidx i : Nat) (hne : (i : Int) ≠ q.size) (hget : q.qArr[i]? = some e)
    (hc : ¬ q.compare ptr e < 0) :
    offerBody q ptr ⟨arr, idx, false, pidx⟩ i = ⟨writeCell arr idx e, idx + 1, false, pidx⟩ := by
  simp [offerBody, hne, hget, hc]

theorem offerBody_copy {α : Type} (q : priqueue_t α) (ptr e : α) (arr : List α)
    (idx pidx i : Nat) (hne : (i : Int) ≠ q.size) (hget : q.qArr[i]? = some e) :
    offerBody q ptr ⟨arr, idx, true, pidx⟩ i = ⟨writeCell arr idx e, idx + 1, true, pidx⟩ := by
  simp [offerBody, hne, hget]

theorem offerBody_last_unplaced {α : Type} (q : priqueue_t α) (ptr : α) (arr : List α)
    (idx pidx i : Nat) (he : (i : Int) = q.size) :
    offerBody q ptr ⟨arr, idx, false, pidx⟩ i = ⟨writeCell arr idx ptr, idx + 1, true, idx⟩ := by
  simp [offerBody, he]

theorem offerBody_last_placed {α : Type} (q : priqueue_t α) (ptr : α) (arr : List α)
    (idx pidx i : Nat) (he : (i : Int) = q.size) :
    offerBody q ptr ⟨arr, idx, true, pidx⟩ i = ⟨arr, idx + 1, true, pidx⟩ := by
  simp [offerBody, he]

/-- Loop invariant of `priqueue_offer` over the cells of the old block. -/
theorem offerLoop_spec {α : Type} (q : priqueue_t α) (ptr : α) (hwf : WellFormed q) :
    ∀ k, k ≤ q.qArr.length →
      (offerLoop q ptr k = ⟨q.qArr.take k, k, false, 0⟩ ∧
        ∀ j e, j < k → q.qArr[j]? = some e → 0 ≤ q.compare ptr e) ∨
      (∃ p e, p < k ∧ q.qArr[p]? = some e ∧ q.compare ptr e < 0 ∧
        (∀ j e, j < p → q.qArr[j]? = some e → 0 ≤ q.compare ptr e) ∧
        offerLoop q ptr k = ⟨q.qArr.take p ++ ptr :: (q.qArr.take k).drop p, k + 1, true, p⟩) := by
  intro k
  induction k with
  | zero =>
    intro _
    left
    refine ⟨by simp [offerLoop], ?_⟩
    intro j e hj; omega
  | succ k ih =>
    intro hk
    have hklt : k < q.qArr.length := by omega
    have hne : (k : Int) ≠ q.size := by
      unfold WellFormed at hwf; omega
    have hget : q.qArr[k]? = some q.qArr[k] := List.getElem?_eq_getElem hklt
    have htk := take_succ_of_getElem? q.qArr k _ hget
    have hlenk : (List.take k q.qArr).length = k := by
      rw [List.length_take]; omega
    rcases ih (by omega) with ⟨hst, hall⟩ | ⟨p, e, hp, hpe, hlt, hall, hst⟩
    · by_cases hc : q.compare ptr q.qArr[k] < 0
      · right
        refine ⟨k, q.qArr[k], by omega, hget, hc, hall, ?_⟩
        rw [offerLoop_succ, hst, offerBody_place q ptr _ _ _ _ _ hne hget hc,
          writeCell_of_eq _ _ _ hlenk.symm,
          writeCell_of_eq _ _ _ (by rw [List.length_append, hlenk]; rfl), htk]
        have : List.drop k (List.take k q.qArr ++ [q.qArr[k]]) = [q.qArr[k]] := by
          rw [List.drop_append_of_le_length (by omega), List.drop_of_length_le (by omega)]
          rfl
        rw [this, List.append_assoc]
        rfl
      · left
        constructor
        · rw [offerLoop_succ, hst, offerBody_skip q ptr _ _ _ _ _ hne hget hc,
            writeCell_of_eq _ _ _ hlenk.symm, htk]
        · intro j e hj hje
          rcases Nat.lt_succ_iff_lt_or_eq.mp hj with h | h
          · exact hall j e h hje
          · subst h
            rw [hget] at hje
            cases hje
            omega
    · right
      refine ⟨p, e, by omega, hpe, hlt, hall, ?_⟩
      have hlen : (List.take p q.qArr ++ ptr :: List.drop p (List.take k q.qArr)).length
          = k + 1 := by
        rw [List.length_append, List.length_cons, List.length_drop, List.length_take, hlenk]
        omega
      rw [offerLoop_succ, hst, offerBody_copy q ptr _ _ _ _ _ hne hget,
        writeCell_of_eq _ _ _ hlen.symm, htk, List.drop_append_of_le_length (by omega),
        List.append_assoc]
      rfl

/-- What `priqueue_offer` computes on a well-formed queue: the returned index is the least
index whose occupant the new handle precedes (or the size), and the handle is spliced in
there. -/
theorem priqueue_offer_cases {α : Type} (q : priqueue_t α) (ptr : α) (hwf : WellFormed q) :
    ∃ i : Nat, i ≤ q.qArr.length ∧
      (∀ j e, j < i → q.qArr[j]? = some e → 0 ≤ q.compare ptr e) ∧
      (i < q.qArr.length → ∃ e, q.qArr[i]? = some e ∧ q.compare ptr e < 0) ∧
      priqueue_offer q ptr
        = ((i : Int), ⟨q.compare, q.size + 1, q.qArr.take i ++ ptr :: q.qArr.drop i,
            q.block.access⟩) := by
  have hwf0 := hwf
  unfold WellFormed at hwf
  by_cases h0 : q.size = 0
  · have hnil : q.qArr = [] := by
      apply List.eq_nil_of_length_eq_zero; omega
    refine ⟨0, by omega, ?_, ?_, ?_⟩
    · intro j e hj; omega
    · intro h; rw [hnil] at h; simp at h
    · simp [priqueue_offer, h0, hnil, writeCell]
  · have hn : (q.size + 1).toNat = q.qArr.length + 1 := by omega
    have hlast : ((q.qArr.length : Nat) : Int) = q.size := hwf.symm
    have hfold : (List.range (q.size + 1).toNat).foldl (offerBody q ptr)
        { newArr := [], newArrIndex := 0, placed := false, placedIndex := 0 }
        = offerBody q ptr (offerLoop q ptr q.qArr.length) q.qArr.length := by
      rw [hn, ← offerLoop_succ]; rfl
    have hoffer : priqueue_offer q ptr =
        (((offerBody q ptr (offerLoop q ptr q.qArr.length) q.qArr.length).placedIndex : Int),
          ⟨q.compare, q.size + 1,
            (offerBody q ptr (offerLoop q ptr q.qArr.length) q.qArr.length).newArr,
            q.block.access⟩) := by
      simp only [priqueue_offer, h0, if_false, hfold]
    rcases offerLoop_spec q ptr hwf0 q.qArr.length (le_refl _) with
      ⟨hst, hall⟩ | ⟨p, e, hp, hpe, hlt, hall, hst⟩
    · refine ⟨q.qArr.length, le_refl _, hall, fun h => absurd h (lt_irrefl _), ?_⟩
      rw [hoffer, hst, offerBody_last_unplaced q ptr _ _ _ _ hlast]
      rw [List.take_length, writeCell_length, List.drop_length]
    · refine ⟨p, by omega, hall, fun _ => ⟨e, hpe, hlt⟩, ?_⟩
      rw [hoffer, hst, offerBody_last_placed q ptr _ _ _ _ hlast, List.take_length]

/-- The splice at the least index whose occupant the new handle precedes is the insertion
before the first such occupant. -/
theorem splice_eq_orderedInsert {α : Type} (cmp : α → α → Int) (ptr : α) :
    ∀ (l : List α) (i : Nat), i ≤ l.length →
      (∀ j e, j < i → l[j]? = some e → 0 ≤ cmp ptr e) →
      (i < l.length → ∃ e, l[i]? = some e ∧ cmp ptr e < 0) →
      l.take i ++ ptr :: l.drop i = List.orderedInsert (fun a b => cmp a b < 0) ptr l := by
  intro l
  induction l with
  | nil =>
    intro i hi _ _
    have : i = 0 := by simpa using hi
    subst this
    simp
  | cons x l ih =>
    intro i hi hall hat
    cases i with
    | zero =>
      obtain ⟨e, he, hlt⟩ := hat (by simp)
      simp at he
      subst he
      simp [List.orderedInsert, hlt]
    | succ i =>
      have hx : 0 ≤ cmp ptr x := hall 0 x (by omega) (by simp)
      have hx2 : ¬ cmp ptr x < 0 := by omega
      have := ih i (by simpa using hi)
        (fun j e hj hje => hall (j + 1) e (by omega) (by simpa using hje))
        (fun h => by
          obtain ⟨e, he, hlt⟩ := hat (by simpa using h)
          exact ⟨e, by simpa using he, hlt⟩)
      simp [List.orderedInsert, hx2, this]

/-- The new sequence after `priqueue_offer`, as an insertion into the old sequence. -/
theorem priqueue_offer_qArr {α : Type} (q : priqueue_t α) (ptr : α) (hwf : WellFormed q) :
    (priqueue_offer q ptr).2
      = ⟨q.compare, q.size + 1, List.orderedInsert (fun a b => q.compare a b < 0) ptr q.qArr,
          q.block.access⟩ := by
  obtain ⟨i, hi, hall, hat, heq⟩ := priqueue_offer_cases q ptr hwf
  rw [heq, splice_eq_orderedInsert q.compare ptr q.qArr i hi hall hat]

theorem priqueue_offer_wellFormed {α : Type} (q : priqueue_t α) (ptr : α) (hwf : WellFormed q) :
    WellFormed (priqueue_offer q ptr).2 := by
  rw [priqueue_offer_qArr q ptr hwf]
  unfold WellFormed at *
  simp [List.orderedInsert_length, hwf]

theorem priqueue_at_eq {α : Type} (q : priqueue_t α) (hwf : WellFormed q) (i : Nat) :
    priqueue_at q (i : Int) = q.qArr[i]? := by
  unfold WellFormed at hwf
  unfold priqueue_at
  by_cases h : i < q.qArr.length
  · have : ¬ ((i : Int) ≥ q.size ∨ (i : Int) < 0) := by omega
    simp [this]
  · have : (i : Int) ≥ q.size ∨ (i : Int) < 0 := by omega
    simp only [this, if_true]
    exact (List.getElem?_eq_none (by omega)).symm

theorem offerAll_cons {α : Type} (q : priqueue_t α) (h : α) (hs : List α) :
    offerAll q (h :: hs) = offerAll (priqueue_offer q h).2 hs := rfl

theorem offerAll_append {α : Type} (q : priqueue_t α) (hs : List α) (h : α) :
    offerAll q (hs ++ [h]) = (priqueue_offer (offerAll q hs) h).2 := by
  simp [offerAll, List.foldl_append]

theorem offerAll_wellFormed {α : Type} (hs : List α) :
    ∀ q : priqueue_t α, WellFormed q → WellFormed (offerAll q hs) := by
  induction hs with
  | nil => intro q h; exact h
  | cons h hs ih =>
    intro q hq
    rw [offerAll_cons]
    exact ih _ (priqueue_offer_wellFormed q h hq)

theorem offerAll_compare {α : Type} (hs : List α) :
    ∀ q : priqueue_t α, WellFormed q → (offerAll q hs).compare = q.compare := by
  induction hs with
  | nil => intro q _; rfl
  | cons h hs ih =>
    intro q hq
    rw [offerAll_cons, ih _ (priqueue_offer_wellFormed q h hq), priqueue_offer_qArr q h hq]

/-- The sequence after a run of offers, as a left fold of insertions. -/
theorem offerAll_qArr {α : Type} (hs : List α) :
    ∀ q : priqueue_t α, WellFormed q →
      (offerAll q hs).qArr
        = hs.foldl (fun l h => List.orderedInsert (fun a b => q.compare a b < 0) h l) q.qArr := by
  induction hs with
  | nil => intro q _; rfl
  | cons h hs ih =>
    intro q hq
    rw [offerAll_cons, ih _ (priqueue_offer_wellFormed q h hq), priqueue_offer_qArr q h hq]
    rfl

theorem orderedInsert_cons_lt {α : Type} (cmp : α → α → Int) (h x : α) (l : List α)
    (hlt : cmp h x < 0) :
    List.orderedInsert (fun a b => cmp a b < 0) h (x :: l) = h :: x :: l := by
  simp [List.orderedInsert, hlt]

theorem orderedInsert_cons_ge {α : Type} (cmp : α → α → Int) (h x : α) (l : List α)
    (hge : ¬ cmp h x < 0) :
    List.orderedInsert (fun a b => cmp a b < 0) h (x :: l)
      = x :: List.orderedInsert (fun a b => cmp a b < 0) h l := by
  simp [List.orderedInsert, hge]

/-- Insertion before the first occupant the new element precedes keeps every adjacent pair
in order, for a comparator that is consistent in sign. -/
theorem chain_orderedInsert {α : Type} (cmp : α → α → Int)
    (hsign : ∀ a b, cmp a b < 0 → 0 ≤ cmp b a) (h : α) :
    ∀ l : List α, List.Chain' (fun x y => 0 ≤ cmp y x) l →
      List.Chain' (fun x y => 0 ≤ cmp y x)
        (List.orderedInsert (fun a b => cmp a b < 0) h l) := by
  intro l
  induction l with
  | nil => intro _; simp
  | cons x l ih =>
    intro hc
    by_cases hlt : cmp h x < 0
    · rw [orderedInsert_cons_lt cmp h x l hlt]
      exact List.chain'_cons.mpr ⟨hsign h x hlt, hc⟩
    · have hxl := List.chain'_cons'.mp hc
      have hrec := ih hxl.2
      rw [orderedInsert_cons_ge cmp h x l hlt]
      refine List.Chain'.cons' hrec ?_
      intro y hy
      cases l with
      | nil =>
        simp at hy
        subst hy
        omega
      | cons z l =>
        by_cases hz : cmp h z < 0
        · rw [orderedInsert_cons_lt cmp h z l hz] at hy
          simp at hy
          subst hy
          omega
        · rw [orderedInsert_cons_ge cmp h z l hz] at hy
          simp at hy
          subst hy
          exact hxl.1 z (by simp)

theorem chain_foldl_orderedInsert {α : Type} (cmp : α → α → Int)
    (hsign : ∀ a b, cmp a b < 0 → 0 ≤ cmp b a) (hs : List α) :
    ∀ l : List α, List.Chain' (fun x y => 0 ≤ cmp y x) l →
      List.Chain' (fun x y => 0 ≤ cmp y x)
        (hs.foldl (fun l h => List.orderedInsert (fun a b => cmp a b < 0) h l) l) := by
  induction hs with
  | nil => intro l hl; exact hl
  | cons h hs ih =>
    intro l hl
    exact ih _ (chain_orderedInsert cmp hsign h l hl)

/-- Inserting `x` in front of the elements it does not exceed commutes with inserting `h`
behind the elements it does not precede. -/
theorem orderedInsert_comm {α : Type} (val : α → Int) (cmp : α → α → Int)
    (hcmp : ∀ a b, cmp a b < 0 ↔ val a < val b) (x h : α) :
    ∀ l : List α,
      List.orderedInsert (fun a b => val a ≤ val b) x
          (List.orderedInsert (fun a b => cmp a b < 0) h l)
        = List.orderedInsert (fun a b => cmp a b < 0) h
          (List.orderedInsert (fun a b => val a ≤ val b) x l) := by
  intro l
  induction l with
  | nil =>
    by_cases hxh : val x ≤ val h
    · have : ¬ cmp h x < 0 := by rw [hcmp]; omega
      simp [List.orderedInsert, hxh, this]
    · have : cmp h x < 0 := by rw [hcmp]; omega
      simp [List.orderedInsert, hxh, this]
  | cons y l ih =>
    by_cases hhy : cmp h y < 0
    · have hhy2 : val h < val y := (hcmp h y).mp hhy
      by_cases hxy : val x ≤ val y
      · by_cases hxh : val x ≤ val h
        · have : ¬ cmp h x < 0 := by rw [hcmp]; omega
          simp [List.orderedInsert, hhy, hxy, hxh, this]
        · have : cmp h x < 0 := by rw [hcmp]; omega
          simp [List.orderedInsert, hhy, hxy, hxh, this]
      · have hxh : ¬ val x ≤ val h := by omega
        simp [List.orderedInsert, hhy, hxy, hxh]
    · have hhy2 : ¬ val h < val y := fun hlt => hhy ((hcmp h y).mpr hlt)
      by_cases hxy : val x ≤ val y
      · have : ¬ cmp h x < 0 := by rw [hcmp]; omega
        simp [List.orderedInsert, hhy, hxy, this]
      · rw [orderedInsert_cons_ge cmp h y l hhy]
        have e1 : ∀ t : List α, List.orderedInsert (fun a b => val a ≤ val b) x (y :: t)
            = y :: List.orderedInsert (fun a b => val a ≤ val b) x t := by
          intro t; simp [List.orderedInsert, hxy]
        rw [e1, e1, orderedInsert_cons_ge cmp h y _ hhy, ih]

/-- Sorting a list extended by `h` at its end inserts `h` behind its equals. -/
theorem insertionSort_concat {α : Type} (val : α → Int) (cmp : α → α → Int)
    (hcmp : ∀ a b, cmp a b < 0 ↔ val a < val b) (h : α) :
    ∀ l : List α,
      List.insertionSort (fun a b => val a ≤ val b) (l ++ [h])
        = List.orderedInsert (fun a b => cmp a b < 0) h
          (List.insertionSort (fun a b => val a ≤ val b) l) := by
  intro l
  induction l with
  | nil => simp [List.insertionSort]
  | cons x l ih =>
    have e1 : List.insertionSort (fun a b => val a ≤ val b) (x :: l ++ [h])
        = List.orderedInsert (fun a b => val a ≤ val b) x
          (List.insertionSort (fun a b => val a ≤ val b) (l ++ [h])) := rfl
    have e2 : List.insertionSort (fun a b => val a ≤ val b) (x :: l)
        = List.orderedInsert (fun a b => val a ≤ val b) x
          (List.insertionSort (fun a b => val a ≤ val b) l) := rfl
    rw [e1, e2, ih, orderedInsert_comm val cmp hcmp]

/-- A left fold of insertions from the empty list is the insertion sort. -/
theorem foldl_orderedInsert_eq_insertionSort {α : Type} (val : α → Int) (cmp : α → α → Int)
    (hcmp : ∀ a b, cmp a b < 0 ↔ val a < val b) (l : List α) :
    l.foldl (fun acc h => List.orderedInsert (fun a b => cmp a b < 0) h acc) []
      = List.insertionSort (fun a b => val a ≤ val b) l := by
  induction l using List.reverseRecOn with
  | nil => rfl
  | append_singleton l h ih =>
    rw [List.foldl_append, ih, insertionSort_concat val cmp hcmp]
    rfl

/-- Insertion in front of the elements not exceeded keeps, for every value, the order of
the elements of that value, the new one first. -/
theorem filter_orderedInsert {α : Type} (val : α → Int) (v : Int) (x : α) :
    ∀ l : List α,
      (List.orderedInsert (fun a b => val a ≤ val b) x l).filter (fun a => val a = v)
        = (x :: l).filter (fun a => val a = v) := by
  intro l
  induction l with
  | nil => simp
  | cons y l ih =>
    by_cases hxy : val x ≤ val y
    · simp [List.orderedInsert, hxy]
    · have e1 : List.orderedInsert (fun a b => val a ≤ val b) x (y :: l)
          = y :: List.orderedInsert (fun a b => val a ≤ val b) x l := by
        simp [List.orderedInsert, hxy]
      rw [e1, List.filter_cons, ih]
      by_cases hx : val x = v
      · have hy : ¬ val y = v := by omega
        simp [List.filter_cons, hx, hy]
      · simp [List.filter_cons, hx]

theorem filter_insertionSort {α : Type} (val : α → Int) (v : Int) :
    ∀ l : List α,
      (List.insertionSort (fun a b => val a ≤ val b) l).filter (fun a => val a = v)
        = l.filter (fun a => val a = v) := by
  intro l
  induction l with
  | nil => rfl
  | cons x l ih =>
    rw [List.insertionSort, filter_orderedInsert, List.filter_cons, List.filter_cons, ih]

theorem removeCount_loop {α : Type} [DecidableEq α] (l : List α) (ptr : α) :
    ∀ k, k ≤ l.length →
      (List.range k).foldl
        (fun (count : Int) (i : Nat) => if l[i]? = some ptr then count + 1 else count) 0
        = (((l.take k).count ptr : Nat) : Int) := by
  intro k
  induction k with
  | zero => intro _; simp
  | succ k ih =>
    intro hk
    have hget : l[k]? = some l[k] := List.getElem?_eq_getElem (by omega)
    rw [List.range_succ, List.foldl_append, ih (by omega), take_succ_of_getElem? l k _ hget,
      List.count_append]
    by_cases h : l[k] = ptr
    · simp [hget, h]
    · have hz : List.count ptr [l[k]] = 0 :=
        List.count_eq_zero.mpr (by simp; exact fun e => h e.symm)
      simp [hget, h, hz]

theorem removeCount_eq {α : Type} [DecidableEq α] (q : priqueue_t α) (ptr : α)
    (hwf : WellFormed q) : removeCount q ptr = ((q.qArr.count ptr : Nat) : Int) := by
  unfold WellFormed at hwf
  have hn : q.size.toNat = q.qArr.length := by omega
  rw [removeCount, hn, removeCount_loop q.qArr ptr _ (le_refl _), List.take_length]

theorem removeCopy_loop {α : Type} [DecidableEq α] (l : List α) (ptr : α) :
    ∀ k, k ≤ l.length →
      (List.range k).foldl
        (fun (st : List α × Nat) (i : Nat) =>
          match l[i]? with
          | some e => if e ≠ ptr then (writeCell st.1 st.2 e, st.2 + 1) else st
          | none => st) ([], 0)
        = ((l.take k).filter (fun e => e ≠ ptr), ((l.take k).filter (fun e => e ≠ ptr)).length) := by
  intro k
  induction k with
  | zero => intro _; simp
  | succ k ih =>
    intro hk
    have hget : l[k]? = some l[k] := List.getElem?_eq_getElem (by omega)
    rw [List.range_succ, List.foldl_append, ih (by omega), take_succ_of_getElem? l k _ hget,
      List.filter_append]
    by_cases h : l[k] = ptr
    · simp [hget, h]
    · simp [hget, h, writeCell_length]

theorem removeCopy_eq {α : Type} [DecidableEq α] (q : priqueue_t α) (ptr : α)
    (hwf : WellFormed q) : (removeCopy q ptr).1 = q.qArr.filter (fun e => e ≠ ptr) := by
  unfold WellFormed at hwf
  have hn : q.size.toNat = q.qArr.length := by omega
  rw [removeCopy, hn, removeCopy_loop q.qArr ptr _ (le_refl _), List.take_length]

/-- What `priqueue_remove` computes on a well-formed queue. -/
theorem priqueue_remove_eq {α : Type} [DecidableEq α] (q : priqueue_t α) (ptr : α)
    (hwf : WellFormed q) :
    priqueue_remove q ptr
      = (((q.qArr.count ptr : Nat) : Int),
          ⟨q.compare, q.size - ((q.qArr.count ptr : Nat) : Int),
            q.qArr.filter (fun e => e ≠ ptr),
            if ((q.qArr.count ptr : Nat) : Int) = 0 then
              (if 0 < q.size then q.block.access else q.block)
            else if ((q.qArr.count ptr : Nat) : Int) = q.size then q.block.access.release
            else q.block.access⟩) := by
  have hc := removeCount_eq q ptr hwf
  have hcp := removeCopy_eq q ptr hwf
  unfold WellFormed at hwf
  unfold priqueue_remove
  simp only [hc, hcp]
  obtain ⟨cmp, size, l, b⟩ := q
  simp only at hwf ⊢
  by_cases h0 : l.count ptr = 0
  · have hf : l.filter (fun e => e ≠ ptr) = l := by
      rw [List.filter_eq_self]
      intro a ha
      have := List.count_eq_zero.mp h0
      simp only [ne_eq, decide_eq_true_eq]
      intro hEq
      exact this (hEq ▸ ha)
    rw [hf, h0]
    simp
  · have h0i : ¬ (((l.count ptr : Nat) : Int) = 0) := by omega
    by_cases hall : ((l.count ptr : Nat) : Int) = size
    · have hcl : l.count ptr = l.length := by omega
      have hf : l.filter (fun e => e ≠ ptr) = [] := by
        rw [List.filter_eq_nil_iff]
        intro a ha
        have := List.count_eq_length.mp hcl a ha
        simp [this]
      rw [hf, if_neg h0i, if_pos hall]
      simp [← hall, h0]
    · simp only [if_neg h0i, if_neg hall]

theorem length_filter_ne_add_count {α : Type} [DecidableEq α] (v : α) :
    ∀ l : List α, (l.filter (fun e => e ≠ v)).length + l.count v = l.length := by
  intro l
  induction l with
  | nil => rfl
  | cons x l ih =>
    rw [List.filter_cons, List.count_cons, List.length_cons]
    by_cases h : x = v
    · have hd : decide (x ≠ v) = false := by simp [h]
      have hb : (x == v) = true := by simp [h]
      rw [hd, hb]
      simp only [Bool.false_eq_true, if_false, if_true]
      omega
    · have hd : decide (x ≠ v) = true := by simp [h]
      have hb : (x == v) = false := by simp [h]
      rw [hd, hb]
      simp only [Bool.false_eq_true, if_false, if_true, List.length_cons]
      omega

/-- The copy loop `newArr[i] = qArr[i + d]` for `i = 0 .. k-1` (with `d = 0` in
`priqueue_remove_at`, `d = 1` in `priqueue_poll`). -/
theorem copyLoop_eq {α : Type} (l : List α) (d : Nat) :
    ∀ k, k + d ≤ l.length →
      (List.range k).foldl
        (fun (arr : List α) (i : Nat) =>
          match l[i + d]? with
          | some e => writeCell arr i e
          | none => arr) []
        = (l.drop d).take k := by
  intro k
  induction k with
  | zero => intro _; simp
  | succ k ih =>
    intro hk
    have hget : l[k + d]? = some l[k + d] := List.getElem?_eq_getElem (by omega)
    have hget2 : (l.drop d)[k]? = some l[k + d] := by
      rw [List.getElem?_drop, Nat.add_comm]; exact hget
    have hlen : ((l.drop d).take k).length = k := by
      rw [List.length_take, List.length_drop]; omega
    rw [List.range_succ, List.foldl_append, ih (by omega),
      take_succ_of_getElem? (l.drop d) k _ hget2]
    simp only [List.foldl_cons, List.foldl_nil, hget]
    exact writeCell_of_eq _ _ _ hlen.symm

/-- The loop of `priqueue_remove_at` that copies every cell but the one at `index`. -/
theorem skipLoop_eq {α : Type} (l : List α) (idx : Nat) (hidx : idx < l.length) :
    ∀ k, k ≤ l.length →
      (List.range k).foldl
        (fun (st : List α × Nat) (i : Nat) =>
          if (i : Int) ≠ (idx : Int) then
            match l[i]? with
            | some e => (writeCell st.1 st.2 e, st.2 + 1)
            | none => st
          else st) ([], 0)
        = if k ≤ idx then (l.take k, k)
          else (l.take idx ++ (l.take k).drop (idx + 1), k - 1) := by
  intro k
  induction k with
  | zero => intro _; simp
  | succ k ih =>
    intro hk
    have hget : l[k]? = some l[k] := List.getElem?_eq_getElem (by omega)
    have htk := take_succ_of_getElem? l k _ hget
    have hlenk : (l.take k).length = k := by rw [List.length_take]; omega
    rw [List.range_succ, List.foldl_append, ih (by omega)]
    simp only [List.foldl_cons, List.foldl_nil]
    rcases Nat.lt_trichotomy k idx with hlt | heq | hgt
    · have h1 : k ≤ idx := by omega
      have h2 : k + 1 ≤ idx := by omega
      have h3 : (k : Int) ≠ (idx : Int) := by omega
      rw [if_pos h1, if_pos h2, if_pos h3, hget]
      simp only
      rw [writeCell_of_eq _ _ _ hlenk.symm, htk]
    · subst heq
      have h2 : ¬ (k + 1 ≤ k) := by omega
      rw [if_pos (le_refl k), if_neg h2, if_neg (by simp)]
      rw [List.drop_of_length_le (by rw [List.length_take]; omega)]
      simp
    · have h1 : ¬ (k ≤ idx) := by omega
      have h2 : ¬ (k + 1 ≤ idx) := by omega
      have h3 : (k : Int) ≠ (idx : Int) := by omega
      have hlen : (l.take idx ++ (l.take k).drop (idx + 1)).length = k - 1 := by
        rw [List.length_append, List.length_drop, List.length_take, hlenk]
        omega
      rw [if_neg h1, if_neg h2, if_pos h3, hget]
      simp only
      rw [writeCell_of_eq _ _ _ hlen.symm, htk, List.drop_append_of_le_length (by omega),
        List.append_assoc]
      congr 1
      omega

/-- What `priqueue_remove_at` computes on a well-formed queue for an index in range. -/
theorem priqueue_remove_at_eq {α : Type} (q : priqueue_t α) (idx : Nat) (hwf : WellFormed q)
    (hidx : idx < q.qArr.length) :
    priqueue_remove_at q (idx : Int)
      = (q.qArr[idx]?, ⟨q.compare, q.size - 1, q.qArr.take idx ++ q.qArr.drop (idx + 1),
          q.block.access⟩) := by
  unfold WellFormed at hwf
  have hr : ¬ ((idx : Int) ≥ q.size ∨ (idx : Int) < 0) := by omega
  unfold priqueue_remove_at
  rw [if_neg hr]
  simp only [Int.toNat_ofNat]
  congr 2
  by_cases hlast : (idx : Int) = q.size - 1
  · rw [if_pos hlast]
    have hn : (q.size - 1).toNat = idx := by omega
    have := copyLoop_eq q.qArr 0 idx (by omega)
    simp only [Nat.add_zero, List.drop_zero] at this
    rw [hn, this, List.drop_of_length_le (by omega)]
    simp
  · rw [if_neg hlast]
    have hn : q.size.toNat = q.qArr.length := by omega
    rw [hn, skipLoop_eq q.qArr idx hidx _ (le_refl _), if_neg (by omega), List.take_length]

/-- What `priqueue_poll` computes on a well-formed queue. -/
theorem priqueue_poll_eq {α : Type} (q : priqueue_t α) (hwf : WellFormed q)
    (hne : q.qArr ≠ []) :
    priqueue_poll q = (q.qArr.head?, ⟨q.compare, q.size - 1, q.qArr.tail,
      if q.size = 1 then q.block.access.release else q.block.access⟩) := by
  unfold WellFormed at hwf
  obtain ⟨cmp, size, l, b⟩ := q
  simp only at hwf hne ⊢
  cases l with
  | nil => exact absurd rfl hne
  | cons x l =>
    have h0 : ¬ size = 0 := by simp at hwf; omega
    unfold priqueue_poll
    simp only [if_neg h0]
    by_cases h1 : size = 1
    · have hl : l = [] := by
        apply List.eq_nil_of_length_eq_zero
        simp at hwf; omega
      subst hl
      simp [h1]
    · have hn : (size - 1).toNat = l.length := by simp at hwf; omega
      have := copyLoop_eq (x :: l) 1 l.length (by simp)
      simp only [List.drop_succ_cons, List.drop_zero, List.take_length] at this
      simp only [if_neg h1, hn, this]
      simp

/-! ## Lemmas about the scheduler -/

theorem readCore_nat (arr : List Int) (i : Nat) : readCore arr (i : Int) = arr.getD i 0 := by
  simp [readCore]

theorem length_writeCore (arr : List Int) (c v : Int) :
    (writeCore arr c v).length = arr.length := by
  unfold writeCore
  split_ifs <;> simp

theorem readCore_writeCore_same (arr : List Int) (c : Nat) (v : Int) (h : c < arr.length) :
    readCore (writeCore arr (c : Int) v) (c : Int) = v := by
  simp [readCore, writeCore, List.getD_eq_getElem?_getD, List.getElem?_set, h]

theorem readCore_writeCore_other (arr : List Int) (c i : Nat) (v : Int) (h : i ≠ c) :
    readCore (writeCore arr (c : Int) v) (i : Int) = readCore arr (i : Int) := by
  simp [readCore, writeCore, List.getD_eq_getElem?_getD, List.getElem?_set, Ne.symm h]

theorem findIdleCore_range'_none (arr : List Int) (d : Int) :
    ∀ m a : Nat, (∀ i : Nat, a ≤ i → i < a + m → readCore arr (i : Int) ≠ -1) →
      findIdleCore arr d (List.range' a m) = d := by
  intro m
  induction m with
  | zero => intro a _; rfl
  | succ m ih =>
    intro a h
    rw [List.range'_succ, findIdleCore, if_neg (h a (le_refl _) (by omega))]
    exact ih (a + 1) (fun i h1 h2 => h i (by omega) (by omega))

theorem findIdleCore_range'_some (arr : List Int) (d : Int) (c : Nat)
    (hidle : readCore arr (c : Int) = -1) :
    ∀ m a : Nat, a ≤ c → c < a + m →
      (∀ i : Nat, a ≤ i → i < c → readCore arr (i : Int) ≠ -1) →
      findIdleCore arr d (List.range' a m) = (c : Int) := by
  intro m
  induction m with
  | zero => intro a h1 h2; omega
  | succ m ih =>
    intro a h1 h2 hlow
    rw [List.range'_succ, findIdleCore]
    by_cases hac : a = c
    · subst hac; rw [if_pos hidle]
    · rw [if_neg (hlow a (le_refl _) (by omega))]
      exact ih (a + 1) (by omega) (by omega) (fun i h3 h4 => hlow i (by omega) h4)

theorem findIdleCore_none (arr : List Int) (d : Int) (n : Nat)
    (h : ∀ i : Nat, i < n → readCore arr (i : Int) ≠ -1) :
    findIdleCore arr d (List.range n) = d := by
  rw [List.range_eq_range']
  exact findIdleCore_range'_none arr d n 0 (fun i _ h2 => h i (by omega))

theorem findIdleCore_some (arr : List Int) (d : Int) (n c : Nat) (hc : c < n)
    (hidle : readCore arr (c : Int) = -1)
    (hlow : ∀ i : Nat, i < c → readCore arr (i : Int) ≠ -1) :
    findIdleCore arr d (List.range n) = (c : Int) := by
  rw [List.range_eq_range']
  exact findIdleCore_range'_some arr d c hidle n 0 (by omega) (by omega)
    (fun i _ h2 => hlow i h2)

/-- The search for an idle core leaves `nextCore` as it was or sets it to an idle index. -/
theorem findIdleCore_cases (arr : List Int) (d : Int) :
    ∀ is : List Nat, findIdleCore arr d is = d ∨
      ∃ i : Nat, i ∈ is ∧ readCore arr (i : Int) = -1 ∧ findIdleCore arr d is = (i : Int) := by
  intro is
  induction is with
  | nil => left; rfl
  | cons i rest ih =>
    by_cases h : readCore arr (i : Int) = -1
    · right
      exact ⟨i, by simp, h, by rw [findIdleCore, if_pos h]⟩
    · rw [findIdleCore, if_neg h]
      rcases ih with h1 | ⟨k, hk, hidle, heq⟩
      · left; exact h1
      · right; exact ⟨k, by simp [hk], hidle, heq⟩

/-- When some core is idle there is a lowest idle core. -/
theorem exists_lowest_idle (arr : List Int) (h : ∃ i : Nat, i < arr.length ∧
    readCore arr (i : Int) = -1) :
    ∃ c : Nat, c < arr.length ∧ readCore arr (c : Int) = -1 ∧
      ∀ i : Nat, i < c → readCore arr (i : Int) ≠ -1 := by
  classical
  refine ⟨Nat.find h, (Nat.find_spec h).1, (Nat.find_spec h).2, ?_⟩
  intro i hi hidle
  have hlt : i < arr.length := lt_trans hi (Nat.find_spec h).1
  exact Nat.find_min h hi ⟨hlt, hidle⟩

theorem priqueue_at_append {α : Type} (q : priqueue_t α) (hwf : WellFormed q) (P R : List α)
    (x : α) (hq : q.qArr = P ++ x :: R) : priqueue_at q (P.length : Int) = some x := by
  rw [priqueue_at_eq q hwf, hq, List.getElem?_append_right (le_refl _)]
  simp

theorem set_append_cons {α : Type} (P R : List α) (x y : α) :
    (P ++ x :: R).set P.length y = P ++ y :: R := by
  induction P with
  | nil => rfl
  | cons a P ih => simp [ih]

theorem assignFirstWaiting_found_aux (s : SchedState) (nc : Int)
    (hwf : WellFormed s.queue) (j : job_t) (B : List job_t) (hj : isWaiting j) :
    ∀ (A P : List job_t), s.queue.qArr = P ++ (A ++ j :: B) → (∀ a ∈ A, ¬ isWaiting a) →
      assignFirstWaiting s nc (List.range' P.length (A.length + (B.length + 1)))
        = ({ s with
              coreArr := writeCore s.coreArr nc j.id
              queue := { s.queue with qArr := P ++ (A ++ { j with coreAssigned := nc } :: B) } },
            true) := by
  intro A
  induction A with
  | nil =>
    intro P hq _
    have hat := priqueue_at_append s.queue hwf P B j (by simpa using hq)
    have hj2 : j.finished = 0 ∧ j.coreAssigned = -1 := hj
    rw [show ([] : List job_t).length + (B.length + 1) = B.length + 1 by simp,
      List.range'_succ, assignFirstWaiting, hat]
    simp only [hj2, and_self, if_true, storeJob, List.nil_append]
    simp only [hq, List.nil_append, set_append_cons]
  | cons a A ih =>
    intro P hq hA
    have hat := priqueue_at_append s.queue hwf P (A ++ j :: B) a (by simpa using hq)
    have ha : ¬ (a.finished = 0 ∧ a.coreAssigned = -1) := hA a (by simp)
    rw [show (a :: A).length + (B.length + 1) = (A.length + (B.length + 1)) + 1 by
        simp; omega,
      List.range'_succ, assignFirstWaiting, hat]
    simp only [ha, if_false]
    have := ih (P ++ [a]) (by simpa using hq) (fun x hx => hA x (by simp [hx]))
    simp only [List.length_append, List.length_singleton, List.append_assoc,
      List.singleton_append] at this
    exact this

/-- The first waiting job of the queue gets the core `nextCore`. -/
theorem assignFirstWaiting_found (s : SchedState) (nc : Int) (hwf : WellFormed s.queue)
    (A B : List job_t) (j : job_t) (hq : s.queue.qArr = A ++ j :: B)
    (hA : ∀ a ∈ A, ¬ isWaiting a) (hj : isWaiting j) :
    assignFirstWaiting s nc (List.range (priqueue_size s.queue).toNat)
      = ({ s with
            coreArr := writeCore s.coreArr nc j.id
            queue := { s.queue with qArr := A ++ { j with coreAssigned := nc } :: B } },
          true) := by
  have hn : (priqueue_size s.queue).toNat = A.length + (B.length + 1) := by
    unfold WellFormed at hwf
    rw [priqueue_size, hwf, hq]
    simp only [List.length_append, List.length_cons, Int.toNat_ofNat]
  rw [hn, List.range_eq_range']
  have := assignFirstWaiting_found_aux s nc hwf j B hj A [] (by simpa using hq) hA
  simpa using this

theorem assignFirstWaiting_none_aux (s : SchedState) (nc : Int) (hwf : WellFormed s.queue) :
    ∀ (R P : List job_t), s.queue.qArr = P ++ R → (∀ a ∈ R, ¬ isWaiting a) →
      assignFirstWaiting s nc (List.range' P.length R.length) = (s, false) := by
  intro R
  induction R with
  | nil => intro P _ _; rfl
  | cons a R ih =>
    intro P hq hR
    have hat := priqueue_at_append s.queue hwf P R a hq
    have ha : ¬ (a.finished = 0 ∧ a.coreAssigned = -1) := hR a (by simp)
    rw [List.length_cons, List.range'_succ, assignFirstWaiting, hat]
    simp only [ha, if_false]
    have := ih (P ++ [a]) (by simpa using hq) (fun x hx => hR x (by simp [hx]))
    simpa using this

/-- Without a waiting job the loop changes nothing and `found` stays 0. -/
theorem assignFirstWaiting_none (s : SchedState) (nc : Int) (hwf : WellFormed s.queue)
    (h : noWaiting s) :
    assignFirstWaiting s nc (List.range (priqueue_size s.queue).toNat) = (s, false) := by
  have hn : (priqueue_size s.queue).toNat = s.queue.qArr.length := by
    unfold WellFormed at hwf
    rw [priqueue_size, hwf]
    simp
  rw [hn, List.range_eq_range']
  exact assignFirstWaiting_none_aux s nc hwf s.queue.qArr [] rfl h

/-- A list either has no element with a property or splits at the first such element. -/
theorem split_at_first {α : Type} (p : α → Prop) [DecidablePred p] :
    ∀ l : List α, (∀ a ∈ l, ¬ p a) ∨
      ∃ A x B, l = A ++ x :: B ∧ (∀ a ∈ A, ¬ p a) ∧ p x := by
  intro l
  induction l with
  | nil => left; intro a ha; simp at ha
  | cons y l ih =>
    by_cases hy : p y
    · right; exact ⟨[], y, l, rfl, by simp, hy⟩
    · rcases ih with h | ⟨A, x, B, hl, hA, hx⟩
      · left
        intro a ha
        rcases List.mem_cons.mp ha with h1 | h1
        · subst h1; exact hy
        · exact h a h1
      · right
        refine ⟨y :: A, x, B, by simp [hl], ?_, hx⟩
        intro a ha
        rcases List.mem_cons.mp ha with h1 | h1
        · subst h1; exact hy
        · exact hA a h1

theorem sameFrame_refl (s : SchedState) : sameFrame s s :=
  ⟨rfl, rfl, rfl, rfl, rfl, rfl⟩

theorem sameFrame_trans {s s1 s2 : SchedState} (h1 : sameFrame s s1) (h2 : sameFrame s1 s2) :
    sameFrame s s2 := by
  obtain ⟨a1, b1, c1, d1, e1, f1⟩ := h1
  obtain ⟨a2, b2, c2, d2, e2, f2⟩ := h2
  exact ⟨a2.trans a1, b2.trans b1, c2.trans c1, d2.trans d1, e2.trans e1, f2.trans f1⟩

theorem sameFrame_length {s s1 : SchedState} (h : sameFrame s s1) :
    s1.queue.qArr.length = s.queue.qArr.length := by
  have := congrArg List.length h.2.2.2.2.1
  simpa using this

theorem sameFrame_wfs {s s1 : SchedState} (h : sameFrame s s1) (hw : WFS s) : WFS s1 := by
  have hl := sameFrame_length h
  obtain ⟨_, b, _, d, _, f⟩ := h
  unfold WFS WellFormed at *
  rw [d, hl, f, b]
  exact hw

theorem sameFrame_assign (s : SchedState) (nc : Int) (A B : List job_t) (j : job_t)
    (hq : s.queue.qArr = A ++ j :: B) :
    sameFrame s
      { s with
        coreArr := writeCore s.coreArr nc j.id
        queue := { s.queue with qArr := A ++ { j with coreAssigned := nc } :: B } } := by
  refine ⟨rfl, rfl, rfl, rfl, ?_, length_writeCore _ _ _⟩
  simp [hq, eraseCore]

/-- The `while` loop of `fillIdleCores`, entered with a core index, ends within one
evaluation of its condition per waiting job plus one, and then no job is waiting. -/
theorem fillLoop_spec :
    ∀ (n : Nat) (s : SchedState) (nc : Int) (fuel : Nat), WellFormed s.queue → nc ≠ -1 →
      (s.queue.qArr.filter (fun j => isWaiting j)).length ≤ n → n < fuel →
      ∃ s1, fillLoop fuel s nc = some s1 ∧ sameFrame s s1 ∧ noWaiting s1 := by
  intro n
  induction n with
  | zero =>
    intro s nc fuel hwf hnc hn hfuel
    obtain ⟨f, rfl⟩ : ∃ f, fuel = f + 1 := ⟨fuel - 1, by omega⟩
    have hnw : noWaiting s := by
      intro job hjob hw
      have : job ∈ s.queue.qArr.filter (fun j => isWaiting j) := by
        simp [List.mem_filter, hjob, hw]
      have hpos := List.length_pos_of_mem this
      omega
    refine ⟨s, ?_, sameFrame_refl s, hnw⟩
    rw [fillLoop, if_pos hnc, assignFirstWaiting_none s nc hwf hnw]
    simp
  | succ n ih =>
    intro s nc fuel hwf hnc hn hfuel
    obtain ⟨f, rfl⟩ : ∃ f, fuel = f + 1 := ⟨fuel - 1, by omega⟩
    rcases split_at_first (fun j => isWaiting j) s.queue.qArr with hnw | ⟨A, j, B, hq, hA, hj⟩
    · refine ⟨s, ?_, sameFrame_refl s, hnw⟩
      rw [fillLoop, if_pos hnc, assignFirstWaiting_none s nc hwf hnw]
      simp
    · have hsf := sameFrame_assign s nc A B j hq
      have hj1 : ¬ isWaiting { j with coreAssigned := nc } := by
        intro h; exact hnc h.2
      have hwf1 : WellFormed
          ({ s with
              coreArr := writeCore s.coreArr nc j.id
              queue := { s.queue with qArr := A ++ { j with coreAssigned := nc } :: B } }
            : SchedState).queue := by
        unfold WellFormed at hwf ⊢
        simp only [hwf, hq]
        simp
      have hcount : (({ s with
              coreArr := writeCore s.coreArr nc j.id
              queue := { s.queue with qArr := A ++ { j with coreAssigned := nc } :: B } }
            : SchedState).queue.qArr.filter (fun j => isWaiting j)).length ≤ n := by
        rw [hq] at hn
        simp only [List.filter_append, List.filter_cons, hj, hj1, decide_True, decide_False,
          if_true, List.length_append, List.length_cons] at hn ⊢
        simp only [Bool.false_eq_true, if_false]
        omega
      have hnc1 : findIdleCore (writeCore s.coreArr nc j.id) nc
          (List.range s.coreCount.toNat) ≠ -1 := by
        rcases findIdleCore_cases (writeCore s.coreArr nc j.id) nc
            (List.range s.coreCount.toNat) with h | ⟨i, _, _, h⟩
        · rw [h]; exact hnc
        · rw [h]; omega
      obtain ⟨s1, hs1, hf1, hw1⟩ := ih _ _ f hwf1 hnc1 hcount (by omega)
      refine ⟨s1, ?_, sameFrame_trans hsf hf1, hw1⟩
      rw [fillLoop, if_pos hnc, assignFirstWaiting_found s nc hwf A B j hq hA hj]
      simp only [Bool.true_eq_false, if_false]
      exact hs1

theorem filter_length_le_size (s : SchedState) (hwf : WellFormed s.queue) :
    (s.queue.qArr.filter (fun j => isWaiting j)).length ≤ (priqueue_size s.queue).toNat := by
  unfold WellFormed at hwf
  rw [priqueue_size, hwf]
  simp only [Int.toNat_ofNat]
  exact List.length_filter_le _ _

/-- The fuel given to the `while` loop of `fillIdleCores` always suffices. -/
theorem fillLoop_fuel (s : SchedState) (hwf : WellFormed s.queue) (nc : Int) :
    ∃ s1, fillLoop ((priqueue_size s.queue).toNat + 1) s nc = some s1 := by
  by_cases hnc : nc = -1
  · exact ⟨s, by rw [fillLoop, if_neg (by simpa using hnc)]⟩
  · obtain ⟨s1, h, _⟩ := fillLoop_spec _ s nc _ hwf hnc (filter_length_le_size s hwf)
      (Nat.lt_succ_self _)
    exact ⟨s1, h⟩

theorem noIdle_findIdleCore (s : SchedState) (hw : WFS s) (h : noIdle s) (d : Int) :
    findIdleCore s.coreArr d (List.range s.coreCount.toNat) = d := by
  apply findIdleCore_none
  intro i hi
  exact h i (by rw [hw.2]; exact hi)

/-- Without an idle core `fillIdleCores` changes nothing. -/
theorem fillIdleCores_noIdle (s : SchedState) (hw : WFS s) (h : noIdle s) :
    fillIdleCores s = s := by
  unfold fillIdleCores
  split_ifs with hsz
  · rw [noIdle_findIdleCore s hw h]
    simp [fillLoop]
  · rfl

/-- The general effect of `fillIdleCores`: it keeps the frame, and afterwards no core is
idle or no job is waiting. -/
theorem fillIdleCores_spec (s : SchedState) (hw : WFS s) :
    sameFrame s (fillIdleCores s) ∧
    (noIdle (fillIdleCores s) ∨ noWaiting (fillIdleCores s)) := by
  by_cases hidle : noIdle s
  · rw [fillIdleCores_noIdle s hw hidle]
    exact ⟨sameFrame_refl s, Or.inl hidle⟩
  · by_cases hsz : priqueue_size s.queue > 0
    · have hex : ∃ i : Nat, i < s.coreArr.length ∧ readCore s.coreArr (i : Int) = -1 := by
        unfold noIdle at hidle
        push_neg at hidle
        exact hidle
      obtain ⟨c, hc, hci, hlow⟩ := exists_lowest_idle s.coreArr hex
      have hnc : findIdleCore s.coreArr (-1) (List.range s.coreCount.toNat) = (c : Int) :=
        findIdleCore_some _ _ _ c (by rw [← hw.2]; exact hc) hci hlow
      obtain ⟨s1, hs1, hf1, hw1⟩ := fillLoop_spec _ s (c : Int) _ hw.1 (by omega)
        (filter_length_le_size s hw.1) (Nat.lt_succ_self _)
      have : fillIdleCores s = s1 := by
        unfold fillIdleCores
        rw [if_pos hsz]
        simp only [hnc, hs1]
      rw [this]
      exact ⟨hf1, Or.inr hw1⟩
    · have : fillIdleCores s = s := by
        unfold fillIdleCores
        rw [if_neg hsz]
      rw [this]
      refine ⟨sameFrame_refl s, Or.inr ?_⟩
      have hnil : s.queue.qArr = [] := by
        have h1 := hw.1
        unfold WellFormed at h1
        unfold priqueue_size at hsz
        apply List.eq_nil_of_length_eq_zero
        omega
      intro job hjob
      rw [hnil] at hjob
      simp at hjob

theorem updateLoop_eq (s : SchedState) (f : job_t → job_t) (hwf : WellFormed s.queue) :
    ∀ k, k ≤ s.queue.qArr.length →
      (List.range k).foldl
        (fun (st : SchedState) (i : Nat) =>
          match priqueue_at st.queue (i : Int) with
          | some job => storeJob st i (f job)
          | none => st) s
        = { s with
            queue := { s.queue with
              qArr := (s.queue.qArr.take k).map f ++ s.queue.qArr.drop k } } := by
  intro k
  induction k with
  | zero => intro _; simp
  | succ k ih =>
    intro hk
    have hklt : k < s.queue.qArr.length := by omega
    have hdrop : s.queue.qArr.drop k = s.queue.qArr[k] :: s.queue.qArr.drop (k + 1) :=
      List.drop_eq_getElem_cons hklt
    have hlen : ((s.queue.qArr.take k).map f).length = k := by
      rw [List.length_map, List.length_take]; omega
    rw [List.range_succ, List.foldl_append, ih (by omega)]
    simp only [List.foldl_cons, List.foldl_nil]
    have hwf1 : WellFormed ({ s with
        queue := { s.queue with
          qArr := (s.queue.qArr.take k).map f ++ s.queue.qArr.drop k } } : SchedState).queue := by
      unfold WellFormed at hwf ⊢
      simp only [hwf, List.length_append, List.length_map, List.length_take,
        List.length_drop]
      omega
    have hat : priqueue_at ({ s with
        queue := { s.queue with
          qArr := (s.queue.qArr.take k).map f ++ s.queue.qArr.drop k } } : SchedState).queue
        (k : Int) = some s.queue.qArr[k] := by
      have := priqueue_at_append _ hwf1 ((s.queue.qArr.take k).map f)
        (s.queue.qArr.drop (k + 1)) s.queue.qArr[k] (by simp only [hdrop])
      rw [hlen] at this
      exact this
    rw [hat]
    simp only [storeJob]
    have hset : ((s.queue.qArr.take k).map f ++ s.queue.qArr.drop k).set k (f s.queue.qArr[k])
        = (s.queue.qArr.take (k + 1)).map f ++ s.queue.qArr.drop (k + 1) := by
      rw [hdrop]
      have := set_append_cons ((s.queue.qArr.take k).map f) (s.queue.qArr.drop (k + 1))
        s.queue.qArr[k] (f s.queue.qArr[k])
      rw [hlen] at this
      rw [this, take_succ_of_getElem? _ k _ (List.getElem?_eq_getElem hklt)]
      simp only [List.map_append, List.map_cons, List.map_nil, List.append_assoc,
        List.singleton_append]
    rw [hset]

/-- `updateTimes` applies the update of the loop body to every job of the queue. -/
theorem updateTimes_eq (s : SchedState) (time : Int) (hwf : WellFormed s.queue) :
    updateTimes s time
      = { s with queue := { s.queue with qArr := s.queue.qArr.map (updateJobTimes time) } } := by
  have hn : (priqueue_size s.queue).toNat = s.queue.qArr.length := by
    unfold WellFormed at hwf
    rw [priqueue_size, hwf]
    simp
  unfold updateTimes
  rw [hn, updateLoop_eq s (updateJobTimes time) hwf _ (le_refl _)]
  simp

theorem updateJobTimes_eraseTimes (time : Int) (job : job_t) :
    eraseTimes (updateJobTimes time job) = eraseTimes job := by
  unfold updateJobTimes eraseTimes
  dsimp only
  split_ifs <;> rfl

theorem updateJobTimes_fields (time : Int) (job : job_t) :
    (updateJobTimes time job).id = job.id ∧
    (updateJobTimes time job).arrivalTime = job.arrivalTime ∧
    (updateJobTimes time job).coreAssigned = job.coreAssigned ∧
    (updateJobTimes time job).finished = job.finished ∧
    (updateJobTimes time job).priority = job.priority ∧
    (updateJobTimes time job).duration = job.duration ∧
    (updateJobTimes time job).endTime = job.endTime := by
  have h := updateJobTimes_eraseTimes time job
  unfold eraseTimes at h
  have h1 := congrArg job_t.id h
  have h2 := congrArg job_t.arrivalTime h
  have h3 := congrArg job_t.coreAssigned h
  have h4 := congrArg job_t.finished h
  have h5 := congrArg job_t.priority h
  have h6 := congrArg job_t.duration h
  have h7 := congrArg job_t.endTime h
  exact ⟨h1, h2, h3, h4, h5, h6, h7⟩

theorem isWaiting_updateJobTimes (time : Int) (job : job_t) :
    isWaiting (updateJobTimes time job) ↔ isWaiting job := by
  obtain ⟨_, _, h3, h4, _⟩ := updateJobTimes_fields time job
  unfold isWaiting
  rw [h3, h4]

theorem updateTimes_wfs (s : SchedState) (time : Int) (hw : WFS s) :
    WFS (updateTimes s time) := by
  rw [updateTimes_eq s time hw.1]
  obtain ⟨h1, h2⟩ := hw
  unfold WFS WellFormed at *
  simpa using ⟨h1, h2⟩

theorem updateTimes_noWaiting (s : SchedState) (time : Int) (hw : WFS s) (h : noWaiting s) :
    noWaiting (updateTimes s time) := by
  rw [updateTimes_eq s time hw.1]
  intro job hjob
  simp only [List.mem_map] at hjob
  obtain ⟨j0, hj0, rfl⟩ := hjob
  rw [isWaiting_updateJobTimes]
  exact h j0 hj0

theorem findJobById_found_aux (q : priqueue_t job_t) (jn : Int) (hwf : WellFormed q)
    (j : job_t) (B : List job_t) (hj : j.id = jn) :
    ∀ (A P : List job_t), q.qArr = P ++ (A ++ j :: B) → (∀ a ∈ A, a.id ≠ jn) →
      findJobById q jn (List.range' P.length (A.length + (B.length + 1)))
        = some (P.length + A.length) := by
  intro A
  induction A with
  | nil =>
    intro P hq _
    have hat := priqueue_at_append q hwf P B j (by simpa using hq)
    rw [show ([] : List job_t).length + (B.length + 1) = B.length + 1 by simp,
      List.range'_succ, findJobById, hat]
    simp [hj]
  | cons a A ih =>
    intro P hq hA
    have hat := priqueue_at_append q hwf P (A ++ j :: B) a (by simpa using hq)
    have ha : ¬ a.id = jn := hA a (by simp)
    rw [show (a :: A).length + (B.length + 1) = (A.length + (B.length + 1)) + 1 by
        simp; omega,
      List.range'_succ, findJobById, hat]
    simp only [ha, if_false]
    have := ih (P ++ [a]) (by simpa using hq) (fun x hx => hA x (by simp [hx]))
    simp only [List.length_append, List.length_singleton] at this
    rw [this]
    simp only [List.length_cons]
    congr 1
    omega

/-- The search of `scheduler_job_finished` stops at the first job with the given id. -/
theorem findJobById_found (q : priqueue_t job_t) (jn : Int) (hwf : WellFormed q)
    (A B : List job_t) (j : job_t) (hq : q.qArr = A ++ j :: B)
    (hA : ∀ a ∈ A, a.id ≠ jn) (hj : j.id = jn) :
    findJobById q jn (List.range (priqueue_size q).toNat) = some A.length := by
  have hn : (priqueue_size q).toNat = A.length + (B.length + 1) := by
    unfold WellFormed at hwf
    rw [priqueue_size, hwf, hq]
    simp only [List.length_append, List.length_cons, Int.toNat_ofNat]
  rw [hn, List.range_eq_range']
  have := findJobById_found_aux q jn hwf j B hj A [] (by simpa using hq) hA
  simpa using this

theorem findJobById_none_aux (q : priqueue_t job_t) (jn : Int) (hwf : WellFormed q) :
    ∀ (R P : List job_t), q.qArr = P ++ R → (∀ a ∈ R, a.id ≠ jn) →
      findJobById q jn (List.range' P.length R.length) = none := by
  intro R
  induction R with
  | nil => intro P _ _; rfl
  | cons a R ih =>
    intro P hq hR
    have hat := priqueue_at_append q hwf P R a hq
    have ha : ¬ a.id = jn := hR a (by simp)
    rw [List.length_cons, List.range'_succ, findJobById, hat]
    simp only [ha, if_false]
    have := ih (P ++ [a]) (by simpa using hq) (fun x hx => hR x (by simp [hx]))
    simpa using this

/-- The search of `scheduler_job_finished` finds nothing when no job has the given id. -/
theorem findJobById_none (q : priqueue_t job_t) (jn : Int) (hwf : WellFormed q)
    (h : ∀ a ∈ q.qArr, a.id ≠ jn) :
    findJobById q jn (List.range (priqueue_size q).toNat) = none := by
  have hn : (priqueue_size q).toNat = q.qArr.length := by
    unfold WellFormed at hwf
    rw [priqueue_size, hwf]
    simp
  rw [hn, List.range_eq_range']
  exact findJobById_none_aux q jn hwf q.qArr [] rfl h

/-- The state in which `scheduler_job_finished` calls `updateTimes`, the finished job being
the one at the end of the prefix `A` of the queue. -/
theorem scheduler_job_finished_known (s : SchedState) (hw : WFS s) (core_id jn time : Int)
    (A B : List job_t) (j : job_t) (hq : s.queue.qArr = A ++ j :: B)
    (hA : ∀ a ∈ A, a.id ≠ jn) (hj : j.id = jn) :
    scheduler_job_finished s core_id jn time
      = (readCore (reschedule (updateTimes
            { s with
              coreArr := writeCore s.coreArr core_id (-1)
              queue := { s.queue with
                qArr := A ++ { j with endTime := time, coreAssigned := -1, finished := 1 }
                  :: B } } time) time).coreArr core_id,
          reschedule (updateTimes
            { s with
              coreArr := writeCore s.coreArr core_id (-1)
              queue := { s.queue with
                qArr := A ++ { j with endTime := time, coreAssigned := -1, finished := 1 }
                  :: B } } time) time) := by
  have hat := priqueue_at_append s.queue hw.1 A B j hq
  have hwf1 : WellFormed ({ s.queue with
      qArr := A ++ { j with endTime := time, coreAssigned := -1 } :: B } : priqueue_t job_t) := by
    have := hw.1
    unfold WellFormed at this ⊢
    simp only [this, hq]
    simp
  have hat1 := priqueue_at_append _ hwf1 A B
    ({ j with endTime := time, coreAssigned := -1 } : job_t) rfl
  unfold scheduler_job_finished
  rw [findJobById_found s.queue jn hw.1 A B j hq hA hj]
  simp only [hat, storeJob, hq, set_append_cons, hat1]

theorem scheduler_job_finished_unknown (s : SchedState) (hw : WFS s) (core_id jn time : Int)
    (h : ∀ a ∈ s.queue.qArr, a.id ≠ jn) :
    scheduler_job_finished s core_id jn time = (readCore s.coreArr core_id, s) := by
  unfold scheduler_job_finished
  rw [findJobById_none s.queue jn hw.1 h]

theorem reschedule_nonPreemptive (s : SchedState) (time : Int)
    (h : nonPreemptive s.activeScheme) : reschedule s time = fillIdleCores s := by
  unfold reschedule
  rcases h with h | h | h | h <;> rw [h]

theorem updateTimes_frame (s : SchedState) (time : Int) (hw : WFS s) :
    (updateTimes s time).coreArr = s.coreArr ∧
    (updateTimes s time).coreCount = s.coreCount ∧
    (updateTimes s time).activeScheme = s.activeScheme ∧
    (updateTimes s time).queue.compare = s.queue.compare ∧
    (updateTimes s time).queue.size = s.queue.size ∧
    (updateTimes s time).queue.qArr = s.queue.qArr.map (updateJobTimes time) := by
  rw [updateTimes_eq s time hw.1]
  exact ⟨rfl, rfl, rfl, rfl, rfl, rfl⟩

theorem updateTimes_noIdle (s : SchedState) (time : Int) (hw : WFS s) (h : noIdle s) :
    noIdle (updateTimes s time) := by
  unfold noIdle
  rw [(updateTimes_frame s time hw).1]
  exact h

theorem scheduler_new_job_snd (s : SchedState) (jn time rt pr : Int) :
    (scheduler_new_job s jn time rt pr).2
      = updateTimes (reschedule
          { s with queue := (priqueue_offer s.queue (newJobRecord jn time rt pr)).2 } time)
          time := by
  unfold scheduler_new_job
  simp only [newJobRecord]
  split <;> rfl

theorem scheduler_new_job_fst (s : SchedState) (jn time rt pr : Int) :
    (scheduler_new_job s jn time rt pr).1
      = match priqueue_at (scheduler_new_job s jn time rt pr).2.queue
          (priqueue_offer s.queue (newJobRecord jn time rt pr)).1 with
        | some job => job.coreAssigned
        | none => -1 := by
  rw [scheduler_new_job_snd]
  unfold scheduler_new_job
  simp only [newJobRecord]
  split <;> simp_all

theorem Inv_start (cores : Int) (scheme : scheme_t) :
    Inv cores scheme (scheduler_start_up cores scheme) := by
  refine ⟨⟨?_, ?_⟩, rfl, rfl, rfl, Or.inr ?_⟩
  · simp [WellFormed, scheduler_start_up, priqueue_init]
  · simp [scheduler_start_up]
  · intro job hjob
    simp [scheduler_start_up, priqueue_init] at hjob

/-- After the reschedule and the timing update of an event the invariant holds again. -/
theorem Inv_after_fill (cores : Int) (scheme : scheme_t) (hnp : nonPreemptive scheme)
    (s : SchedState) (time : Int) (hw : WFS s) (h1 : s.activeScheme = scheme)
    (h2 : s.coreCount = cores) (h3 : s.queue.compare = schemeComparator scheme) :
    Inv cores scheme (updateTimes (reschedule s time) time) ∧
    Inv cores scheme (reschedule s time) := by
  have hre : reschedule s time = fillIdleCores s :=
    reschedule_nonPreemptive s time (by rw [h1]; exact hnp)
  obtain ⟨hsf, hor⟩ := fillIdleCores_spec s hw
  have hw2 : WFS (fillIdleCores s) := sameFrame_wfs hsf hw
  have hinv2 : Inv cores scheme (fillIdleCores s) :=
    ⟨hw2, hsf.1.trans h1, hsf.2.1.trans h2, hsf.2.2.1.trans h3, hor⟩
  rw [hre]
  refine ⟨⟨updateTimes_wfs _ time hw2, ?_, ?_, ?_, ?_⟩, hinv2⟩
  · rw [(updateTimes_frame _ time hw2).2.2.1]; exact hinv2.2.1
  · rw [(updateTimes_frame _ time hw2).2.1]; exact hinv2.2.2.1
  · rw [(updateTimes_frame _ time hw2).2.2.2.1]; exact hinv2.2.2.2.1
  · rcases hor with h | h
    · exact Or.inl (updateTimes_noIdle _ time hw2 h)
    · exact Or.inr (updateTimes_noWaiting _ time hw2 h)

theorem Inv_new_job (cores : Int) (scheme : scheme_t) (hnp : nonPreemptive scheme)
    (s : SchedState) (hinv : Inv cores scheme s) (jn time rt pr : Int) :
    Inv cores scheme (scheduler_new_job s jn time rt pr).2 := by
  obtain ⟨hw, h1, h2, h3, _⟩ := hinv
  rw [scheduler_new_job_snd]
  have hq := priqueue_offer_qArr s.queue (newJobRecord jn time rt pr) hw.1
  refine (Inv_after_fill cores scheme hnp
    { s with queue := (priqueue_offer s.queue (newJobRecord jn time rt pr)).2 } time
    ⟨priqueue_offer_wellFormed s.queue _ hw.1, hw.2⟩ h1 h2 ?_).1
  simp only [hq]
  exact h3

theorem Inv_job_finished (cores : Int) (scheme : scheme_t) (hnp : nonPreemptive scheme)
    (s : SchedState) (hinv : Inv cores scheme s) (core_id jn time : Int) :
    Inv cores scheme (scheduler_job_finished s core_id jn time).2 := by
  have hinv0 := hinv
  obtain ⟨hw, h1, h2, h3, _⟩ := hinv
  rcases split_at_first (fun j : job_t => j.id = jn) s.queue.qArr with
    hno | ⟨A, j, B, hq, hA, hj⟩
  · rw [scheduler_job_finished_unknown s hw core_id jn time hno]
    exact hinv0
  · rw [scheduler_job_finished_known s hw core_id jn time A B j hq hA hj]
    have hw1 : WFS ({ s with
        coreArr := writeCore s.coreArr core_id (-1)
        queue := { s.queue with
          qArr := A ++ { j with endTime := time, coreAssigned := -1, finished := 1 }
            :: B } } : SchedState) := by
      obtain ⟨ha, hb⟩ := hw
      unfold WFS WellFormed at *
      simp only [length_writeCore, hb, ha, hq]
      simp
    have hw2 := updateTimes_wfs _ time hw1
    obtain ⟨f1, f2, f3, f4, _⟩ := updateTimes_frame _ time hw1
    exact (Inv_after_fill cores scheme hnp _ time hw2 (f3.trans h1) (f2.trans h2)
      (f4.trans h3)).2

theorem Inv_step (cores : Int) (scheme : scheme_t) (hnp : nonPreemptive scheme)
    (s : SchedState) (hinv : Inv cores scheme s) (e : Event) :
    Inv cores scheme (step s e).2 := by
  cases e with
  | arrival jn time rt pr => exact Inv_new_job cores scheme hnp s hinv jn time rt pr
  | completion core_id jn time => exact Inv_job_finished cores scheme hnp s hinv core_id jn time
  | quantum core_id time => exact hinv

theorem Inv_run (cores : Int) (scheme : scheme_t) (hnp : nonPreemptive scheme)
    (evs : List Event) :
    ∀ s : SchedState, Inv cores scheme s → Inv cores scheme (run s evs) := by
  induction evs with
  | nil => intro s h; exact h
  | cons e evs ih =>
    intro s h
    exact ih _ (Inv_step cores scheme hnp s h e)

/-- With exactly one waiting job and a core index, the `while` loop of `fillIdleCores`
assigns that job and stops. -/
theorem fillLoop_one (s : SchedState) (nc : Int) (fuel : Nat) (hwf : WellFormed s.queue)
    (hnc : nc ≠ -1) (A B : List job_t) (j : job_t) (hq : s.queue.qArr = A ++ j :: B)
    (hA : ∀ a ∈ A, ¬ isWaiting a) (hB : ∀ a ∈ B, ¬ isWaiting a) (hj : isWaiting j) :
    fillLoop (fuel + 2) s nc
      = some { s with
          coreArr := writeCore s.coreArr nc j.id
          queue := { s.queue with qArr := A ++ { j with coreAssigned := nc } :: B } } := by
  have hwf1 : WellFormed ({ s with
      coreArr := writeCore s.coreArr nc j.id
      queue := { s.queue with qArr := A ++ { j with coreAssigned := nc } :: B } }
        : SchedState).queue := by
    unfold WellFormed at hwf ⊢
    simp only [hwf, hq]
    simp
  have hnw : noWaiting ({ s with
      coreArr := writeCore s.coreArr nc j.id
      queue := { s.queue with qArr := A ++ { j with coreAssigned := nc } :: B } }
        : SchedState) := by
    intro job hjob
    simp only [List.mem_append, List.mem_cons] at hjob
    rcases hjob with h | h | h
    · exact hA job h
    · subst h; intro hw; exact hnc hw.2
    · exact hB job h
  have hnc1 : findIdleCore (writeCore s.coreArr nc j.id) nc
      (List.range s.coreCount.toNat) ≠ -1 := by
    rcases findIdleCore_cases (writeCore s.coreArr nc j.id) nc
        (List.range s.coreCount.toNat) with h | ⟨i, _, _, h⟩
    · rw [h]; exact hnc
    · rw [h]; omega
  rw [fillLoop, if_pos hnc, assignFirstWaiting_found s nc hwf A B j hq hA hj]
  simp only [Bool.true_eq_false, if_false]
  rw [fillLoop, if_pos hnc1, assignFirstWaiting_none _ _ hwf1 hnw]
  simp

/-- The value `scheduler_new_job` returns and the state it leaves, given the state
`s2` that `reschedule` produces and the job `x` that is then at the position of the new
job. -/
theorem scheduler_new_job_of_reschedule (s s2 : SchedState) (jn time rt pr : Int)
    (hw2 : WFS s2) (k : Nat) (A B : List job_t) (x : job_t)
    (hoffer : (priqueue_offer s.queue (newJobRecord jn time rt pr)).1 = (k : Int))
    (hre : reschedule
      { s with queue := (priqueue_offer s.queue (newJobRecord jn time rt pr)).2 } time = s2)
    (hq2 : s2.queue.qArr = A ++ x :: B) (hk : A.length = k) :
    (scheduler_new_job s jn time rt pr).1 = x.coreAssigned ∧
    (scheduler_new_job s jn time rt pr).2 = updateTimes s2 time := by
  have hsnd : (scheduler_new_job s jn time rt pr).2 = updateTimes s2 time := by
    rw [scheduler_new_job_snd, hre]
  refine ⟨?_, hsnd⟩
  rw [scheduler_new_job_fst, hsnd, hoffer]
  have hw3 := updateTimes_wfs s2 time hw2
  have hq3 : (updateTimes s2 time).queue.qArr
      = A.map (updateJobTimes time) ++ updateJobTimes time x :: B.map (updateJobTimes time) := by
    rw [(updateTimes_frame s2 time hw2).2.2.2.2.2, hq2]
    simp
  have hat := priqueue_at_append _ hw3.1 _ _ _ hq3
  rw [List.length_map, hk] at hat
  rw [hat]
  exact (updateJobTimes_fields time x).2.2.1

theorem getLast?_cons_filter {α : Type} (x : α) (l : List α) :
    (x :: l).getLast? = some (match l.getLast? with
      | some y => y
      | none => x) := by
  cases l with
  | nil => rfl
  | cons y l =>
    rw [List.getLast?_cons_cons]
    cases h : (y :: l).getLast? with
    | none => simp at h
    | some z => rfl

/-- The `while` loop of `fillIdleCores`, entered with the only idle core `c`: every waiting
job is written to `coreArr[c]` in turn, and the last of them in queue order stays. -/
theorem fillLoop_single :
    ∀ (n : Nat) (s : SchedState) (c : Nat) (fuel : Nat), WellFormed s.queue →
      s.coreArr.length = s.coreCount.toNat → c < s.coreArr.length →
      (∀ i : Nat, i < s.coreArr.length → i ≠ c → readCore s.coreArr (i : Int) ≠ -1) →
      (s.queue.qArr.filter (fun j => isWaiting j)).length ≤ n → n < fuel →
      ∃ s1, fillLoop fuel s (c : Int) = some s1 ∧
        readCore s1.coreArr (c : Int)
          = match (s.queue.qArr.filter (fun j => isWaiting j)).getLast? with
            | some w => w.id
            | none => readCore s.coreArr (c : Int) := by
  intro n
  induction n with
  | zero =>
    intro s c fuel hwf _ _ _ hn hfuel
    obtain ⟨f, rfl⟩ : ∃ f, fuel = f + 1 := ⟨fuel - 1, by omega⟩
    have hnil : s.queue.qArr.filter (fun j => isWaiting j) = [] :=
      List.eq_nil_of_length_eq_zero (by omega)
    have hnw : noWaiting s := by
      intro job hjob hw
      have : job ∈ s.queue.qArr.filter (fun j => isWaiting j) := by
        simp [List.mem_filter, hjob, hw]
      rw [hnil] at this
      simp at this
    refine ⟨s, ?_, by rw [hnil]; rfl⟩
    rw [fillLoop, if_pos (by omega), assignFirstWaiting_none s _ hwf hnw]
    simp
  | succ n ih =>
    intro s c fuel hwf hlen hc hothers hn hfuel
    obtain ⟨f, rfl⟩ : ∃ f, fuel = f + 1 := ⟨fuel - 1, by omega⟩
    rcases split_at_first (fun j => isWaiting j) s.queue.qArr with hnw | ⟨A, j, B, hq, hA, hj⟩
    · have hnil : s.queue.qArr.filter (fun j => isWaiting j) = [] := by
        rw [List.filter_eq_nil_iff]
        intro a ha
        simpa using hnw a ha
      refine ⟨s, ?_, by rw [hnil]; rfl⟩
      rw [fillLoop, if_pos (by omega), assignFirstWaiting_none s _ hwf hnw]
      simp
    · have hj1 : ¬ isWaiting { j with coreAssigned := (c : Int) } := by
        intro h
        have := h.2
        simp only at this
        omega
      have hfA : A.filter (fun j => isWaiting j) = [] := by
        rw [List.filter_eq_nil_iff]
        intro a ha
        simpa using hA a ha
      have hfilter : s.queue.qArr.filter (fun j => isWaiting j)
          = j :: B.filter (fun j => isWaiting j) := by
        rw [hq, List.filter_append, hfA, List.filter_cons]
        simp [hj]
      have hfilter1 : (A ++ { j with coreAssigned := (c : Int) } :: B).filter
          (fun j => isWaiting j) = B.filter (fun j => isWaiting j) := by
        rw [List.filter_append, hfA, List.filter_cons]
        simp [hj1]
      have hwf1 : WellFormed ({ s with
          coreArr := writeCore s.coreArr (c : Int) j.id
          queue := { s.queue with qArr := A ++ { j with coreAssigned := (c : Int) } :: B } }
            : SchedState).queue := by
        unfold WellFormed at hwf ⊢
        simp only [hwf, hq]
        simp
      have hnc1 : findIdleCore (writeCore s.coreArr (c : Int) j.id) (c : Int)
          (List.range s.coreCount.toNat) = (c : Int) := by
        rcases findIdleCore_cases (writeCore s.coreArr (c : Int) j.id) (c : Int)
            (List.range s.coreCount.toNat) with h | ⟨i, hi, hidle, h⟩
        · exact h
        · rw [h]
          by_cases hic : i = c
          · rw [hic]
          · rw [readCore_writeCore_other _ _ _ _ hic] at hidle
            have hi2 : i < s.coreArr.length := by
              rw [hlen]; exact List.mem_range.mp hi
            exact absurd hidle (hothers i hi2 hic)
      obtain ⟨s1, hs1, hread⟩ := ih
        { s with
          coreArr := writeCore s.coreArr (c : Int) j.id
          queue := { s.queue with qArr := A ++ { j with coreAssigned := (c : Int) } :: B } }
        c f hwf1 (by simp only [length_writeCore]; exact hlen)
        (by simp only [length_writeCore]; exact hc)
        (by
          intro i hi hic
          simp only [length_writeCore] at hi
          simp only
          rw [readCore_writeCore_other _ _ _ _ hic]
          exact hothers i hi hic)
        (by
          simp only [hfilter1]
          rw [hfilter] at hn
          simp only [List.length_cons] at hn
          omega)
        (by omega)
      refine ⟨s1, ?_, ?_⟩
      · rw [fillLoop, if_pos (by omega), assignFirstWaiting_found s _ hwf A B j hq hA hj]
        simp only [Bool.true_eq_false, if_false]
        rw [hnc1]
        exact hs1
      · rw [hread, hfilter, getLast?_cons_filter]
        simp only [hfilter1]
        rw [readCore_writeCore_same _ _ _ hc]
        cases (B.filter (fun j => isWaiting j)).getLast? <;> rfl

theorem sameFrame_arrivalTimes {s s1 : SchedState} (h : sameFrame s s1) :
    s1.queue.qArr.map (fun j => j.arrivalTime) = s.queue.qArr.map (fun j => j.arrivalTime) := by
  have := congrArg (List.map (fun j : job_t => j.arrivalTime)) h.2.2.2.2.1
  simpa [List.map_map, Function.comp, eraseCore] using this

theorem sameFrame_keys {s s1 : SchedState} (h : sameFrame s s1) :
    s1.queue.qArr.map (fun j => (j.arrivalTime, j.priority, j.duration, j.id))
      = s.queue.qArr.map (fun j => (j.arrivalTime, j.priority, j.duration, j.id)) := by
  have := congrArg
    (List.map (fun j : job_t => (j.arrivalTime, j.priority, j.duration, j.id))) h.2.2.2.2.1
  simpa [List.map_map, Function.comp, eraseCore] using this

theorem updateTimes_arrivalTimes (s : SchedState) (time : Int) (hw : WFS s) :
    (updateTimes s time).queue.qArr.map (fun j => j.arrivalTime)
      = s.queue.qArr.map (fun j => j.arrivalTime) := by
  rw [(updateTimes_frame s time hw).2.2.2.2.2, List.map_map]
  apply List.map_congr_left
  intro a _
  exact (updateJobTimes_fields time a).2.1

theorem run_append (s : SchedState) (evs : List Event) (e : Event) :
    run s (evs ++ [e]) = (step (run s evs) e).2 := by
  simp [run, List.foldl_append]

theorem arrivalTimes_append (evs : List Event) (e : Event) :
    arrivalTimes (evs ++ [e]) = arrivalTimes evs ++ arrivalTimes [e] := by
  induction evs with
  | nil => rfl
  | cons x evs ih =>
    cases x <;> simp [arrivalTimes, ih]

theorem validCores_append (cores : Int) (evs : List Event) (e : Event)
    (h : validCores cores (evs ++ [e])) : validCores cores evs ∧ validCore cores e := by
  constructor
  · intro x hx; exact h x (by simp [hx])
  · exact h e (by simp)

/-- Under a non-preemptive policy an event changes no arrival time and no position of
the jobs already in the queue. -/
theorem job_finished_arrivalTimes (cores : Int) (scheme : scheme_t)
    (hnp : nonPreemptive scheme) (s : SchedState) (hinv : Inv cores scheme s)
    (core_id jn time : Int) :
    (scheduler_job_finished s core_id jn time).2.queue.qArr.map (fun j => j.arrivalTime)
      = s.queue.qArr.map (fun j => j.arrivalTime) := by
  obtain ⟨hw, h1, _, _, _⟩ := hinv
  rcases split_at_first (fun j : job_t => j.id = jn) s.queue.qArr with
    hno | ⟨A, j, B, hq, hA, hj⟩
  · rw [scheduler_job_finished_unknown s hw core_id jn time hno]
  · rw [scheduler_job_finished_known s hw core_id jn time A B j hq hA hj]
    have hw1 : WFS ({ s with
        coreArr := writeCore s.coreArr core_id (-1)
        queue := { s.queue with
          qArr := A ++ { j with endTime := time, coreAssigned := -1, finished := 1 }
            :: B } } : SchedState) := by
      obtain ⟨ha, hb⟩ := hw
      unfold WFS WellFormed at *
      simp only [length_writeCore, hb, ha, hq]
      simp
    have hw2 := updateTimes_wfs _ time hw1
    have hre := reschedule_nonPreemptive (updateTimes ({ s with
        coreArr := writeCore s.coreArr core_id (-1)
        queue := { s.queue with
          qArr := A ++ { j with endTime := time, coreAssigned := -1, finished := 1 }
            :: B } } : SchedState) time) time
      (by rw [(updateTimes_frame _ time hw1).2.2.1]; simp only [h1]; exact hnp)
    simp only [hre]
    rw [sameFrame_arrivalTimes (fillIdleCores_spec _ hw2).1,
      updateTimes_arrivalTimes _ time hw1, hq]
    simp

theorem new_job_arrivalTimes (cores : Int) (scheme : scheme_t)
    (hnp : nonPreemptive scheme) (s : SchedState) (hinv : Inv cores scheme s)
    (jn time rt pr : Int) :
    (scheduler_new_job s jn time rt pr).2.queue.qArr.map (fun j => j.arrivalTime)
      = (List.orderedInsert (fun a b => s.queue.compare a b < 0)
          (newJobRecord jn time rt pr) s.queue.qArr).map (fun j => j.arrivalTime) := by
  obtain ⟨hw, h1, _, _, _⟩ := hinv
  have hw1 : WFS { s with queue := (priqueue_offer s.queue (newJobRecord jn time rt pr)).2 } :=
    ⟨priqueue_offer_wellFormed s.queue _ hw.1, hw.2⟩
  have hre := reschedule_nonPreemptive
    { s with queue := (priqueue_offer s.queue (newJobRecord jn time rt pr)).2 } time
    (by rw [show _ = s.activeScheme from rfl, h1]; exact hnp)
  have hw2 : WFS (fillIdleCores
      { s with queue := (priqueue_offer s.queue (newJobRecord jn time rt pr)).2 }) :=
    sameFrame_wfs (fillIdleCores_spec _ hw1).1 hw1
  rw [scheduler_new_job_snd, hre, updateTimes_arrivalTimes _ time hw2,
    sameFrame_arrivalTimes (fillIdleCores_spec _ hw1).1]
  simp only [priqueue_offer_qArr s.queue _ hw.1]

/-- Under FCFS with strictly increasing arrival times every arrival goes to the front of
the queue: the arrival times of the queue are those of the events, latest first. -/
theorem fcfs_queue_order (cores : Int) :
    ∀ evs : List Event, (arrivalTimes evs).Pairwise (fun a b => a < b) →
      (run (scheduler_start_up cores scheme_t.FCFS) evs).queue.qArr.map
        (fun j => j.arrivalTime) = (arrivalTimes evs).reverse := by
  have hnp : nonPreemptive scheme_t.FCFS := Or.inl rfl
  intro evs
  induction evs using List.reverseRecOn with
  | nil => intro _; rfl
  | append_singleton evs e ih =>
    intro hp
    rw [arrivalTimes_append] at hp ⊢
    have hp1 : (arrivalTimes evs).Pairwise (fun a b => a < b) :=
      (List.pairwise_append.mp hp).1
    have ih1 := ih hp1
    have hinv := Inv_run cores scheme_t.FCFS hnp evs _ (Inv_start cores scheme_t.FCFS)
    rw [run_append]
    generalize run (scheduler_start_up cores scheme_t.FCFS) evs = s at ih1 hinv ⊢
    cases e with
    | arrival jn time rt pr =>
      have hins : List.orderedInsert (fun a b => s.queue.compare a b < 0)
          (newJobRecord jn time rt pr) s.queue.qArr
          = newJobRecord jn time rt pr :: s.queue.qArr := by
        cases hql : s.queue.qArr with
        | nil => rfl
        | cons x l =>
          apply orderedInsert_cons_lt
          rw [hinv.2.2.2.1]
          have hx : x.arrivalTime ∈ arrivalTimes evs := by
            have : x.arrivalTime ∈ s.queue.qArr.map (fun j => j.arrivalTime) := by
              rw [hql]; simp
            rw [ih1] at this
            exact List.mem_reverse.mp this
          have hlt : x.arrivalTime < time :=
            (List.pairwise_append.mp hp).2.2 _ hx time (by simp [arrivalTimes])
          have hn : ¬ (newJobRecord jn time rt pr).arrivalTime < x.arrivalTime := by
            simp only [newJobRecord]; omega
          simp only [schemeComparator, compareFCFS, hn, if_false]
          decide
      show (scheduler_new_job s jn time rt pr).2.queue.qArr.map (fun j => j.arrivalTime) = _
      rw [new_job_arrivalTimes cores scheme_t.FCFS hnp s hinv, hins]
      simp [arrivalTimes, ih1, newJobRecord]
    | completion core_id jn time =>
      show (scheduler_job_finished s core_id jn time).2.queue.qArr.map
        (fun j => j.arrivalTime) = _
      rw [job_finished_arrivalTimes cores scheme_t.FCFS hnp s hinv, ih1]
      simp [arrivalTimes]
    | quantum core_id time =>
      show s.queue.qArr.map (fun j => j.arrivalTime) = _
      rw [ih1]
      simp [arrivalTimes]

theorem pairwise_getLast? {α : Type} (R : α → α → Prop) :
    ∀ (l : List α) (y : α), l.Pairwise R → l.getLast? = some y →
      ∀ x ∈ l, x = y ∨ R x y := by
  intro l
  induction l with
  | nil => intro y _ h; simp at h
  | cons x0 l ih =>
    intro y hp hlast x hx
    cases l with
    | nil =>
      simp at hlast hx
      left; rw [hx, hlast]
    | cons x1 l =>
      rw [List.getLast?_cons_cons] at hlast
      have hy : y ∈ x1 :: l := List.mem_of_getLast?_eq_some hlast
      rcases List.mem_cons.mp hx with h | h
      · right
        rw [h]
        exact (List.pairwise_cons.mp hp).1 y hy
      · exact ih y (List.pairwise_cons.mp hp).2 hlast x h

theorem filter_isWaiting_map_update (time : Int) (l : List job_t) :
    (l.map (updateJobTimes time)).filter (fun j => isWaiting j)
      = (l.filter (fun j => isWaiting j)).map (updateJobTimes time) := by
  induction l with
  | nil => rfl
  | cons x l ih =>
    by_cases h : isWaiting x
    · have h2 : isWaiting (updateJobTimes time x) := (isWaiting_updateJobTimes time x).mpr h
      simp [List.filter_cons, h, h2, ih]
    · have h2 : ¬ isWaiting (updateJobTimes time x) :=
        fun h3 => h ((isWaiting_updateJobTimes time x).mp h3)
      simp [List.filter_cons, h, h2, ih]

/-- Under a non-preemptive policy, when no core is idle at the call,
`scheduler_job_finished` for the job `fj` (the first with the given id) on the core `c`
returns the id of the last job in queue order that is waiting and is not `fj`, and -1
when there is none. -/
theorem job_finished_returns_last_waiting (cores : Int) (scheme : scheme_t)
    (hnp : nonPreemptive scheme) (s : SchedState) (hinv : Inv cores scheme s)
    (c : Nat) (hc : (c : Int) < cores) (jn time : Int) (A B : List job_t) (fj : job_t)
    (hq : s.queue.qArr = A ++ fj :: B) (hA : ∀ a ∈ A, a.id ≠ jn) (hfj : fj.id = jn)
    (hni : noIdle s) :
    (scheduler_job_finished s (c : Int) jn time).1
      = match ((A ++ B).filter (fun j => isWaiting j)).getLast? with
        | some w => w.id
        | none => -1 := by
  obtain ⟨hw, h1, h2, _, _⟩ := hinv
  have hclen : c < s.coreArr.length := by rw [hw.2]; omega
  rw [scheduler_job_finished_known s hw (c : Int) jn time A B fj hq hA hfj]
  have hw1 : WFS ({ s with
      coreArr := writeCore s.coreArr (c : Int) (-1)
      queue := { s.queue with
        qArr := A ++ { fj with endTime := time, coreAssigned := -1, finished := 1 }
          :: B } } : SchedState) := by
    obtain ⟨ha, hb⟩ := hw
    unfold WFS WellFormed at *
    simp only [length_writeCore, hb, ha, hq]
    simp
  have hw2 := updateTimes_wfs _ time hw1
  obtain ⟨f1, f2, f3, _, f5, f6⟩ := updateTimes_frame _ time hw1
  have hre := reschedule_nonPreemptive (updateTimes ({ s with
      coreArr := writeCore s.coreArr (c : Int) (-1)
      queue := { s.queue with
        qArr := A ++ { fj with endTime := time, coreAssigned := -1, finished := 1 }
          :: B } } : SchedState) time) time
    (by rw [f3]; simp only [h1]; exact hnp)
  simp only [hre]
  generalize hs4 : updateTimes ({ s with
      coreArr := writeCore s.coreArr (c : Int) (-1)
      queue := { s.queue with
        qArr := A ++ { fj with endTime := time, coreAssigned := -1, finished := 1 }
          :: B } } : SchedState) time = s4 at hw2 f1 f2 f3 f5 f6
  simp only at f1 f2 f5 f6
  have hsz : priqueue_size s4.queue > 0 := by
    have := hw.1
    unfold WellFormed at this
    rw [priqueue_size, f5, this, hq]
    simp
    omega
  have hnc : findIdleCore s4.coreArr (-1) (List.range s4.coreCount.toNat) = (c : Int) := by
    rw [f1, f2]
    apply findIdleCore_some
    · omega
    · exact readCore_writeCore_same _ _ _ hclen
    · intro i hi
      rw [readCore_writeCore_other _ _ _ _ (by omega)]
      exact hni i (by omega)
  obtain ⟨s5, hs5, hread⟩ := fillLoop_single (priqueue_size s4.queue).toNat s4 c
    ((priqueue_size s4.queue).toNat + 1) hw2.1 hw2.2
    (by rw [f1, length_writeCore]; exact hclen)
    (by
      intro i hi hic
      rw [f1] at hi ⊢
      rw [length_writeCore] at hi
      rw [readCore_writeCore_other _ _ _ _ hic]
      exact hni i hi)
    (filter_length_le_size s4 hw2.1) (Nat.lt_succ_self _)
  have hfill : fillIdleCores s4 = s5 := by
    unfold fillIdleCores
    rw [if_pos hsz]
    simp only [hnc, hs5]
  have hfj1 : ¬ isWaiting
      ({ fj with endTime := time, coreAssigned := -1, finished := 1 } : job_t) := by
    intro h
    have := h.1
    simp at this
  have hfilter : s4.queue.qArr.filter (fun j => isWaiting j)
      = ((A ++ B).filter (fun j => isWaiting j)).map (updateJobTimes time) := by
    rw [f6, filter_isWaiting_map_update]
    congr 1
    simp only [List.filter_append, List.filter_cons, hfj1, decide_False]
    simp
  rw [hfill, hread, hfilter, List.getLast?_map]
  cases hlast : ((A ++ B).filter (fun j => isWaiting j)).getLast? with
  | none =>
    simp only [Option.map_none']
    rw [f1]
    exact readCore_writeCore_same _ _ _ hclen
  | some w =>
    simp only [Option.map_some']
    exact (updateJobTimes_fields time w).1

theorem priqueue_at_mem {α : Type} (q : priqueue_t α) (index : Int) (x : α)
    (h : priqueue_at q index = some x) : x ∈ q.qArr := by
  unfold priqueue_at at h
  split_ifs at h
  exact List.getElem?_mem h

/-- The search of `scheduler_job_finished` finds nothing, whatever indices it visits, when
no job of the queue has the given id. -/
theorem findJobById_unknown (q : priqueue_t job_t) (jn : Int)
    (h : ∀ a ∈ q.qArr, a.id ≠ jn) : ∀ is : List Nat, findJobById q jn is = none := by
  intro is
  induction is with
  | nil => rfl
  | cons i rest ih =>
    rw [findJobById]
    cases hat : priqueue_at q (i : Int) with
    | none => exact ih
    | some job =>
      have hne : ¬ job.id = jn := h job (priqueue_at_mem q _ job hat)
      simp only [hne, if_false]
      exact ih

/-- Without a waiting job `fillIdleCores` changes nothing. -/
theorem fillIdleCores_noWaiting (s : SchedState) (hwf : WellFormed s.queue)
    (h : noWaiting s) : fillIdleCores s = s := by
  unfold fillIdleCores
  split_ifs with hsz
  · by_cases hnc : findIdleCore s.coreArr (-1) (List.range s.coreCount.toNat) = -1
    · rw [hnc]
      simp [fillLoop]
    · simp only [fillLoop, hnc, ne_eq, not_false_eq_true, if_true,
        assignFirstWaiting_none s _ hwf h]
  · rfl

/-- The run of a single job on a single core under a non-preemptive policy: the job
arrives at `a` with duration `d` and is reported finished on core 0 at `a + d`. -/
theorem single_job_run (scheme : scheme_t) (hnp : nonPreemptive scheme) (id a d p : Int) :
    run (scheduler_start_up 1 scheme)
        [Event.arrival id a d p, Event.completion 0 id (a + d)]
      = ⟨⟨schemeComparator scheme, 1, [⟨id, a, a + d, -1, d, a - a, a + d - a, p, 1⟩], Block.live⟩,
          scheme, 1, [-1]⟩ := by
  have hw0 : WFS (scheduler_start_up 1 scheme) := (Inv_start 1 scheme).1
  have hoffer : priqueue_offer (scheduler_start_up 1 scheme).queue (newJobRecord id a d p)
      = (0, ⟨schemeComparator scheme, 1, [newJobRecord id a d p], Block.live⟩) := by
    simp [priqueue_offer, scheduler_start_up, priqueue_init, writeCell, Block.access]
  -- the state after the arrival
  have hA : (scheduler_new_job (scheduler_start_up 1 scheme) id a d p).2
      = ⟨⟨schemeComparator scheme, 1, [⟨id, a, -1, 0, d, a - a, a - a, p, 0⟩], Block.live⟩,
          scheme, 1, [id]⟩ := by
    have hw1 : WellFormed (⟨⟨schemeComparator scheme, 1, [newJobRecord id a d p], Block.live⟩,
        scheme, 1, [-1]⟩ : SchedState).queue := by
      simp [WellFormed]
    have hfill : reschedule
        { scheduler_start_up 1 scheme with
          queue := (priqueue_offer (scheduler_start_up 1 scheme).queue
            (newJobRecord id a d p)).2 } a
        = ⟨⟨schemeComparator scheme, 1,
            [{ newJobRecord id a d p with coreAssigned := 0 }], Block.live⟩, scheme, 1, [id]⟩ := by
      rw [reschedule_nonPreemptive _ a hnp, hoffer]
      have hone := fillLoop_one (⟨⟨schemeComparator scheme, 1, [newJobRecord id a d p], Block.live⟩,
        scheme, 1, [-1]⟩ : SchedState) 0 0 hw1 (by decide) [] [] (newJobRecord id a d p) rfl
        (by simp) (by simp) ⟨rfl, rfl⟩
      unfold fillIdleCores
      have hnc : findIdleCore [-1] (-1) (List.range (1 : Int).toNat) = 0 := by decide
      have hrep : List.replicate (1 : Int).toNat (-1 : Int) = [-1] := rfl
      simp only [scheduler_start_up, priqueue_size, hrep, hnc]
      simp only [show ((1 : Int) > 0) = True from by simp, if_true]
      rw [show (1 : Int).toNat + 1 = 0 + 2 from rfl, hone]
      simp [writeCore, newJobRecord]
    have hw2 : WFS (⟨⟨schemeComparator scheme, 1,
        [{ newJobRecord id a d p with coreAssigned := 0 }], Block.live⟩, scheme, 1, [id]⟩
          : SchedState) := by
      constructor
      · simp [WellFormed]
      · simp
    have hres := scheduler_new_job_of_reschedule (scheduler_start_up 1 scheme) _ id a d p
      hw2 0 [] [] { newJobRecord id a d p with coreAssigned := 0 }
      (by rw [hoffer]; rfl) hfill rfl rfl
    rw [hres.2, updateTimes_eq _ a hw2.1]
    simp [updateJobTimes, newJobRecord]
  -- the completion
  have hwA : WFS (⟨⟨schemeComparator scheme, 1, [⟨id, a, -1, 0, d, a - a, a - a, p, 0⟩], Block.live⟩,
      scheme, 1, [id]⟩ : SchedState) := by
    constructor
    · simp [WellFormed]
    · simp
  have hrun : run (scheduler_start_up 1 scheme)
      [Event.arrival id a d p, Event.completion 0 id (a + d)]
      = (scheduler_job_finished
          (scheduler_new_job (scheduler_start_up 1 scheme) id a d p).2 0 id (a + d)).2 := rfl
  rw [hrun, hA,
    scheduler_job_finished_known _ hwA 0 id (a + d) [] []
      (⟨id, a, -1, 0, d, a - a, a - a, p, 0⟩ : job_t) rfl (by simp) rfl]
  simp only
  have hw3 : WFS (⟨⟨schemeComparator scheme, 1,
      [⟨id, a, a + d, -1, d, a - a, a - a, p, 1⟩], Block.live⟩, scheme, 1, [-1]⟩ : SchedState) := by
    constructor
    · simp [WellFormed]
    · simp
  have hs3 : ({ (⟨⟨schemeComparator scheme, 1, [⟨id, a, -1, 0, d, a - a, a - a, p, 0⟩], Block.live⟩,
        scheme, 1, [id]⟩ : SchedState) with
      coreArr := writeCore [id] 0 (-1)
      queue := ⟨schemeComparator scheme, 1,
        [] ++ [({ (⟨id, a, -1, 0, d, a - a, a - a, p, 0⟩ : job_t) with
          endTime := a + d, coreAssigned := -1, finished := 1 } : job_t)], Block.live⟩ } : SchedState)
      = ⟨⟨schemeComparator scheme, 1, [⟨id, a, a + d, -1, d, a - a, a - a, p, 1⟩], Block.live⟩,
          scheme, 1, [-1]⟩ := by
    simp [writeCore]
  rw [hs3, updateTimes_eq _ (a + d) hw3.1]
  have hupd : updateJobTimes (a + d) (⟨id, a, a + d, -1, d, a - a, a - a, p, 1⟩ : job_t)
      = ⟨id, a, a + d, -1, d, a - a, a + d - a, p, 1⟩ := by
    simp [updateJobTimes]
  simp only [List.map_cons, List.map_nil, hupd]
  rw [reschedule_nonPreemptive _ (a + d) hnp]
  apply fillIdleCores_noWaiting
  · simp [WellFormed]
  · intro job hjob
    simp only [List.mem_singleton] at hjob
    subst hjob
    intro h
    have := h.1
    simp at this

/-- The three statistics of a queue that holds a single job. -/
theorem single_job_statistics (cmp : job_t → job_t → Int) (scheme : scheme_t)
    (cores : Int) (coreArr : List Int) (job : job_t) :
    scheduler_average_waiting_time ⟨⟨cmp, 1, [job], Block.live⟩, scheme, cores, coreArr⟩
      = ((job.endTime - job.arrivalTime - job.duration : Int) : ℚ) ∧
    scheduler_average_turnaround_time ⟨⟨cmp, 1, [job], Block.live⟩, scheme, cores, coreArr⟩
      = ((job.endTime - job.arrivalTime : Int) : ℚ) ∧
    scheduler_average_response_time ⟨⟨cmp, 1, [job], Block.live⟩, scheme, cores, coreArr⟩
      = ((job.scheduleLatency : Int) : ℚ) := by
  refine ⟨?_, ?_, ?_⟩
  · simp [scheduler_average_waiting_time, priqueue_size, priqueue_at, List.range_succ]
  · simp [scheduler_average_turnaround_time, priqueue_size, priqueue_at, List.range_succ]
  · simp [scheduler_average_response_time, priqueue_size, priqueue_at, List.range_succ]

/-- The statistics of the single-job run under a non-preemptive policy. -/
theorem single_job_run_statistics (scheme : scheme_t) (hnp : nonPreemptive scheme)
    (id a d p : Int) :
    scheduler_average_waiting_time (run (scheduler_start_up 1 scheme)
      [Event.arrival id a d p, Event.completion 0 id (a + d)]) = 0 ∧
    scheduler_average_turnaround_time (run (scheduler_start_up 1 scheme)
      [Event.arrival id a d p, Event.completion 0 id (a + d)]) = (d : ℚ) ∧
    scheduler_average_response_time (run (scheduler_start_up 1 scheme)
      [Event.arrival id a d p, Event.completion 0 id (a + d)]) = 0 := by
  rw [single_job_run scheme hnp id a d p]
  obtain ⟨h1, h2, h3⟩ := single_job_statistics (schemeComparator scheme) scheme 1 [-1]
    ⟨id, a, a + d, -1, d, a - a, a + d - a, p, 1⟩
  rw [h1, h2, h3]
  simp

theorem reschedule_preemptive (s : SchedState) (time : Int)
    (h : preemptive s.activeScheme) : reschedule s time = preemptCores s time := by
  unfold reschedule
  rcases h with h | h <;> rw [h]

theorem preemptBody_unassigned (time : Int) (s : SchedState) (i : Nat)
    (h : ∀ job ∈ s.queue.qArr, job.coreAssigned = -1) : preemptBody time s i = s := by
  unfold preemptBody
  cases hat : priqueue_at s.queue (i : Int) with
  | none => rfl
  | some curr =>
    have hc : curr.coreAssigned = -1 := h curr (priqueue_at_mem _ _ _ hat)
    simp [hc]

/-- `preemptCores` changes nothing when no job holds a core. -/
theorem preemptCores_unassigned (s : SchedState) (time : Int)
    (h : ∀ job ∈ s.queue.qArr, job.coreAssigned = -1) : preemptCores s time = s := by
  have hfold : ∀ is : List Nat, is.foldl (preemptBody time) s = s := by
    intro is
    induction is with
    | nil => rfl
    | cons i rest ih => rw [List.foldl_cons, preemptBody_unassigned time s i h, ih]
  unfold preemptCores
  split_ifs
  · exact hfold _
  · rfl

theorem InvP_start (cores : Int) (scheme : scheme_t) :
    InvP cores scheme (scheduler_start_up cores scheme) := by
  refine ⟨(Inv_start cores scheme).1, rfl, rfl, ?_, ?_⟩
  · intro job hjob
    simp [scheduler_start_up, priqueue_init] at hjob
  · intro x hx
    simp only [scheduler_start_up] at hx
    exact (List.mem_replicate.mp hx).2

/-- What `scheduler_new_job` does under a preemptive policy when no job holds a core:
the new job is inserted, the timing fields are updated, nothing is dispatched. -/
theorem new_job_preemptive (cores : Int) (scheme : scheme_t) (hp : preemptive scheme)
    (s : SchedState) (hinv : InvP cores scheme s) (jn time rt pr : Int) :
    InvP cores scheme (scheduler_new_job s jn time rt pr).2 ∧
    (scheduler_new_job s jn time rt pr).1 = -1 := by
  obtain ⟨hw, h1, h2, h4, h5⟩ := hinv
  have hq := priqueue_offer_qArr s.queue (newJobRecord jn time rt pr) hw.1
  have hw1 : WFS { s with queue := (priqueue_offer s.queue (newJobRecord jn time rt pr)).2 } :=
    ⟨priqueue_offer_wellFormed s.queue _ hw.1, hw.2⟩
  have hun : ∀ job ∈ ({ s with queue := (priqueue_offer s.queue
      (newJobRecord jn time rt pr)).2 } : SchedState).queue.qArr, job.coreAssigned = -1 := by
    intro job hjob
    simp only [hq] at hjob
    rcases (List.mem_orderedInsert _).mp hjob with h | h
    · rw [h]; rfl
    · exact h4 job h
  have hre : reschedule { s with queue := (priqueue_offer s.queue
      (newJobRecord jn time rt pr)).2 } time
      = { s with queue := (priqueue_offer s.queue (newJobRecord jn time rt pr)).2 } := by
    rw [reschedule_preemptive _ time (by rw [show _ = s.activeScheme from rfl, h1]; exact hp)]
    exact preemptCores_unassigned _ time hun
  have hsnd : (scheduler_new_job s jn time rt pr).2
      = updateTimes { s with queue := (priqueue_offer s.queue
          (newJobRecord jn time rt pr)).2 } time := by
    rw [scheduler_new_job_snd, hre]
  obtain ⟨f1, f2, f3, _, _, f6⟩ := updateTimes_frame _ time hw1
  have hun2 : ∀ job ∈ (scheduler_new_job s jn time rt pr).2.queue.qArr,
      job.coreAssigned = -1 := by
    intro job hjob
    rw [hsnd, f6] at hjob
    obtain ⟨j0, hj0, rfl⟩ := List.mem_map.mp hjob
    rw [(updateJobTimes_fields time j0).2.2.1]
    exact hun j0 hj0
  constructor
  · refine ⟨?_, ?_, ?_, hun2, ?_⟩
    · rw [hsnd]; exact updateTimes_wfs _ time hw1
    · rw [hsnd, f3]; exact h1
    · rw [hsnd, f2]; exact h2
    · rw [hsnd, f1]; exact h5
  · rw [scheduler_new_job_fst]
    cases hat : priqueue_at (scheduler_new_job s jn time rt pr).2.queue
        (priqueue_offer s.queue (newJobRecord jn time rt pr)).1 with
    | none => rfl
    | some job => exact hun2 job (priqueue_at_mem _ _ _ hat)

theorem readCore_of_all_idle (coreArr : List Int) (c : Int) (h : ∀ x ∈ coreArr, x = -1)
    (h0 : 0 ≤ c) (h1 : c.toNat < coreArr.length) : readCore coreArr c = -1 := by
  unfold readCore
  rw [if_pos h0, List.getD_eq_getElem _ _ h1]
  exact h _ (List.getElem_mem _)

theorem writeCore_all_idle (coreArr : List Int) (c : Int) (h : ∀ x ∈ coreArr, x = -1) :
    ∀ x ∈ writeCore coreArr c (-1), x = -1 := by
  intro x hx
  unfold writeCore at hx
  split_ifs at hx
  · rcases List.mem_or_eq_of_mem_set hx with h1 | h1
    · exact h x h1
    · exact h1
  · exact h x hx

/-- What `scheduler_job_finished` does under a preemptive policy when no job holds a
core: nothing is dispatched and the value returned for a valid core is -1. -/
theorem job_finished_preemptive (cores : Int) (scheme : scheme_t) (hp : preemptive scheme)
    (s : SchedState) (hinv : InvP cores scheme s) (core_id jn time : Int) :
    InvP cores scheme (scheduler_job_finished s core_id jn time).2 ∧
    (0 ≤ core_id → core_id < cores → (scheduler_job_finished s core_id jn time).1 = -1) := by
  have hinv0 := hinv
  obtain ⟨hw, h1, h2, h4, h5⟩ := hinv
  rcases split_at_first (fun j : job_t => j.id = jn) s.queue.qArr with
    hno | ⟨A, j, B, hq, hA, hj⟩
  · rw [scheduler_job_finished_unknown s hw core_id jn time hno]
    refine ⟨hinv0, ?_⟩
    intro hc0 hc1
    exact readCore_of_all_idle _ _ h5 hc0 (by rw [hw.2]; omega)
  · rw [scheduler_job_finished_known s hw core_id jn time A B j hq hA hj]
    have hw1 : WFS ({ s with
        coreArr := writeCore s.coreArr core_id (-1)
        queue := { s.queue with
          qArr := A ++ { j with endTime := time, coreAssigned := -1, finished := 1 }
            :: B } } : SchedState) := by
      obtain ⟨ha, hb⟩ := hw
      unfold WFS WellFormed at *
      simp only [length_writeCore, hb, ha, hq]
      simp
    have hw2 := updateTimes_wfs _ time hw1
    obtain ⟨f1, f2, f3, _, _, f6⟩ := updateTimes_frame _ time hw1
    have hun : ∀ job ∈ (updateTimes ({ s with
        coreArr := writeCore s.coreArr core_id (-1)
        queue := { s.queue with
          qArr := A ++ { j with endTime := time, coreAssigned := -1, finished := 1 }
            :: B } } : SchedState) time).queue.qArr, job.coreAssigned = -1 := by
      intro job hjob
      rw [f6] at hjob
      obtain ⟨j0, hj0, rfl⟩ := List.mem_map.mp hjob
      rw [(updateJobTimes_fields time j0).2.2.1]
      simp only [List.mem_append, List.mem_cons] at hj0
      rcases hj0 with h | h | h
      · exact h4 j0 (by rw [hq]; simp [h])
      · rw [h]
      · exact h4 j0 (by rw [hq]; simp [h])
    have hre := reschedule_preemptive (updateTimes ({ s with
        coreArr := writeCore s.coreArr core_id (-1)
        queue := { s.queue with
          qArr := A ++ { j with endTime := time, coreAssigned := -1, finished := 1 }
            :: B } } : SchedState) time) time
      (by rw [f3]; simp only [h1]; exact hp)
    rw [hre, preemptCores_unassigned _ time hun]
    have hidle : ∀ x ∈ (updateTimes ({ s with
        coreArr := writeCore s.coreArr core_id (-1)
        queue := { s.queue with
          qArr := A ++ { j with endTime := time, coreAssigned := -1, finished := 1 }
            :: B } } : SchedState) time).coreArr, x = -1 := by
      rw [f1]
      exact writeCore_all_idle _ _ h5
    refine ⟨⟨hw2, f3.trans h1, f2.trans h2, hun, hidle⟩, ?_⟩
    intro hc0 hc1
    refine readCore_of_all_idle _ _ hidle hc0 ?_
    rw [hw2.2, f2]
    simp only
    omega

theorem InvP_run (cores : Int) (scheme : scheme_t) (hp : preemptive scheme)
    (evs : List Event) :
    ∀ s : SchedState, InvP cores scheme s → InvP cores scheme (run s evs) := by
  induction evs with
  | nil => intro s h; exact h
  | cons e evs ih =>
    intro s h
    refine ih _ ?_
    cases e with
    | arrival jn time rt pr => exact (new_job_preemptive cores scheme hp s h jn time rt pr).1
    | completion core_id jn time =>
      exact (job_finished_preemptive cores scheme hp s h core_id jn time).1
    | quantum core_id time => exact h

/-- More fuel does not change the result of the `while` loop of `fillIdleCores`. -/
theorem fillLoop_mono :
    ∀ (fuel : Nat) (s : SchedState) (nc : Int) (s1 : SchedState),
      fillLoop fuel s nc = some s1 → ∀ k, fillLoop (fuel + k) s nc = some s1 := by
  intro fuel
  induction fuel with
  | zero => intro s nc s1 h; simp [fillLoop] at h
  | succ fuel ih =>
    intro s nc s1 h k
    rw [show fuel + 1 + k = (fuel + k) + 1 by omega]
    rw [fillLoop] at h ⊢
    by_cases hnc : nc ≠ -1
    · rw [if_pos hnc] at h ⊢
      by_cases hr : (assignFirstWaiting s nc
          (List.range (priqueue_size s.queue).toNat)).2 = false
      · simp only [hr, if_true] at h ⊢
        exact h
      · simp only [hr, if_false] at h ⊢
        exact ih _ _ _ h k
    · rw [if_neg hnc] at h ⊢
      exact h

/-- One pass of the body of the `while` loop of `fillIdleCores`: either no job is found
(the loop exits) or the number of waiting jobs goes down by one. -/
theorem assignFirstWaiting_decreases (s : SchedState) (nc : Int) (hwf : WellFormed s.queue)
    (hnc : nc ≠ -1) :
    (assignFirstWaiting s nc (List.range (priqueue_size s.queue).toNat)).2 = false ∨
    waitingCount (assignFirstWaiting s nc (List.range (priqueue_size s.queue).toNat)).1 + 1
      = waitingCount s := by
  rcases split_at_first (fun j => isWaiting j) s.queue.qArr with hnw | ⟨A, j, B, hq, hA, hj⟩
  · left
    rw [assignFirstWaiting_none s nc hwf hnw]
  · right
    rw [assignFirstWaiting_found s nc hwf A B j hq hA hj]
    have hj1 : ¬ isWaiting { j with coreAssigned := nc } := fun h => hnc h.2
    unfold waitingCount
    simp only [hq, List.filter_append, List.filter_cons, hj, hj1, decide_True, decide_False,
      if_true, List.length_append, List.length_cons]
    simp only [Bool.false_eq_true, if_false]
    omega

theorem jobsKept_refl (l : List job_t) : jobsKept l l :=
  fun _ job h => ⟨job, h, rfl, fun _ => rfl⟩

theorem jobsKept_trans {l l1 l2 : List job_t} (h1 : jobsKept l l1) (h2 : jobsKept l1 l2) :
    jobsKept l l2 := by
  intro i job hjob
  obtain ⟨job1, hj1, he1, hk1⟩ := h1 i job hjob
  obtain ⟨job2, hj2, he2, hk2⟩ := h2 i job1 hj1
  refine ⟨job2, hj2, he2.trans he1, ?_⟩
  intro hnw
  have h3 := hk1 hnw
  subst h3
  exact hk2 hnw

/-- Giving a core to one waiting job keeps every other job and every other field. -/
theorem jobsKept_assign (nc : Int) (j : job_t) (B : List job_t) (hj : isWaiting j) :
    ∀ A : List job_t, jobsKept (A ++ j :: B) (A ++ { j with coreAssigned := nc } :: B) := by
  intro A
  induction A with
  | nil =>
    intro i job hjob
    cases i with
    | zero =>
      have hjj : j = job := by simpa using hjob
      rw [← hjj]
      exact ⟨{ j with coreAssigned := nc }, by simp, rfl, fun h => absurd hj h⟩
    | succ i => exact ⟨job, by simpa using hjob, rfl, fun _ => rfl⟩
  | cons a A ih =>
    intro i job hjob
    cases i with
    | zero => exact ⟨job, by simpa using hjob, rfl, fun _ => rfl⟩
    | succ i =>
      obtain ⟨job1, h1, h2, h3⟩ := ih i job (by simpa using hjob)
      exact ⟨job1, by simpa using h1, h2, h3⟩

/-- The frame of the `while` loop of `fillIdleCores`, entered with a core index outside a
set `P` of cores none of which is idle: the jobs are kept up to the core assignment of
those that were waiting, and the cores of `P` keep their occupants. -/
theorem fillLoop_frame (P : Nat → Prop) :
    ∀ (n : Nat) (s : SchedState) (c : Nat) (fuel : Nat), WellFormed s.queue → ¬ P c →
      (∀ i : Nat, P i → readCore s.coreArr (i : Int) ≠ -1) →
      (s.queue.qArr.filter (fun j => isWaiting j)).length ≤ n → n < fuel →
      ∃ s1, fillLoop fuel s (c : Int) = some s1 ∧ jobsKept s.queue.qArr s1.queue.qArr ∧
        ∀ i : Nat, P i → readCore s1.coreArr (i : Int) = readCore s.coreArr (i : Int) := by
  intro n
  induction n with
  | zero =>
    intro s c fuel hwf _ _ hn hfuel
    obtain ⟨f, rfl⟩ : ∃ f, fuel = f + 1 := ⟨fuel - 1, by omega⟩
    have hnw : noWaiting s := by
      intro job hjob hw
      have : job ∈ s.queue.qArr.filter (fun j => isWaiting j) := by
        simp [List.mem_filter, hjob, hw]
      have hpos := List.length_pos_of_mem this
      omega
    refine ⟨s, ?_, jobsKept_refl _, fun _ _ => rfl⟩
    rw [fillLoop, if_pos (by omega), assignFirstWaiting_none s _ hwf hnw]
    simp
  | succ n ih =>
    intro s c fuel hwf hPc hP hn hfuel
    obtain ⟨f, rfl⟩ : ∃ f, fuel = f + 1 := ⟨fuel - 1, by omega⟩
    rcases split_at_first (fun j => isWaiting j) s.queue.qArr with hnw | ⟨A, j, B, hq, hA, hj⟩
    · refine ⟨s, ?_, jobsKept_refl _, fun _ _ => rfl⟩
      rw [fillLoop, if_pos (by omega), assignFirstWaiting_none s _ hwf hnw]
      simp
    · have hj1 : ¬ isWaiting { j with coreAssigned := (c : Int) } := by
        intro h
        have := h.2
        simp only at this
        omega
      have hwf1 : WellFormed ({ s with
          coreArr := writeCore s.coreArr (c : Int) j.id
          queue := { s.queue with qArr := A ++ { j with coreAssigned := (c : Int) } :: B } }
            : SchedState).queue := by
        unfold WellFormed at hwf ⊢
        simp only [hwf, hq]
        simp
      have hcount : (({ s with
          coreArr := writeCore s.coreArr (c : Int) j.id
          queue := { s.queue with qArr := A ++ { j with coreAssigned := (c : Int) } :: B } }
            : SchedState).queue.qArr.filter (fun j => isWaiting j)).length ≤ n := by
        rw [hq] at hn
        simp only [List.filter_append, List.filter_cons, hj, hj1, decide_True, decide_False,
          if_true, List.length_append, List.length_cons] at hn ⊢
        simp only [Bool.false_eq_true, if_false]
        omega
      have hP1 : ∀ i : Nat, P i →
          readCore (writeCore s.coreArr (c : Int) j.id) (i : Int)
            = readCore s.coreArr (i : Int) := by
        intro i hi
        have hic : i ≠ c := fun h => hPc (h ▸ hi)
        exact readCore_writeCore_other _ _ _ _ hic
      obtain ⟨c1, hc1, hPc1⟩ : ∃ c1 : Nat,
          findIdleCore (writeCore s.coreArr (c : Int) j.id) (c : Int)
            (List.range s.coreCount.toNat) = (c1 : Int) ∧ ¬ P c1 := by
        rcases findIdleCore_cases (writeCore s.coreArr (c : Int) j.id) (c : Int)
            (List.range s.coreCount.toNat) with h | ⟨i, _, hidle, h⟩
        · exact ⟨c, h, hPc⟩
        · refine ⟨i, h, ?_⟩
          intro hPi
          rw [hP1 i hPi] at hidle
          exact hP i hPi hidle
      obtain ⟨s1, hs1, hk1, hcore1⟩ := ih
        { s with
          coreArr := writeCore s.coreArr (c : Int) j.id
          queue := { s.queue with qArr := A ++ { j with coreAssigned := (c : Int) } :: B } }
        c1 f hwf1 hPc1
        (by
          intro i hi
          simp only
          rw [hP1 i hi]
          exact hP i hi)
        hcount (by omega)
      refine ⟨s1, ?_, ?_, ?_⟩
      · rw [fillLoop, if_pos (by omega), assignFirstWaiting_found s _ hwf A B j hq hA hj]
        simp only [Bool.true_eq_false, if_false]
        rw [hc1]
        exact hs1
      · rw [hq]
        exact jobsKept_trans (jobsKept_assign (c : Int) j B hj A) hk1
      · intro i hi
        rw [hcore1 i hi]
        exact hP1 i hi

/-- The frame of `fillIdleCores`: jobs kept up to the core assignment of the waiting
ones, occupied cores kept. -/
theorem fillIdleCores_frame (s : SchedState) (hw : WFS s) :
    jobsKept s.queue.qArr (fillIdleCores s).queue.qArr ∧
    ∀ c : Nat, readCore s.coreArr (c : Int) ≠ -1 →
      readCore (fillIdleCores s).coreArr (c : Int) = readCore s.coreArr (c : Int) := by
  by_cases hsz : priqueue_size s.queue > 0
  · rcases findIdleCore_cases s.coreArr (-1) (List.range s.coreCount.toNat) with
      h | ⟨c0, _, hidle, h⟩
    · have : fillIdleCores s = s := by
        unfold fillIdleCores
        rw [if_pos hsz, h]
        simp [fillLoop]
      rw [this]
      exact ⟨jobsKept_refl _, fun _ _ => rfl⟩
    · obtain ⟨s1, hs1, hk, hcore⟩ := fillLoop_frame
        (fun i => readCore s.coreArr (i : Int) ≠ -1) (priqueue_size s.queue).toNat s c0
        ((priqueue_size s.queue).toNat + 1) hw.1 (by simp [hidle]) (fun _ hi => hi)
        (filter_length_le_size s hw.1) (Nat.lt_succ_self _)
      have : fillIdleCores s = s1 := by
        unfold fillIdleCores
        rw [if_pos hsz]
        simp only [h, hs1]
      rw [this]
      exact ⟨hk, hcore⟩
  · have : fillIdleCores s = s := by
      unfold fillIdleCores
      rw [if_neg hsz]
    rw [this]
    exact ⟨jobsKept_refl _, fun _ _ => rfl⟩

/-! ## The block behind `q->qArr` -/

/-- An offer to a queue whose block is live leaves a live block. -/
theorem priqueue_offer_block_live {α : Type} (q : priqueue_t α) (ptr : α)
    (hlive : q.block = Block.live) : (priqueue_offer q ptr).2.block = Block.live := by
  unfold priqueue_offer
  split_ifs <;> simp only [hlive] <;> rfl

/-- A run of offers that starts from `priqueue_init` never leaves a freed block. -/
theorem offerAll_block_live {α : Type} (hs : List α) :
    ∀ q : priqueue_t α, q.block = Block.live → (offerAll q hs).block = Block.live := by
  induction hs with
  | nil => intro q hq; exact hq
  | cons h hs ih =>
    intro q hq
    rw [offerAll_cons]
    exact ih _ (priqueue_offer_block_live q h hq)

/-- The poll that takes the last element frees the block and keeps the pointer: the queue
it leaves has size 0, no cell, and a freed block. -/
theorem priqueue_poll_last_frees_block {α : Type} (q : priqueue_t α) (hsz : q.size = 1)
    (hlive : q.block = Block.live) :
    (priqueue_poll q).2.size = 0 ∧ (priqueue_poll q).2.qArr = [] ∧
    (priqueue_poll q).2.block = Block.freed := by
  have h0 : ¬ q.size = 0 := by omega
  unfold priqueue_poll
  simp only [if_neg h0, if_pos hsz, hsz, hlive]
  exact ⟨rfl, rfl, rfl⟩

/-- The remove that deletes every entry frees the block and keeps the pointer. -/
theorem priqueue_remove_all_frees_block {α : Type} [DecidableEq α] (q : priqueue_t α)
    (ptr : α) (hne : removeCount q ptr ≠ 0) (hall : removeCount q ptr = q.size)
    (hlive : q.block = Block.live) :
    (priqueue_remove q ptr).2.size = 0 ∧ (priqueue_remove q ptr).2.qArr = [] ∧
    (priqueue_remove q ptr).2.block = Block.freed := by
  unfold priqueue_remove
  simp only [if_neg hne, if_pos hall, hlive]
  exact ⟨trivial, trivial, rfl⟩

/-- An offer to a queue whose block has been freed accesses the freed block, whatever the
comparator and the handle. -/
theorem priqueue_offer_block_freed {α : Type} (q : priqueue_t α) (ptr : α)
    (hfreed : q.block = Block.freed) : (priqueue_offer q ptr).2.block = Block.undefined := by
  unfold priqueue_offer
  split_ifs <;> simp only [hfreed] <;> rfl

/-- The insertion on a queue whose block is live: for a well-formed queue `q` with a live
block, a handle `h`, and `i` the least index with `compare(h, q[i]) < 0` (or the size when
there is none), `priqueue_offer(q, h)` returns `i`, the new sequence is
`q[0..i) ++ [h] ++ q[i..size)`, the size grows by exactly one, the comparator is kept,
`priqueue_at(q', i)` is `h`, every element before position `i` stays where it was, and the
block of the new queue is live. -/
theorem priqueue_offer_on_live_block {α : Type} (q : priqueue_t α) (h : α) (i : Nat)
    (hwf : WellFormed q) (hlive : q.block = Block.live) (hi : i ≤ q.qArr.length)
    (hbefore : ∀ j e, j < i → q.qArr[j]? = some e → 0 ≤ q.compare h e)
    (hat : ∀ e, q.qArr[i]? = some e → q.compare h e < 0) :
    (priqueue_offer q h).1 = (i : Int) ∧
    (priqueue_offer q h).2.qArr = q.qArr.take i ++ [h] ++ q.qArr.drop i ∧
    (priqueue_offer q h).2.size = q.size + 1 ∧
    priqueue_size (priqueue_offer q h).2 = ((priqueue_offer q h).2.qArr.length : Int) ∧
    (priqueue_offer q h).2.compare = q.compare ∧
    priqueue_at (priqueue_offer q h).2 (i : Int) = some h ∧
    (∀ j, j < i → priqueue_at (priqueue_offer q h).2 (j : Int) = priqueue_at q (j : Int)) ∧
    (priqueue_offer q h).2.block = Block.live := by
  obtain ⟨k, hk, hall, hatk, heq⟩ := priqueue_offer_cases q h hwf
  have hki : k = i := by
    rcases Nat.lt_trichotomy k i with hlt | heq | hgt
    · obtain ⟨e, he, hc⟩ := hatk (by omega)
      have := hbefore k e hlt he
      omega
    · exact heq
    · have hil : i < q.qArr.length := by omega
      have hc := hat _ (List.getElem?_eq_getElem hil)
      have := hall i _ hgt (List.getElem?_eq_getElem hil)
      omega
  subst hki
  have hw : WellFormed (priqueue_offer q h).2 := priqueue_offer_wellFormed q h hwf
  unfold WellFormed at hw hwf
  have hlen : (q.qArr.take k).length = k := by rw [List.length_take]; omega
  rw [heq] at hw ⊢
  refine ⟨rfl, by simp, rfl, hw, rfl, ?_, ?_, by simp only [hlive]; rfl⟩
  · have hlt : ¬ ((k : Int) ≥ q.size + 1 ∨ (k : Int) < 0) := by omega
    simp only [priqueue_at, hlt, if_false, Int.toNat_ofNat]
    rw [List.getElem?_append_right (by omega), hlen]
    simp
  · intro j hj
    have h1 : ¬ ((j : Int) ≥ q.size + 1 ∨ (j : Int) < 0) := by omega
    have h2 : ¬ ((j : Int) ≥ q.size ∨ (j : Int) < 0) := by omega
    simp only [priqueue_at, h1, h2, if_false, Int.toNat_ofNat]
    rw [List.getElem?_append_left (by omega), List.getElem?_take]
    simp [hj]

/-- What an FCFS completion returns, in terms of the fields of the job records: after any
sequence of events with valid core indices and strictly increasing arrival times, let the
queue be `A`, then the job `fj` that `scheduler_job_finished` takes as the finished one
(the first with the given id), then `B`.  When the call names a valid core and some record
other than `fj` has `finished = 0` and `coreAssigned = -1`, the value returned is the id
of the record with the earliest arrival time among those.  A job that `fillIdleCores` has
written a core to without making it the occupant of that core is not among them. -/
theorem fcfs_completion_returns_earliest_unassigned (cores : Int) (evs : List Event)
    (_hvalid : validCores cores evs)
    (hinc : (arrivalTimes evs).Pairwise (fun a b => a < b))
    (core_id job_number time : Int) (hcore : 0 ≤ core_id ∧ core_id < cores)
    (A B : List job_t) (fj : job_t)
    (hq : (run (scheduler_start_up cores scheme_t.FCFS) evs).queue.qArr = A ++ fj :: B)
    (hA : ∀ a ∈ A, a.id ≠ job_number) (hfj : fj.id = job_number)
    (hwait : ∃ w, (w ∈ A ∨ w ∈ B) ∧ isWaiting w) :
    ∃ w, (w ∈ A ∨ w ∈ B) ∧ isWaiting w ∧
      (∀ v, (v ∈ A ∨ v ∈ B) → isWaiting v → w.arrivalTime ≤ v.arrivalTime) ∧
      (scheduler_job_finished (run (scheduler_start_up cores scheme_t.FCFS) evs)
        core_id job_number time).1 = w.id := by
  have hnp : nonPreemptive scheme_t.FCFS := Or.inl rfl
  have hinv := Inv_run cores scheme_t.FCFS hnp evs _ (Inv_start cores scheme_t.FCFS)
  have horder := fcfs_queue_order cores evs hinc
  generalize run (scheduler_start_up cores scheme_t.FCFS) evs = s at hinv horder hq ⊢
  obtain ⟨c, rfl⟩ := Int.eq_ofNat_of_zero_le hcore.1
  obtain ⟨w0, hw0mem, hw0⟩ := hwait
  have hni : noIdle s := by
    rcases hinv.2.2.2.2 with h | h
    · exact h
    · exfalso
      refine h w0 ?_ hw0
      rw [hq]
      rcases hw0mem with h1 | h1
      · simp [h1]
      · simp [h1]
  have hret := job_finished_returns_last_waiting cores scheme_t.FCFS hnp s hinv c hcore.2
    job_number time A B fj hq hA hfj hni
  have hpair : s.queue.qArr.Pairwise (fun a b => b.arrivalTime < a.arrivalTime) := by
    have h1 : ((arrivalTimes evs).reverse).Pairwise (fun a b => b < a) :=
      List.pairwise_reverse.mpr hinc
    rw [← horder] at h1
    exact List.pairwise_map.mp h1
  have hsub : List.Sublist ((A ++ B).filter (fun j => isWaiting j)) s.queue.qArr := by
    rw [hq]
    exact (List.filter_sublist _).trans
      (List.Sublist.append (List.Sublist.refl A) (List.sublist_cons_self fj B))
  have hpw := hpair.sublist hsub
  have hw0in : w0 ∈ (A ++ B).filter (fun j => isWaiting j) := by
    simp only [List.mem_filter, List.mem_append, decide_eq_true_eq]
    exact ⟨hw0mem, hw0⟩
  cases hlast : ((A ++ B).filter (fun j => isWaiting j)).getLast? with
  | none =>
    rw [List.getLast?_eq_none_iff] at hlast
    rw [hlast] at hw0in
    simp at hw0in
  | some w =>
    have hwin : w ∈ (A ++ B).filter (fun j => isWaiting j) :=
      List.mem_of_getLast?_eq_some hlast
    simp only [List.mem_filter, List.mem_append, decide_eq_true_eq] at hwin
    refine ⟨w, hwin.1, hwin.2, ?_, ?_⟩
    · intro v hv hvw
      have hvin : v ∈ (A ++ B).filter (fun j => isWaiting j) := by
        simp only [List.mem_filter, List.mem_append, decide_eq_true_eq]
        exact ⟨hv, hvw⟩
      rcases pairwise_getLast? _ _ w hpw hlast v hvin with h | h
      · rw [h]
      · exact le_of_lt h
    · rw [hret, hlast]

/-! ## Claims about the queue -/

/-- C1: the insertion evaluated on a queue that has been emptied.  After `priqueue_init`
with "lower value wins" and `priqueue_offer(5)`, the call `priqueue_poll` returns 5 and
leaves a queue of size 0 whose block has been freed (line 115) with the pointer kept in
`q->qArr`; so does `priqueue_remove(5)` (line 168).  The next `priqueue_offer(8)` writes
the handle into the freed block (line 41), and the following `priqueue_offer(3)` reads
that block and frees it a second time (line 79): the behaviour of both calls is
undefined, where the claim gives the indices 0 and 0 and the sequence `[3, 8]`. -/
theorem C1_offer_after_emptying_accesses_freed_block :
    (priqueue_poll (priqueue_offer (priqueue_init lowerWins) 5).2).1 = some 5 ∧
    (priqueue_poll (priqueue_offer (priqueue_init lowerWins) 5).2).2.size = 0 ∧
    (priqueue_poll (priqueue_offer (priqueue_init lowerWins) 5).2).2.qArr = [] ∧
    (priqueue_poll (priqueue_offer (priqueue_init lowerWins) 5).2).2.block = Block.freed ∧
    (priqueue_offer
      (priqueue_poll (priqueue_offer (priqueue_init lowerWins) 5).2).2 8).2.block
        = Block.undefined ∧
    (priqueue_offer (priqueue_offer
      (priqueue_poll (priqueue_offer (priqueue_init lowerWins) 5).2).2 8).2 3).2.block
        = Block.undefined ∧
    (priqueue_remove (priqueue_offer (priqueue_init lowerWins) 5).2 5).1 = 1 ∧
    (priqueue_remove (priqueue_offer (priqueue_init lowerWins) 5).2 5).2.size = 0 ∧
    (priqueue_remove (priqueue_offer (priqueue_init lowerWins) 5).2 5).2.block
        = Block.freed ∧
    (priqueue_offer
      (priqueue_remove (priqueue_offer (priqueue_init lowerWins) 5).2 5).2 8).2.block
        = Block.undefined := by
  decide

/-- C2: sortedness invariant.  For a comparator that is consistent in sign
(`compare(a, b) < 0` implies `compare(b, a) >= 0`), after any sequence `hs` of
`priqueue_offer` calls starting from the empty queue of `priqueue_init`, every adjacent
pair `x` at index `i`, `y` at index `i + 1` satisfies `compare(y, x) >= 0`.  As `hs` is
arbitrary this holds after each offer of a run. -/
theorem C2_offer_keeps_adjacent_pairs_ordered {α : Type} (cmp : α → α → Int)
    (hsign : ∀ a b, cmp a b < 0 → 0 ≤ cmp b a) (hs : List α) (i : Nat) (x y : α)
    (hx : priqueue_at (offerAll (priqueue_init cmp) hs) (i : Int) = some x)
    (hy : priqueue_at (offerAll (priqueue_init cmp) hs) ((i : Int) + 1) = some y) :
    0 ≤ cmp y x := by
  have hwf0 : WellFormed (priqueue_init cmp) := by simp [WellFormed, priqueue_init]
  have hwf := offerAll_wellFormed hs _ hwf0
  have hchain : List.Chain' (fun x y => 0 ≤ cmp y x) (offerAll (priqueue_init cmp) hs).qArr := by
    rw [offerAll_qArr hs _ hwf0]
    exact chain_foldl_orderedInsert cmp hsign hs [] (by simp [priqueue_init])
  rw [priqueue_at_eq _ hwf] at hx
  have hy2 : priqueue_at (offerAll (priqueue_init cmp) hs) ((i + 1 : Nat) : Int) = some y := by
    simpa using hy
  rw [priqueue_at_eq _ hwf] at hy2
  obtain ⟨h1, rfl⟩ := List.getElem?_eq_some.mp hx
  obtain ⟨h2, rfl⟩ := List.getElem?_eq_some.mp hy2
  exact List.chain'_iff_get.mp hchain i (by omega)

/-- C2, at a concrete run: after offering 5, 3, 8, 1 under "lower value wins" the pair at
indices 1 and 2 is (3, 5), and 5 is not reported as preceding 3. -/
theorem C2_offer_keeps_adjacent_pairs_ordered_witness :
    priqueue_at (offerAll (priqueue_init lowerWins) [5, 3, 8, 1]) 1 = some 3 ∧
    priqueue_at (offerAll (priqueue_init lowerWins) [5, 3, 8, 1]) 2 = some 5 ∧
    0 ≤ lowerWins 5 3 := by
  have hsign : ∀ a b : Int, lowerWins a b < 0 → 0 ≤ lowerWins b a := by
    intro a b
    unfold lowerWins
    split_ifs <;> omega
  exact ⟨by decide, by decide,
    C2_offer_keeps_adjacent_pairs_ordered lowerWins hsign [5, 3, 8, 1] 1 3 5
      (by decide) (by decide)⟩

/-- C3: handles referring to integers (`val` gives the integer a handle refers to), offered
one by one into the empty queue whose comparator is "lower value wins"
(`compare(a, b) < 0` iff `val a < val b`), leave the queue equal to the ascending stable
sort of the offered list: it is the insertion sort of the list, hence sorted by value and a
permutation of the list, and for every value the handles of that value are in the order
in which they were offered. -/
theorem C3_offers_give_stable_sort {α : Type} (val : α → Int) (cmp : α → α → Int)
    (hcmp : ∀ a b, cmp a b < 0 ↔ val a < val b) (L : List α) :
    (offerAll (priqueue_init cmp) L).qArr = L.insertionSort (fun a b => val a ≤ val b) ∧
    List.Sorted (fun a b => val a ≤ val b) (offerAll (priqueue_init cmp) L).qArr ∧
    List.Perm (offerAll (priqueue_init cmp) L).qArr L ∧
    (∀ v : Int, (offerAll (priqueue_init cmp) L).qArr.filter (fun a => val a = v)
      = L.filter (fun a => val a = v)) ∧
    priqueue_size (offerAll (priqueue_init cmp) L) = (L.length : Int) := by
  have hwf0 : WellFormed (priqueue_init cmp) := by simp [WellFormed, priqueue_init]
  have hq : (offerAll (priqueue_init cmp) L).qArr
      = L.insertionSort (fun a b => val a ≤ val b) := by
    rw [offerAll_qArr L _ hwf0]
    exact foldl_orderedInsert_eq_insertionSort val cmp hcmp L
  haveI : IsTotal α (fun a b => val a ≤ val b) := ⟨fun a b => le_total (val a) (val b)⟩
  haveI : IsTrans α (fun a b => val a ≤ val b) := ⟨fun a b c h1 h2 => le_trans h1 h2⟩
  have hwf := offerAll_wellFormed L _ hwf0
  unfold WellFormed at hwf
  refine ⟨hq, ?_, ?_, ?_, ?_⟩
  · rw [hq]; exact List.sorted_insertionSort _ L
  · rw [hq]; exact List.perm_insertionSort _ L
  · intro v; rw [hq]; exact filter_insertionSort val v L
  · rw [priqueue_size, hwf, hq, List.length_insertionSort]

/-- C3, at the list of the insertion example: offering 5, 3, 8, 1 yields `[1, 3, 5, 8]`,
and the four calls return 0, 0, 2, 0. -/
theorem C3_offers_give_stable_sort_witness :
    (offerAll (priqueue_init lowerWins) [5, 3, 8, 1]).qArr = [1, 3, 5, 8] ∧
    offerAllIndices (priqueue_init lowerWins) [5, 3, 8, 1] = [0, 0, 2, 0] := by
  have hcmp : ∀ a b : Int, lowerWins a b < 0 ↔ id a < id b := by
    intro a b
    unfold lowerWins
    split_ifs with h <;> simp [h]
  refine ⟨?_, by decide⟩
  rw [(C3_offers_give_stable_sort id lowerWins hcmp [5, 3, 8, 1]).1]
  decide

/-- C4: for a well-formed queue `q` and a handle `v`, `priqueue_remove(q, v)` returns the
number of positions of `q` holding a handle identical to `v` (equality of handles, the
comparator plays no part), the new sequence is `q` with exactly those positions deleted
and the survivors in their original order, the size decreases by the returned count (and
is the new length), and the comparator is kept. -/
theorem C4_remove_deletes_identical_handles {α : Type} [DecidableEq α] (q : priqueue_t α)
    (v : α) (hwf : WellFormed q) :
    (priqueue_remove q v).1 = ((q.qArr.count v : Nat) : Int) ∧
    (priqueue_remove q v).2.qArr = q.qArr.filter (fun e => e ≠ v) ∧
    (priqueue_remove q v).2.size = q.size - (priqueue_remove q v).1 ∧
    priqueue_size (priqueue_remove q v).2 = ((priqueue_remove q v).2.qArr.length : Int) ∧
    (priqueue_remove q v).2.compare = q.compare := by
  rw [priqueue_remove_eq q v hwf]
  refine ⟨rfl, rfl, rfl, ?_, rfl⟩
  unfold WellFormed at hwf
  have hlen := length_filter_ne_add_count v q.qArr
  simp only [priqueue_size]
  omega

/-- C4, at the queue of the removal example: removing `a` from `[a, b, a, c]` (any
comparator, here the constant 0) returns 2 and leaves `[b, c]`. -/
theorem C4_remove_deletes_identical_handles_witness :
    (priqueue_remove ⟨fun _ _ => 0, 4, ['a', 'b', 'a', 'c'], Block.live⟩ 'a').1 = 2 ∧
    (priqueue_remove ⟨fun _ _ => 0, 4, ['a', 'b', 'a', 'c'], Block.live⟩ 'a').2.qArr = ['b', 'c'] ∧
    (priqueue_remove ⟨fun _ _ => 0, 4, ['a', 'b', 'a', 'c'], Block.live⟩ 'a').2.size = 2 := by
  have key := C4_remove_deletes_identical_handles
    (⟨fun _ _ => 0, 4, ['a', 'b', 'a', 'c'], Block.live⟩ : priqueue_t Char) 'a' (by decide)
  refine ⟨?_, ?_, ?_⟩
  · rw [key.1]; decide
  · rw [key.2.1]; decide
  · rw [key.2.2.1, key.1]; decide

/-- C5: for a well-formed queue `q` and an integer `index`: when `0 <= index < size`,
`priqueue_remove_at(q, index)` returns `q[index]` and leaves `q[0..index) ++
q[index+1..size)` with the size decreased by one (the new length) and the comparator
kept, and `priqueue_at(q, index)` returns `q[index]`; when `index` is negative or
`>= size`, both return `NULL` and `priqueue_remove_at` leaves the queue as it was.
`priqueue_at` is a function of the queue that yields no new queue. -/
theorem C5_remove_at_and_at_respect_bounds {α : Type} (q : priqueue_t α) (index : Int)
    (hwf : WellFormed q) :
    ((0 ≤ index ∧ index < q.size) →
      ∃ e, q.qArr[index.toNat]? = some e ∧
        (priqueue_remove_at q index).1 = some e ∧
        (priqueue_remove_at q index).2.qArr
          = q.qArr.take index.toNat ++ q.qArr.drop (index.toNat + 1) ∧
        (priqueue_remove_at q index).2.size = q.size - 1 ∧
        priqueue_size (priqueue_remove_at q index).2
          = ((priqueue_remove_at q index).2.qArr.length : Int) ∧
        (priqueue_remove_at q index).2.compare = q.compare ∧
        priqueue_at q index = some e) ∧
    ((index < 0 ∨ q.size ≤ index) →
      priqueue_remove_at q index = (none, q) ∧ priqueue_at q index = none) := by
  have hwf0 := hwf
  unfold WellFormed at hwf
  constructor
  · rintro ⟨h0, h1⟩
    obtain ⟨idx, rfl⟩ := Int.eq_ofNat_of_zero_le h0
    have hidx : idx < q.qArr.length := by omega
    refine ⟨q.qArr[idx], ?_, ?_⟩
    · simp
    · rw [priqueue_remove_at_eq q idx hwf0 hidx, priqueue_at_eq q hwf0 idx]
      refine ⟨List.getElem?_eq_getElem hidx, rfl, rfl, ?_, rfl, List.getElem?_eq_getElem hidx⟩
      simp only [Int.toNat_ofNat, priqueue_size]
      rw [List.length_append, List.length_take, List.length_drop]
      omega
  · intro h
    have hr : index ≥ q.size ∨ index < 0 := by omega
    simp [priqueue_remove_at, priqueue_at, hr]

/-- C5, at a concrete queue `[a, b, c, d]`: index 1 removes and returns `b`, and the
indices -1 and 4 return `NULL` and change nothing. -/
theorem C5_remove_at_and_at_respect_bounds_witness :
    (priqueue_remove_at ⟨fun _ _ => 0, 4, ['a', 'b', 'c', 'd'], Block.live⟩ 1).1 = some 'b' ∧
    (priqueue_remove_at ⟨fun _ _ => 0, 4, ['a', 'b', 'c', 'd'], Block.live⟩ 1).2.qArr = ['a', 'c', 'd'] ∧
    (priqueue_remove_at ⟨fun _ _ => 0, 4, ['a', 'b', 'c', 'd'], Block.live⟩ (-1)).1 = none ∧
    (priqueue_remove_at ⟨fun _ _ => 0, 4, ['a', 'b', 'c', 'd'], Block.live⟩ 4).2.qArr
      = ['a', 'b', 'c', 'd'] ∧
    priqueue_at ⟨fun _ _ => 0, 4, ['a', 'b', 'c', 'd'], Block.live⟩ 4 = none := by
  have k1 := (C5_remove_at_and_at_respect_bounds
    (⟨fun _ _ => 0, 4, ['a', 'b', 'c', 'd'], Block.live⟩ : priqueue_t Char) 1 (by decide)).1
    (by decide)
  have k2 := (C5_remove_at_and_at_respect_bounds
    (⟨fun _ _ => 0, 4, ['a', 'b', 'c', 'd'], Block.live⟩ : priqueue_t Char) (-1) (by decide)).2
    (by decide)
  have k3 := (C5_remove_at_and_at_respect_bounds
    (⟨fun _ _ => 0, 4, ['a', 'b', 'c', 'd'], Block.live⟩ : priqueue_t Char) 4 (by decide)).2
    (by decide)
  obtain ⟨e, he, hret, harr, _⟩ := k1
  have hb : e = 'b' := by
    have : (['a', 'b', 'c', 'd'] : List Char)[1]? = some e := he
    simp at this
    exact this.symm
  subst hb
  refine ⟨hret, ?_, ?_, ?_, k3.2⟩
  · rw [harr]; rfl
  · rw [k2.1]
  · rw [k3.1]

/-- C6: for a well-formed queue `q`: when `q` is empty, `priqueue_poll` and
`priqueue_peek` return `NULL` and poll leaves `q` as it was (empty); otherwise both return
`q[0]`, and after poll the sequence is `q[1..size)`, so the element formerly at index
`i + 1` is at index `i`, and the size has decreased by one (the new length), the
comparator being kept.  `priqueue_peek` is a function of the queue that yields no new
queue. -/
theorem C6_poll_and_peek_take_the_head {α : Type} (q : priqueue_t α) (hwf : WellFormed q) :
    (q.size = 0 →
      priqueue_peek q = none ∧ priqueue_poll q = (none, q) ∧ q.qArr = []) ∧
    (q.size ≠ 0 →
      ∃ e, priqueue_at q 0 = some e ∧
        priqueue_peek q = some e ∧
        (priqueue_poll q).1 = some e ∧
        (priqueue_poll q).2.qArr = q.qArr.drop 1 ∧
        (priqueue_poll q).2.size = q.size - 1 ∧
        priqueue_size (priqueue_poll q).2 = ((priqueue_poll q).2.qArr.length : Int) ∧
        (priqueue_poll q).2.compare = q.compare ∧
        (∀ i : Nat, priqueue_at (priqueue_poll q).2 (i : Int)
          = priqueue_at q ((i : Int) + 1))) := by
  have hwf0 := hwf
  unfold WellFormed at hwf
  constructor
  · intro h0
    refine ⟨by simp [priqueue_peek, h0], by simp [priqueue_poll, h0], ?_⟩
    apply List.eq_nil_of_length_eq_zero; omega
  · intro h0
    have hne : q.qArr ≠ [] := by
      intro h; rw [h] at hwf; simp at hwf; exact h0 hwf
    obtain ⟨x, l, hxl⟩ := List.exists_cons_of_ne_nil hne
    have hwf1 : WellFormed (priqueue_poll q).2 := by
      rw [priqueue_poll_eq q hwf0 hne]
      unfold WellFormed
      simp only [List.length_tail]
      have : 0 < q.qArr.length := List.length_pos.mpr hne
      omega
    have hat : ∀ i : Nat, priqueue_at (priqueue_poll q).2 (i : Int)
        = priqueue_at q ((i : Int) + 1) := by
      intro i
      have e1 : ((i : Int) + 1) = ((i + 1 : Nat) : Int) := by simp
      rw [priqueue_at_eq _ hwf1, e1, priqueue_at_eq _ hwf0, priqueue_poll_eq q hwf0 hne]
      simp only [hxl, List.tail_cons, List.getElem?_cons_succ]
    have hwf2 := hwf1
    unfold WellFormed at hwf2
    refine ⟨x, ?_, ?_, ?_, ?_, ?_, hwf2, ?_, hat⟩
    · have := priqueue_at_eq q hwf0 0
      simp only [Nat.cast_zero] at this
      rw [this, hxl]; simp
    · simp [priqueue_peek, h0, hxl]
    · rw [priqueue_poll_eq q hwf0 hne, hxl]; rfl
    · rw [priqueue_poll_eq q hwf0 hne, hxl]; rfl
    · rw [priqueue_poll_eq q hwf0 hne]
    · rw [priqueue_poll_eq q hwf0 hne]

/-- C6, at the queue `[a, b, c]` and at the empty queue. -/
theorem C6_poll_and_peek_take_the_head_witness :
    priqueue_peek ⟨fun _ _ => 0, 3, ['a', 'b', 'c'], Block.live⟩ = some 'a' ∧
    (priqueue_poll ⟨fun _ _ => 0, 3, ['a', 'b', 'c'], Block.live⟩).1 = some 'a' ∧
    (priqueue_poll ⟨fun _ _ => 0, 3, ['a', 'b', 'c'], Block.live⟩).2.qArr = ['b', 'c'] ∧
    (priqueue_poll (priqueue_init (fun (_ _ : Char) => 0))).1 = none := by
  have k1 := (C6_poll_and_peek_take_the_head
    (⟨fun _ _ => 0, 3, ['a', 'b', 'c'], Block.live⟩ : priqueue_t Char) (by decide)).2 (by decide)
  have k2 := (C6_poll_and_peek_take_the_head
    (priqueue_init (fun (_ _ : Char) => 0)) (by decide)).1 rfl
  obtain ⟨e, he, hpeek, hpoll, harr, _⟩ := k1
  have ha : e = 'a' := by
    have : priqueue_at (⟨fun _ _ => 0, 3, ['a', 'b', 'c'], Block.live⟩ : priqueue_t Char) 0 = some 'a' := by
      decide
    rw [this] at he
    exact (Option.some.inj he).symm
  subst ha
  refine ⟨hpeek, hpoll, ?_, ?_⟩
  · rw [harr]; rfl
  · rw [k2.2.1]

/-! ## Claims about the scheduler -/

/-- C7: under a non-preemptive policy (FCFS, SJF, PRI, RR), in every engine state reached
from `scheduler_start_up` by a sequence of events whose completion events name valid core
indices, `scheduler_new_job` returns the lowest index of an idle core when some core is
idle, and returns -1, leaving every core's occupant as it was, when no core is idle. -/
theorem C7_new_job_returns_lowest_idle_core (cores : Int) (scheme : scheme_t)
    (evs : List Event) (hnp : nonPreemptive scheme) (_hvalid : validCores cores evs)
    (job_number time running_time priority : Int) :
    (∀ c : Nat, (c : Int) < cores →
      readCore (run (scheduler_start_up cores scheme) evs).coreArr (c : Int) = -1 →
      (∀ i : Nat, i < c →
        readCore (run (scheduler_start_up cores scheme) evs).coreArr (i : Int) ≠ -1) →
      (scheduler_new_job (run (scheduler_start_up cores scheme) evs)
        job_number time running_time priority).1 = (c : Int)) ∧
    ((∀ i : Nat, (i : Int) < cores →
        readCore (run (scheduler_start_up cores scheme) evs).coreArr (i : Int) ≠ -1) →
      (scheduler_new_job (run (scheduler_start_up cores scheme) evs)
        job_number time running_time priority).1 = -1 ∧
      (scheduler_new_job (run (scheduler_start_up cores scheme) evs)
        job_number time running_time priority).2.coreArr
        = (run (scheduler_start_up cores scheme) evs).coreArr) := by
  have hinv := Inv_run cores scheme hnp evs _ (Inv_start cores scheme)
  generalize run (scheduler_start_up cores scheme) evs = s at hinv ⊢
  obtain ⟨hw, h1, h2, h3, hor⟩ := hinv
  obtain ⟨k, hk, _, _, heq⟩ :=
    priqueue_offer_cases s.queue (newJobRecord job_number time running_time priority) hw.1
  have hfst : (priqueue_offer s.queue
      (newJobRecord job_number time running_time priority)).1 = (k : Int) := by rw [heq]
  have hsnd : (priqueue_offer s.queue
      (newJobRecord job_number time running_time priority)).2
      = ⟨s.queue.compare, s.queue.size + 1,
          s.queue.qArr.take k ++ newJobRecord job_number time running_time priority
            :: s.queue.qArr.drop k, s.queue.block.access⟩ := by rw [heq]
  have hlenk : (s.queue.qArr.take k).length = k := by rw [List.length_take]; omega
  have hw1 : WFS { s with queue := (priqueue_offer s.queue
      (newJobRecord job_number time running_time priority)).2 } :=
    ⟨priqueue_offer_wellFormed s.queue _ hw.1, hw.2⟩
  have hre : reschedule { s with queue := (priqueue_offer s.queue
      (newJobRecord job_number time running_time priority)).2 } time
      = fillIdleCores { s with queue := (priqueue_offer s.queue
          (newJobRecord job_number time running_time priority)).2 } :=
    reschedule_nonPreemptive _ time (by rw [show _ = s.activeScheme from rfl, h1]; exact hnp)
  have hwl := hw.2
  constructor
  · intro c hc hidle hlow
    have hclt : c < s.coreCount.toNat := by omega
    have hnw : noWaiting s := by
      rcases hor with h | h
      · exact absurd hidle (h c (by rw [hwl]; exact hclt))
      · exact h
    have hfill : fillIdleCores { s with queue := (priqueue_offer s.queue
          (newJobRecord job_number time running_time priority)).2 }
        = { s with
            coreArr := writeCore s.coreArr (c : Int) job_number
            queue := ⟨s.queue.compare, s.queue.size + 1,
              s.queue.qArr.take k ++
                { newJobRecord job_number time running_time priority with
                  coreAssigned := (c : Int) } :: s.queue.qArr.drop k,
              s.queue.block.access⟩ } := by
      have hsz : priqueue_size (priqueue_offer s.queue
          (newJobRecord job_number time running_time priority)).2 > 0 := by
        have := hw.1
        unfold WellFormed at this
        rw [hsnd, priqueue_size]
        simp only
        omega
      have hfuel : (priqueue_size (priqueue_offer s.queue
          (newJobRecord job_number time running_time priority)).2).toNat + 1
          = s.queue.qArr.length + 2 := by
        have := hw.1
        unfold WellFormed at this
        rw [hsnd, priqueue_size]
        simp only
        omega
      unfold fillIdleCores
      simp only [hsz, if_true, hfuel]
      rw [findIdleCore_some s.coreArr (-1) s.coreCount.toNat c hclt hidle hlow]
      have hone := fillLoop_one
        { s with queue := (priqueue_offer s.queue
          (newJobRecord job_number time running_time priority)).2 } (c : Int)
        s.queue.qArr.length hw1.1 (by omega) (s.queue.qArr.take k) (s.queue.qArr.drop k)
        (newJobRecord job_number time running_time priority) (by rw [hsnd])
        (fun a ha => hnw a (List.mem_of_mem_take ha))
        (fun a ha => hnw a (List.mem_of_mem_drop ha))
        ⟨rfl, rfl⟩
      rw [hone]
      simp only [hsnd]
      rfl
    have hw2 : WFS { s with
        coreArr := writeCore s.coreArr (c : Int) job_number
        queue := ⟨s.queue.compare, s.queue.size + 1,
          s.queue.qArr.take k ++
            { newJobRecord job_number time running_time priority with
              coreAssigned := (c : Int) } :: s.queue.qArr.drop k,
          s.queue.block.access⟩ } := by
      rw [← hfill]
      exact sameFrame_wfs (fillIdleCores_spec _ hw1).1 hw1
    exact (scheduler_new_job_of_reschedule s _ job_number time running_time priority hw2 k
      _ _ _ hfst (hre.trans hfill) rfl hlenk).1
  · intro hall
    have hni : noIdle s := by
      intro i hi
      exact hall i (by omega)
    have hfill := fillIdleCores_noIdle _ hw1 (show noIdle { s with queue := (priqueue_offer
      s.queue (newJobRecord job_number time running_time priority)).2 } from hni)
    have hres := scheduler_new_job_of_reschedule s _ job_number time running_time priority
      hw1 k (s.queue.qArr.take k) (s.queue.qArr.drop k)
      (newJobRecord job_number time running_time priority) hfst (hre.trans hfill)
      (by rw [hsnd]) hlenk
    refine ⟨hres.1, ?_⟩
    rw [hres.2, (updateTimes_frame _ time hw1).1]

/-- C7, at the single-core FCFS scenario: jobs 0, 1, 2 arrive at times 0, 1, 2 with
durations 5, 1, 1; the three calls return 0, -1, -1, the last of them by the general
statement. -/
theorem C7_new_job_returns_lowest_idle_core_witness :
    runReturns (scheduler_start_up 1 scheme_t.FCFS)
      [Event.arrival 0 0 5 0, Event.arrival 1 1 1 0, Event.arrival 2 2 1 0] = [0, -1, -1] ∧
    (scheduler_new_job (run (scheduler_start_up 1 scheme_t.FCFS)
      [Event.arrival 0 0 5 0, Event.arrival 1 1 1 0]) 2 2 1 0).1 = -1 ∧
    (scheduler_new_job (run (scheduler_start_up 1 scheme_t.FCFS) []) 0 0 5 0).1 = 0 := by
  refine ⟨by decide, ?_, ?_⟩
  · refine ((C7_new_job_returns_lowest_idle_core 1 scheme_t.FCFS
      [Event.arrival 0 0 5 0, Event.arrival 1 1 1 0] (by decide) (by decide) 2 2 1 0).2 ?_).1
    intro i hi
    have : i = 0 := by omega
    subst this
    decide
  · exact (C7_new_job_returns_lowest_idle_core 1 scheme_t.FCFS [] (by decide) (by decide)
      0 0 5 0).1 0 (by decide) (by decide) (by intro i hi; omega)

/-- C8: the PSJF preemption scenario evaluated on the code.  After
`scheduler_start_up(1, PSJF)`, job A (id 1) arrives at time 0 with duration 10 and job B
(id 2) at time 1 with duration 2, then B is reported finished on core 0 at time 3.  The
three calls return -1, -1, -1: B gets no core (the claim says core 0), and the completion
returns -1 (the claim says A's id).  After B's arrival no job holds a core, core 0 is
idle and A's `timeRun` is 0 (the claim says 1). -/
theorem C8_psjf_scenario_dispatches_nothing :
    runReturns (scheduler_start_up 1 scheme_t.PSJF)
      [Event.arrival 1 0 10 0, Event.arrival 2 1 2 0, Event.completion 0 2 3]
      = [-1, -1, -1] ∧
    (run (scheduler_start_up 1 scheme_t.PSJF)
      [Event.arrival 1 0 10 0, Event.arrival 2 1 2 0]).coreArr = [-1] ∧
    (∀ job ∈ (run (scheduler_start_up 1 scheme_t.PSJF)
        [Event.arrival 1 0 10 0, Event.arrival 2 1 2 0]).queue.qArr,
      job.coreAssigned = -1 ∧ job.timeRun = 0) := by
  decide

/-- C9: the FCFS completion evaluated on the code.  One core under FCFS; jobs 0, 1, 2
arrive at times 0, 1, 2 with durations 5, 2, 1, job 0 is reported finished on core 0 at
time 5, job 3 arrives at time 6, job 1 is reported finished at time 7 and job 3 at time 8.
Arrival times increase strictly, event times do not decrease, and every completion names
the valid core 0 and the job that occupies it (0, then 1, then 3).  The calls return
0, -1, -1, 1, -1, 3, -1.  At the completion of job 1, job 2 (arrival 2) and job 3
(arrival 6) are unfinished and neither occupies a core; the call returns 3, not the id 2
of the earliest arrival.  Job 2 carries `coreAssigned = 0` since the completion of job 0,
when `fillIdleCores` wrote core 0 to job 2 and then to job 1; it never becomes the
occupant of a core: after the last completion the core is idle and job 2 is unfinished. -/
theorem C9_fcfs_completion_passes_over_earliest_arrival :
    validCores 1 [Event.arrival 0 0 5 0, Event.arrival 1 1 2 0, Event.arrival 2 2 1 0,
      Event.completion 0 0 5, Event.arrival 3 6 1 0, Event.completion 0 1 7,
      Event.completion 0 3 8] ∧
    (arrivalTimes [Event.arrival 0 0 5 0, Event.arrival 1 1 2 0, Event.arrival 2 2 1 0,
      Event.completion 0 0 5, Event.arrival 3 6 1 0, Event.completion 0 1 7,
      Event.completion 0 3 8]).Pairwise (fun a b => a < b) ∧
    runReturns (scheduler_start_up 1 scheme_t.FCFS)
      [Event.arrival 0 0 5 0, Event.arrival 1 1 2 0, Event.arrival 2 2 1 0,
        Event.completion 0 0 5, Event.arrival 3 6 1 0, Event.completion 0 1 7,
        Event.completion 0 3 8] = [0, -1, -1, 1, -1, 3, -1] ∧
    (run (scheduler_start_up 1 scheme_t.FCFS)
      [Event.arrival 0 0 5 0, Event.arrival 1 1 2 0, Event.arrival 2 2 1 0]).coreArr = [0] ∧
    (run (scheduler_start_up 1 scheme_t.FCFS)
      [Event.arrival 0 0 5 0, Event.arrival 1 1 2 0, Event.arrival 2 2 1 0,
        Event.completion 0 0 5, Event.arrival 3 6 1 0]).coreArr = [1] ∧
    (run (scheduler_start_up 1 scheme_t.FCFS)
      [Event.arrival 0 0 5 0, Event.arrival 1 1 2 0, Event.arrival 2 2 1 0,
        Event.completion 0 0 5, Event.arrival 3 6 1 0]).queue.qArr.map
        (fun j => (j.id, j.arrivalTime, j.finished, j.coreAssigned))
      = [(3, 6, 0, -1), (2, 2, 0, 0), (1, 1, 0, 0), (0, 0, 1, -1)] ∧
    (scheduler_job_finished (run (scheduler_start_up 1 scheme_t.FCFS)
      [Event.arrival 0 0 5 0, Event.arrival 1 1 2 0, Event.arrival 2 2 1 0,
        Event.completion 0 0 5, Event.arrival 3 6 1 0]) 0 1 7).1 = 3 ∧
    (run (scheduler_start_up 1 scheme_t.FCFS)
      [Event.arrival 0 0 5 0, Event.arrival 1 1 2 0, Event.arrival 2 2 1 0,
        Event.completion 0 0 5, Event.arrival 3 6 1 0, Event.completion 0 1 7]).coreArr
      = [3] ∧
    (run (scheduler_start_up 1 scheme_t.FCFS)
      [Event.arrival 0 0 5 0, Event.arrival 1 1 2 0, Event.arrival 2 2 1 0,
        Event.completion 0 0 5, Event.arrival 3 6 1 0, Event.completion 0 1 7,
        Event.completion 0 3 8]).coreArr = [-1] ∧
    (run (scheduler_start_up 1 scheme_t.FCFS)
      [Event.arrival 0 0 5 0, Event.arrival 1 1 2 0, Event.arrival 2 2 1 0,
        Event.completion 0 0 5, Event.arrival 3 6 1 0, Event.completion 0 1 7,
        Event.completion 0 3 8]).queue.qArr.map
        (fun j => (j.id, j.arrivalTime, j.finished, j.coreAssigned))
      = [(3, 6, 1, -1), (2, 2, 0, 0), (1, 1, 1, -1), (0, 0, 1, -1)] := by
  decide

/-- C10: the static-priority policy evaluated on the code.  With one core under PRI, job
0 (priority 0) arrives at time 0 and runs, job 1 (priority 1) arrives at time 1 and job 2
(priority 2) at time 2; both wait.  When job 0 is reported finished at time 5 the call
returns 2, the waiting job with the highest priority number (the claim says 1, the one
with the lowest), and both waiting jobs end up with `coreAssigned = 0`. -/
theorem C10_pri_completion_returns_highest_number :
    runReturns (scheduler_start_up 1 scheme_t.PRI)
      [Event.arrival 0 0 5 0, Event.arrival 1 1 1 1, Event.arrival 2 2 1 2,
        Event.completion 0 0 5] = [0, -1, -1, 2] ∧
    (run (scheduler_start_up 1 scheme_t.PRI)
      [Event.arrival 0 0 5 0, Event.arrival 1 1 1 1, Event.arrival 2 2 1 2]).queue.qArr.map
        (fun j => (j.id, j.priority, j.finished, j.coreAssigned))
      = [(0, 0, 0, 0), (1, 1, 0, -1), (2, 2, 0, -1)] ∧
    (run (scheduler_start_up 1 scheme_t.PRI)
      [Event.arrival 0 0 5 0, Event.arrival 1 1 1 1, Event.arrival 2 2 1 2,
        Event.completion 0 0 5]).queue.qArr.map
        (fun j => (j.id, j.priority, j.finished, j.coreAssigned))
      = [(0, 0, 1, -1), (1, 1, 0, 0), (2, 2, 0, 0)] := by
  decide

/-- C11: the tie-break of the keyed comparators evaluated on the code.  For two jobs with
the same priority, duration and remaining time, `a` arriving at time 0 and `b` at time 1,
`comparePRI`, `comparePPRI`, `compareSJF` and `comparePSJF` all return 1 for `(a, b)` and
-1 for `(b, a)` (the claim says negative and non-negative), and `priqueue_offer` with any
of them puts the later arrival `b` ahead of the earlier arrival `a`. -/
theorem C11_tie_break_has_opposite_sign :
    comparePRI (mkJob 0 0 3 0 1) (mkJob 1 1 3 0 1) = 1 ∧
    comparePRI (mkJob 1 1 3 0 1) (mkJob 0 0 3 0 1) = -1 ∧
    comparePPRI (mkJob 0 0 3 0 1) (mkJob 1 1 3 0 1) = 1 ∧
    comparePPRI (mkJob 1 1 3 0 1) (mkJob 0 0 3 0 1) = -1 ∧
    compareSJF (mkJob 0 0 3 0 1) (mkJob 1 1 3 0 1) = 1 ∧
    compareSJF (mkJob 1 1 3 0 1) (mkJob 0 0 3 0 1) = -1 ∧
    comparePSJF (mkJob 0 0 3 0 1) (mkJob 1 1 3 0 1) = 1 ∧
    comparePSJF (mkJob 1 1 3 0 1) (mkJob 0 0 3 0 1) = -1 ∧
    (offerAll (priqueue_init comparePRI) [mkJob 0 0 3 0 1, mkJob 1 1 3 0 1]).qArr
      = [mkJob 1 1 3 0 1, mkJob 0 0 3 0 1] ∧
    (offerAll (priqueue_init comparePPRI) [mkJob 0 0 3 0 1, mkJob 1 1 3 0 1]).qArr
      = [mkJob 1 1 3 0 1, mkJob 0 0 3 0 1] ∧
    (offerAll (priqueue_init compareSJF) [mkJob 0 0 3 0 1, mkJob 1 1 3 0 1]).qArr
      = [mkJob 1 1 3 0 1, mkJob 0 0 3 0 1] ∧
    (offerAll (priqueue_init comparePSJF) [mkJob 0 0 3 0 1, mkJob 1 1 3 0 1]).qArr
      = [mkJob 1 1 3 0 1, mkJob 0 0 3 0 1] := by
  decide

/-- C12: `comparePSJF` evaluated on the code.  With `a` of duration 10 and `b` of duration
2, neither having run, the remaining times are 10 and 2, yet the call takes the tie branch
and answers by arrival time (1 for `(a, b)`), because `bRemaining` is `a.duration -
b.timeRun`.  And with the remaining time of `a` held at 5, the result against the same `b`
is 1 when `a` has duration 10 and has run 5, and -1 when it has duration 5 and has not
run. -/
theorem C12_psjf_remaining_uses_first_duration :
    comparePSJF (mkJob 0 0 10 0 0) (mkJob 1 1 2 0 0) = 1 ∧
    (mkJob 0 0 10 0 0).duration - (mkJob 0 0 10 0 0).timeRun = 10 ∧
    (mkJob 1 1 2 0 0).duration - (mkJob 1 1 2 0 0).timeRun = 2 ∧
    (mkJob 0 0 10 5 0).duration - (mkJob 0 0 10 5 0).timeRun
      = (mkJob 0 0 5 0 0).duration - (mkJob 0 0 5 0 0).timeRun ∧
    comparePSJF (mkJob 0 0 10 5 0) (mkJob 1 1 100 3 0) = 1 ∧
    comparePSJF (mkJob 0 0 5 0 0) (mkJob 1 1 100 3 0) = -1 := by
  decide

/-- C13: for every engine state, every valid core index `c` and every job id that is the
id of no job in the queue, `scheduler_job_finished(c, id, t)` returns the occupant of core
`c` and leaves the whole state as it was: every job, the order of the queue and every
core. -/
theorem C13_unknown_job_is_a_no_op (s : SchedState) (c job_number time : Int)
    (_hcore : 0 ≤ c ∧ c < s.coreCount)
    (hunknown : ∀ job ∈ s.queue.qArr, job.id ≠ job_number) :
    scheduler_job_finished s c job_number time = (readCore s.coreArr c, s) := by
  unfold scheduler_job_finished
  rw [findJobById_unknown s.queue job_number hunknown]

/-- C13, at a state with job 0 on the only core: reporting the unknown job 9 finished on
core 0 returns 0 and changes nothing. -/
theorem C13_unknown_job_is_a_no_op_witness :
    scheduler_job_finished
        (run (scheduler_start_up 1 scheme_t.FCFS) [Event.arrival 0 0 5 0]) 0 9 3
      = (0, run (scheduler_start_up 1 scheme_t.FCFS) [Event.arrival 0 0 5 0]) := by
  have h := C13_unknown_job_is_a_no_op
    (run (scheduler_start_up 1 scheme_t.FCFS) [Event.arrival 0 0 5 0]) 0 9 3
    (by decide) (by decide)
  rw [h]
  have : readCore (run (scheduler_start_up 1 scheme_t.FCFS) [Event.arrival 0 0 5 0]).coreArr 0
      = 0 := by decide
  rw [this]

/-- C14: the statistics of the single-job run evaluated on the code.  Under FCFS, SJF, PRI
and RR, for every id, arrival time `a`, duration `d` and priority, the run "arrival at
`a`, completion on core 0 at `a + d`" on one core gives average waiting time 0, average
turnaround time `d` and average response time 0, as the claim says.  Under PSJF and PPRI
the run of the claim (arrival 0, duration 3, completion at 3) gives waiting time 0 and
turnaround time 3, but the average response time is -1 (the claim says 0): the job is
never dispatched and its `scheduleLatency` stays at the unset value. -/
theorem C14_single_job_statistics :
    (∀ id a d p : Int,
      scheduler_average_waiting_time (run (scheduler_start_up 1 scheme_t.FCFS)
        [Event.arrival id a d p, Event.completion 0 id (a + d)]) = 0 ∧
      scheduler_average_turnaround_time (run (scheduler_start_up 1 scheme_t.FCFS)
        [Event.arrival id a d p, Event.completion 0 id (a + d)]) = (d : ℚ) ∧
      scheduler_average_response_time (run (scheduler_start_up 1 scheme_t.FCFS)
        [Event.arrival id a d p, Event.completion 0 id (a + d)]) = 0) ∧
    (∀ id a d p : Int,
      scheduler_average_waiting_time (run (scheduler_start_up 1 scheme_t.SJF)
        [Event.arrival id a d p, Event.completion 0 id (a + d)]) = 0 ∧
      scheduler_average_turnaround_time (run (scheduler_start_up 1 scheme_t.SJF)
        [Event.arrival id a d p, Event.completion 0 id (a + d)]) = (d : ℚ) ∧
      scheduler_average_response_time (run (scheduler_start_up 1 scheme_t.SJF)
        [Event.arrival id a d p, Event.completion 0 id (a + d)]) = 0) ∧
    (∀ id a d p : Int,
      scheduler_average_waiting_time (run (scheduler_start_up 1 scheme_t.PRI)
        [Event.arrival id a d p, Event.completion 0 id (a + d)]) = 0 ∧
      scheduler_average_turnaround_time (run (scheduler_start_up 1 scheme_t.PRI)
        [Event.arrival id a d p, Event.completion 0 id (a + d)]) = (d : ℚ) ∧
      scheduler_average_response_time (run (scheduler_start_up 1 scheme_t.PRI)
        [Event.arrival id a d p, Event.completion 0 id (a + d)]) = 0) ∧
    (∀ id a d p : Int,
      scheduler_average_waiting_time (run (scheduler_start_up 1 scheme_t.RR)
        [Event.arrival id a d p, Event.completion 0 id (a + d)]) = 0 ∧
      scheduler_average_turnaround_time (run (scheduler_start_up 1 scheme_t.RR)
        [Event.arrival id a d p, Event.completion 0 id (a + d)]) = (d : ℚ) ∧
      scheduler_average_response_time (run (scheduler_start_up 1 scheme_t.RR)
        [Event.arrival id a d p, Event.completion 0 id (a + d)]) = 0) ∧
    (scheduler_average_waiting_time (run (scheduler_start_up 1 scheme_t.PSJF)
        [Event.arrival 7 0 3 0, Event.completion 0 7 3]) = 0 ∧
      scheduler_average_turnaround_time (run (scheduler_start_up 1 scheme_t.PSJF)
        [Event.arrival 7 0 3 0, Event.completion 0 7 3]) = 3 ∧
      scheduler_average_response_time (run (scheduler_start_up 1 scheme_t.PSJF)
        [Event.arrival 7 0 3 0, Event.completion 0 7 3]) = -1) ∧
    (scheduler_average_waiting_time (run (scheduler_start_up 1 scheme_t.PPRI)
        [Event.arrival 7 0 3 0, Event.completion 0 7 3]) = 0 ∧
      scheduler_average_turnaround_time (run (scheduler_start_up 1 scheme_t.PPRI)
        [Event.arrival 7 0 3 0, Event.completion 0 7 3]) = 3 ∧
      scheduler_average_response_time (run (scheduler_start_up 1 scheme_t.PPRI)
        [Event.arrival 7 0 3 0, Event.completion 0 7 3]) = -1) := by
  have hpsjf : run (scheduler_start_up 1 scheme_t.PSJF)
      [Event.arrival 7 0 3 0, Event.completion 0 7 3]
      = ⟨⟨comparePSJF, 1, [⟨7, 0, 3, -1, 3, -1, 3, 0, 1⟩], Block.live⟩, scheme_t.PSJF, 1, [-1]⟩ := by rfl
  have hppri : run (scheduler_start_up 1 scheme_t.PPRI)
      [Event.arrival 7 0 3 0, Event.completion 0 7 3]
      = ⟨⟨comparePPRI, 1, [⟨7, 0, 3, -1, 3, -1, 3, 0, 1⟩], Block.live⟩, scheme_t.PPRI, 1, [-1]⟩ := by rfl
  refine ⟨fun id a d p => single_job_run_statistics scheme_t.FCFS (by decide) id a d p,
    fun id a d p => single_job_run_statistics scheme_t.SJF (by decide) id a d p,
    fun id a d p => single_job_run_statistics scheme_t.PRI (by decide) id a d p,
    fun id a d p => single_job_run_statistics scheme_t.RR (by decide) id a d p, ?_, ?_⟩
  · rw [hpsjf]
    obtain ⟨h1, h2, h3⟩ := single_job_statistics comparePSJF scheme_t.PSJF 1 [-1]
      ⟨7, 0, 3, -1, 3, -1, 3, 0, 1⟩
    rw [h1, h2, h3]
    norm_num
  · rw [hppri]
    obtain ⟨h1, h2, h3⟩ := single_job_statistics comparePPRI scheme_t.PPRI 1 [-1]
      ⟨7, 0, 3, -1, 3, -1, 3, 0, 1⟩
    rw [h1, h2, h3]
    norm_num

/-- C15: the core/job consistency evaluated on the code.  With one core under FCFS, jobs
0, 1, 2 (unique ids) arrive at times 0, 1, 2; job 0 occupies core 0 and is reported
finished on core 0 at time 5.  In the state reached, core 0 is occupied by job 1, and job
2 is unfinished with `coreAssigned = 0` without being the occupant of core 0: two
unfinished jobs are assigned the same core. -/
theorem C15_two_jobs_share_a_core :
    (run (scheduler_start_up 1 scheme_t.FCFS)
      [Event.arrival 0 0 5 0, Event.arrival 1 1 1 0, Event.arrival 2 2 1 0]).coreArr = [0] ∧
    validCores 1 [Event.arrival 0 0 5 0, Event.arrival 1 1 1 0, Event.arrival 2 2 1 0,
      Event.completion 0 0 5] ∧
    (run (scheduler_start_up 1 scheme_t.FCFS)
      [Event.arrival 0 0 5 0, Event.arrival 1 1 1 0, Event.arrival 2 2 1 0,
        Event.completion 0 0 5]).coreArr = [1] ∧
    (run (scheduler_start_up 1 scheme_t.FCFS)
      [Event.arrival 0 0 5 0, Event.arrival 1 1 1 0, Event.arrival 2 2 1 0,
        Event.completion 0 0 5]).queue.qArr.map
        (fun j => (j.id, j.finished, j.coreAssigned))
      = [(2, 0, 0), (1, 0, 0), (0, 1, -1)] := by
  decide

/-- C16: the schedule latency evaluated on the code, one core under FCFS.  First run: job
0 arrives at 0, job 1 at 1; job 0 is reported finished at 5 and the call returns 1 (job 1
is dispatched at time 5); job 1 is reported finished at 6.  The finished job 1 has
`scheduleLatency = -1` (the claim says 5 - 1 = 4).  Second run: as before, but job 2
arrives at 6 before job 1 is reported finished at 8; the finished job 1 has
`scheduleLatency = 5`, the time of the next event minus its arrival time (the claim
says 4). -/
theorem C16_latency_of_a_job_dispatched_at_a_completion :
    runReturns (scheduler_start_up 1 scheme_t.FCFS)
      [Event.arrival 0 0 5 0, Event.arrival 1 1 1 0, Event.completion 0 0 5,
        Event.completion 0 1 6] = [0, -1, 1, -1] ∧
    (run (scheduler_start_up 1 scheme_t.FCFS)
      [Event.arrival 0 0 5 0, Event.arrival 1 1 1 0, Event.completion 0 0 5,
        Event.completion 0 1 6]).queue.qArr.map
        (fun j => (j.id, j.arrivalTime, j.finished, j.scheduleLatency))
      = [(1, 1, 1, -1), (0, 0, 1, 0)] ∧
    runReturns (scheduler_start_up 1 scheme_t.FCFS)
      [Event.arrival 0 0 5 0, Event.arrival 1 1 3 0, Event.completion 0 0 5,
        Event.arrival 2 6 1 0, Event.completion 0 1 8] = [0, -1, 1, -1, 2] ∧
    (run (scheduler_start_up 1 scheme_t.FCFS)
      [Event.arrival 0 0 5 0, Event.arrival 1 1 3 0, Event.completion 0 0 5,
        Event.arrival 2 6 1 0, Event.completion 0 1 8]).queue.qArr.map
        (fun j => (j.id, j.arrivalTime, j.finished, j.scheduleLatency))
      = [(2, 6, 0, -1), (1, 1, 1, 5), (0, 0, 1, 0)] := by
  decide

/-- C17: `fillIdleCores` evaluated on the state in which `scheduler_job_finished(0, 0, 5)`
calls it after the arrivals of jobs 0, 1, 2 on one core under FCFS: the queue is job 2,
job 1 (both unfinished and unassigned) and the finished job 0, and core 0 is idle, so
k = 1 and m = 2.  Afterwards both job 2 and job 1 have `coreAssigned = 0` (the claim says
exactly one of them, job 2, with job 1 left at -1), and the occupant of core 0 is job 1
(the claim says job 2). -/
theorem C17_fill_assigns_every_waiting_job :
    (scheduler_job_finished (run (scheduler_start_up 1 scheme_t.FCFS)
        [Event.arrival 0 0 5 0, Event.arrival 1 1 1 0, Event.arrival 2 2 1 0]) 0 0 5).2
      = fillIdleCores ⟨⟨compareFCFS, 3,
          [⟨2, 2, -1, -1, 1, -1, 0, 0, 0⟩, ⟨1, 1, -1, -1, 1, -1, 0, 0, 0⟩,
            ⟨0, 0, 5, -1, 5, 0, 5, 0, 1⟩], Block.live⟩, scheme_t.FCFS, 1, [-1]⟩ ∧
    (fillIdleCores ⟨⟨compareFCFS, 3,
        [⟨2, 2, -1, -1, 1, -1, 0, 0, 0⟩, ⟨1, 1, -1, -1, 1, -1, 0, 0, 0⟩,
          ⟨0, 0, 5, -1, 5, 0, 5, 0, 1⟩], Block.live⟩, scheme_t.FCFS, 1, [-1]⟩).queue.qArr.map
        (fun j => (j.id, j.finished, j.coreAssigned))
      = [(2, 0, 0), (1, 0, 0), (0, 1, -1)] ∧
    (fillIdleCores ⟨⟨compareFCFS, 3,
        [⟨2, 2, -1, -1, 1, -1, 0, 0, 0⟩, ⟨1, 1, -1, -1, 1, -1, 0, 0, 0⟩,
          ⟨0, 0, 5, -1, 5, 0, 5, 0, 1⟩], Block.live⟩, scheme_t.FCFS, 1, [-1]⟩).coreArr = [1] := by
  refine ⟨by rfl, by decide, by decide⟩

/-- C19: under the preemptive policies PSJF and PPRI no job is ever dispatched.  For every
core count and every sequence of arrival, completion and quantum-expiry events after
`scheduler_start_up` (completions naming valid core indices), in the state reached every
job has `coreAssigned = -1` and every core is idle, and every further call of
`scheduler_new_job` returns -1, every call of `scheduler_job_finished` on a valid core
returns -1 and every call of `scheduler_quantum_expired` returns -1. -/
theorem C19_preemptive_policies_dispatch_nothing (cores : Int) (scheme : scheme_t)
    (evs : List Event) (hp : preemptive scheme) (_hvalid : validCores cores evs) :
    (∀ job ∈ (run (scheduler_start_up cores scheme) evs).queue.qArr,
      job.coreAssigned = -1) ∧
    (run (scheduler_start_up cores scheme) evs).coreArr = List.replicate cores.toNat (-1) ∧
    (∀ job_number time running_time priority : Int,
      (scheduler_new_job (run (scheduler_start_up cores scheme) evs)
        job_number time running_time priority).1 = -1) ∧
    (∀ core_id job_number time : Int, 0 ≤ core_id → core_id < cores →
      (scheduler_job_finished (run (scheduler_start_up cores scheme) evs)
        core_id job_number time).1 = -1) ∧
    (∀ core_id time : Int,
      (scheduler_quantum_expired (run (scheduler_start_up cores scheme) evs)
        core_id time).1 = -1) := by
  have hinv := InvP_run cores scheme hp evs _ (InvP_start cores scheme)
  generalize run (scheduler_start_up cores scheme) evs = s at hinv ⊢
  refine ⟨hinv.2.2.2.1, ?_, ?_, ?_, fun _ _ => rfl⟩
  · obtain ⟨hw, _, h2, _, h5⟩ := hinv
    rw [← h2, ← hw.2]
    exact List.eq_replicate_iff.mpr ⟨rfl, h5⟩
  · intro jn time rt pr
    exact (new_job_preemptive cores scheme hp s hinv jn time rt pr).2
  · intro c jn time h0 h1
    exact (job_finished_preemptive cores scheme hp s hinv c jn time).2 h0 h1

/-- C19, at the PSJF scenario on one core: after the arrivals of jobs 1 and 2 no job
holds a core and core 0 is idle, a third arrival returns -1 and the completion of job 2
on core 0 returns -1. -/
theorem C19_preemptive_policies_dispatch_nothing_witness :
    (run (scheduler_start_up 1 scheme_t.PSJF)
      [Event.arrival 1 0 10 0, Event.arrival 2 1 2 0]).coreArr = [-1] ∧
    (scheduler_new_job (run (scheduler_start_up 1 scheme_t.PSJF)
      [Event.arrival 1 0 10 0, Event.arrival 2 1 2 0]) 3 2 1 0).1 = -1 ∧
    (scheduler_job_finished (run (scheduler_start_up 1 scheme_t.PSJF)
      [Event.arrival 1 0 10 0, Event.arrival 2 1 2 0]) 0 2 3).1 = -1 := by
  have h := C19_preemptive_policies_dispatch_nothing 1 scheme_t.PSJF
    [Event.arrival 1 0 10 0, Event.arrival 2 1 2 0] (by decide) (by decide)
  exact ⟨h.2.1, h.2.2.1 3 2 1 0, h.2.2.2.1 0 2 3 (by decide) (by decide)⟩

/-- C20: the `while` loop of `fillIdleCores` terminates on every engine state.  For every
state with a well-formed queue and every value of `nextCore`: one pass of the loop body
either finds no job (the loop exits by `break`) or strictly decreases the number of jobs
that are unfinished with `coreAssigned = -1`; the loop ends within (number of such jobs at
entry) + 1 evaluations of its condition, with the same result for any larger bound; and
this covers the loop as `fillIdleCores` runs it, whose result is the state the loop ends
in. -/
theorem C20_fill_loop_terminates (s : SchedState) (nextCore : Int)
    (hwf : WellFormed s.queue) :
    (nextCore ≠ -1 →
      (assignFirstWaiting s nextCore (List.range (priqueue_size s.queue).toNat)).2 = false ∨
      waitingCount (assignFirstWaiting s nextCore
          (List.range (priqueue_size s.queue).toNat)).1 < waitingCount s) ∧
    (∃ s1, ∀ fuel, waitingCount s + 1 ≤ fuel → fillLoop fuel s nextCore = some s1) ∧
    (∃ s1, fillLoop (waitingCount s + 1) s
        (findIdleCore s.coreArr (-1) (List.range s.coreCount.toNat)) = some s1 ∧
      (priqueue_size s.queue > 0 → fillIdleCores s = s1)) := by
  have hterm : ∀ nc : Int, ∃ s1, fillLoop (waitingCount s + 1) s nc = some s1 := by
    intro nc
    by_cases hnc : nc = -1
    · exact ⟨s, by rw [fillLoop, if_neg (by simpa using hnc)]⟩
    · obtain ⟨s1, h, _⟩ := fillLoop_spec (waitingCount s) s nc _ hwf hnc (le_refl _)
        (Nat.lt_succ_self _)
      exact ⟨s1, h⟩
  refine ⟨?_, ?_, ?_⟩
  · intro hnc
    rcases assignFirstWaiting_decreases s nextCore hwf hnc with h | h
    · left; exact h
    · right; omega
  · obtain ⟨s1, h⟩ := hterm nextCore
    refine ⟨s1, ?_⟩
    intro fuel hfuel
    obtain ⟨k, rfl⟩ : ∃ k, fuel = waitingCount s + 1 + k := ⟨fuel - (waitingCount s + 1), by omega⟩
    exact fillLoop_mono _ s nextCore s1 h k
  · obtain ⟨s1, h⟩ := hterm (findIdleCore s.coreArr (-1) (List.range s.coreCount.toNat))
    refine ⟨s1, h, ?_⟩
    intro hsz
    have hle : waitingCount s ≤ (priqueue_size s.queue).toNat := filter_length_le_size s hwf
    obtain ⟨k, hk⟩ : ∃ k, (priqueue_size s.queue).toNat + 1 = waitingCount s + 1 + k :=
      ⟨(priqueue_size s.queue).toNat - waitingCount s, by omega⟩
    unfold fillIdleCores
    rw [if_pos hsz]
    simp only [hk, fillLoop_mono _ s _ s1 h k]

/-- C20, at the state with two waiting jobs and one idle core: the loop ends within three
evaluations of its condition, and two do not suffice. -/
theorem C20_fill_loop_terminates_witness :
    waitingCount ⟨⟨compareFCFS, 3,
        [⟨2, 2, -1, -1, 1, -1, 0, 0, 0⟩, ⟨1, 1, -1, -1, 1, -1, 0, 0, 0⟩,
          ⟨0, 0, 5, -1, 5, 0, 5, 0, 1⟩], Block.live⟩, scheme_t.FCFS, 1, [-1]⟩ = 2 ∧
    (∃ s1, ∀ fuel, 2 + 1 ≤ fuel →
      fillLoop fuel ⟨⟨compareFCFS, 3,
        [⟨2, 2, -1, -1, 1, -1, 0, 0, 0⟩, ⟨1, 1, -1, -1, 1, -1, 0, 0, 0⟩,
          ⟨0, 0, 5, -1, 5, 0, 5, 0, 1⟩], Block.live⟩, scheme_t.FCFS, 1, [-1]⟩ 0 = some s1) ∧
    fillLoop 2 ⟨⟨compareFCFS, 3,
        [⟨2, 2, -1, -1, 1, -1, 0, 0, 0⟩, ⟨1, 1, -1, -1, 1, -1, 0, 0, 0⟩,
          ⟨0, 0, 5, -1, 5, 0, 5, 0, 1⟩], Block.live⟩, scheme_t.FCFS, 1, [-1]⟩ 0 = none :=
  ⟨by decide,
    (C20_fill_loop_terminates ⟨⟨compareFCFS, 3,
        [⟨2, 2, -1, -1, 1, -1, 0, 0, 0⟩, ⟨1, 1, -1, -1, 1, -1, 0, 0, 0⟩,
          ⟨0, 0, 5, -1, 5, 0, 5, 0, 1⟩], Block.live⟩, scheme_t.FCFS, 1, [-1]⟩ 0 (by decide)).2.1,
    by rfl⟩

/-- C18: the frame of `fillIdleCores`.  For every well-formed engine state, the call
leaves the size and the order of the queue, the comparator, the policy, the core count and
the number of cores as they were; every job stays at its position with every field but
`coreAssigned` unchanged, and a job that was finished or had `coreAssigned != -1` at entry
is unchanged in every field; and every core that was occupied at entry keeps its
occupant.  So the only writes are to `coreAssigned` of jobs that were unfinished and
unassigned at entry and to cores that were idle at entry. -/
theorem C18_fill_idle_cores_frame (s : SchedState) (hw : WFS s) :
    priqueue_size (fillIdleCores s).queue = priqueue_size s.queue ∧
    (fillIdleCores s).queue.qArr.length = s.queue.qArr.length ∧
    (fillIdleCores s).queue.compare = s.queue.compare ∧
    (fillIdleCores s).activeScheme = s.activeScheme ∧
    (fillIdleCores s).coreCount = s.coreCount ∧
    (fillIdleCores s).coreArr.length = s.coreArr.length ∧
    (∀ (i : Nat) (job : job_t), priqueue_at s.queue (i : Int) = some job →
      ∃ job1, priqueue_at (fillIdleCores s).queue (i : Int) = some job1 ∧
        job1.id = job.id ∧ job1.arrivalTime = job.arrivalTime ∧
        job1.endTime = job.endTime ∧ job1.duration = job.duration ∧
        job1.scheduleLatency = job.scheduleLatency ∧ job1.timeRun = job.timeRun ∧
        job1.priority = job.priority ∧ job1.finished = job.finished ∧
        ((job.finished ≠ 0 ∨ job.coreAssigned ≠ -1) → job1 = job)) ∧
    (∀ c : Nat, readCore s.coreArr (c : Int) ≠ -1 →
      readCore (fillIdleCores s).coreArr (c : Int) = readCore s.coreArr (c : Int)) := by
  obtain ⟨hsf, _⟩ := fillIdleCores_spec s hw
  have hw1 := sameFrame_wfs hsf hw
  obtain ⟨hk, hcore⟩ := fillIdleCores_frame s hw
  refine ⟨hsf.2.2.2.1, sameFrame_length hsf, hsf.2.2.1, hsf.1, hsf.2.1, hsf.2.2.2.2.2, ?_,
    hcore⟩
  intro i job hjob
  rw [priqueue_at_eq _ hw.1] at hjob
  obtain ⟨job1, hj1, he, hkeep⟩ := hk i job hjob
  refine ⟨job1, by rw [priqueue_at_eq _ hw1.1]; exact hj1, ?_⟩
  unfold eraseCore at he
  have e1 := congrArg job_t.id he
  have e2 := congrArg job_t.arrivalTime he
  have e3 := congrArg job_t.endTime he
  have e4 := congrArg job_t.duration he
  have e5 := congrArg job_t.scheduleLatency he
  have e6 := congrArg job_t.timeRun he
  have e7 := congrArg job_t.priority he
  have e8 := congrArg job_t.finished he
  refine ⟨e1, e2, e3, e4, e5, e6, e7, e8, ?_⟩
  intro hnot
  apply hkeep
  intro hwait
  rcases hnot with h | h
  · exact h hwait.1
  · exact h hwait.2

/-- C18, at the state with two waiting jobs, the finished job 0 and one idle core: the
finished job is unchanged, the waiting job at position 0 keeps every field but
`coreAssigned`, and the queue keeps its size. -/
theorem C18_fill_idle_cores_frame_witness :
    priqueue_size (fillIdleCores ⟨⟨compareFCFS, 3,
        [⟨2, 2, -1, -1, 1, -1, 0, 0, 0⟩, ⟨1, 1, -1, -1, 1, -1, 0, 0, 0⟩,
          ⟨0, 0, 5, -1, 5, 0, 5, 0, 1⟩], Block.live⟩, scheme_t.FCFS, 1, [-1]⟩).queue = 3 ∧
    priqueue_at (fillIdleCores ⟨⟨compareFCFS, 3,
        [⟨2, 2, -1, -1, 1, -1, 0, 0, 0⟩, ⟨1, 1, -1, -1, 1, -1, 0, 0, 0⟩,
          ⟨0, 0, 5, -1, 5, 0, 5, 0, 1⟩], Block.live⟩, scheme_t.FCFS, 1, [-1]⟩).queue 2
      = some ⟨0, 0, 5, -1, 5, 0, 5, 0, 1⟩ ∧
    priqueue_at (fillIdleCores ⟨⟨compareFCFS, 3,
        [⟨2, 2, -1, -1, 1, -1, 0, 0, 0⟩, ⟨1, 1, -1, -1, 1, -1, 0, 0, 0⟩,
          ⟨0, 0, 5, -1, 5, 0, 5, 0, 1⟩], Block.live⟩, scheme_t.FCFS, 1, [-1]⟩).queue 0
      = some ⟨2, 2, -1, 0, 1, -1, 0, 0, 0⟩ := by
  have h := C18_fill_idle_cores_frame ⟨⟨compareFCFS, 3,
    [⟨2, 2, -1, -1, 1, -1, 0, 0, 0⟩, ⟨1, 1, -1, -1, 1, -1, 0, 0, 0⟩,
      ⟨0, 0, 5, -1, 5, 0, 5, 0, 1⟩], Block.live⟩, scheme_t.FCFS, 1, [-1]⟩ ⟨by decide, by decide⟩
  refine ⟨h.1, ?_, by decide⟩
  obtain ⟨job1, hat, _, _, _, _, _, _, _, _, hsame⟩ :=
    h.2.2.2.2.2.2.1 2 ⟨0, 0, 5, -1, 5, 0, 5, 0, 1⟩ (by decide)
  rw [hsame (Or.inl (by decide))] at hat
  exact hat

end OSHW2
